import Mathlib

/-! Terminator: a terminal 3D renderer (terminator.cpp).

A shallow embedding of the render loop of terminator.cpp and the proofs of its
specified properties.

Conventions of the embedding:

* A C++ float is an IEEE-754 binary32 datum and a double a binary64 datum, both
  carried by the type Fl: a finite rational, negative zero, a signed infinity or
  NaN (one NaN, payloads are not tracked).  Every arithmetic operation computes
  the exact rational result and rounds it once, to nearest with ties to even, on
  the format of the operation (no excess precision, no fused multiply-add).
* The file includes math.h in C++, so cos and sin applied to a float are the
  float overloads; what they return is a property of the C library and is a
  parameter of the model (Platform.cos, Platform.sin).
* A machine int is an Int kept in the 32-bit two-complement range by wrap32.
* A float-to-int conversion truncates toward zero (toInt?); when the truncated
  value does not fit an int the language leaves the result open and the model
  takes it from the platform (Platform.castUndef).
* An access outside a vector or outside the frame buffer has no defined result:
  the operation returns none.
* Loop counters are natural numbers.
-/

namespace Terminator

/-! ## Floating point -/

/-- A floating-point datum: a finite rational (the value 0 is positive zero),
negative zero, an infinity with its sign, or NaN. -/
inductive Fl where
  | fin (q : ℚ)
  | nzero
  | inf (neg : Bool)
  | nan
deriving DecidableEq

/-- A binary floating-point format: number of significand bits and largest
exponent. -/
structure Fmt where
  prec : ℕ
  emax : ℤ

/-- The format of the C++ type float. -/
def binary32 : Fmt := ⟨24, 127⟩

/-- The format of the C++ type double. -/
def binary64 : Fmt := ⟨53, 1023⟩

/-- Number of binary digits of n, found by halving at most fuel times. -/
def bitLen : ℕ → ℕ → ℕ
  | 0, _ => 0
  | fuel + 1, n => if n = 0 then 0 else bitLen fuel (n / 2) + 1

/-- Floor of the base-2 logarithm of the absolute value of a nonzero rational. -/
def ilog2 (q : ℚ) : ℤ :=
  if |q| < 2 ^ ((bitLen q.num.natAbs q.num.natAbs : ℤ) - (bitLen q.den q.den : ℤ))
  then (bitLen q.num.natAbs q.num.natAbs : ℤ) - (bitLen q.den q.den : ℤ) - 1
  else (bitLen q.num.natAbs q.num.natAbs : ℤ) - (bitLen q.den q.den : ℤ)

/-- Exponent of the unit in the last place used to round q: the significand has
prec bits, and below the normal range the spacing is that of the subnormals. -/
def ulpExp (f : Fmt) (q : ℚ) : ℤ :=
  max (ilog2 q - ((f.prec : ℤ) - 1)) (2 - f.emax - (f.prec : ℤ))

/-- Nearest integer, ties to the even one. -/
def rne (r : ℚ) : ℤ :=
  if r - ⌊r⌋ < 1 / 2 then ⌊r⌋
  else if 1 / 2 < r - ⌊r⌋ then ⌊r⌋ + 1
  else if ⌊r⌋ % 2 = 0 then ⌊r⌋ else ⌊r⌋ + 1

/-- The rational q rounded to the nearest multiple of its unit in the last
place, ties to even, the exponent range unbounded above. -/
def roundQ (f : Fmt) (q : ℚ) : ℚ :=
  (rne (q / 2 ^ ulpExp f q) : ℚ) * 2 ^ ulpExp f q

namespace Fl

/-- A zero of the given sign. -/
def zero (neg : Bool) : Fl := if neg then nzero else fin 0

/-- Sign bit of a datum (false for NaN). -/
def sign : Fl → Bool
  | fin q => decide (q < 0)
  | nzero => true
  | inf b => b
  | nan => false

/-- Numeric value of a finite datum (0 for the others). -/
def toRat : Fl → ℚ
  | fin q => q
  | _ => 0

/-- Rounding of an exact nonzero result q to the format: overflow gives an
infinity, underflow to zero keeps the sign of q. -/
def round (f : Fmt) (q : ℚ) : Fl :=
  if (2 : ℚ) ^ (f.emax + 1) ≤ |roundQ f q| then inf (decide (q < 0))
  else if roundQ f q = 0 then zero (decide (q < 0))
  else fin (roundQ f q)

/-- A datum of the format: a finite value is one that rounding leaves alone. -/
def valid (f : Fmt) : Fl → Prop
  | fin q => round f q = fin q
  | _ => True

instance (f : Fmt) (x : Fl) : Decidable (valid f x) := by
  cases x <;> unfold valid <;> infer_instance

/-- Finite data: the zeros and the nonzero rationals. -/
def isFinite : Fl → Bool
  | fin _ => true
  | nzero => true
  | _ => false

/-- Negation (flips the sign bit). -/
def neg : Fl → Fl
  | fin q => if q = 0 then nzero else fin (-q)
  | nzero => fin 0
  | inf b => inf (!b)
  | nan => nan

/-- IEEE addition on the format f. -/
def add (f : Fmt) (x y : Fl) : Fl :=
  match x, y with
  | nan, _ => nan
  | _, nan => nan
  | inf a, inf b => if a = b then inf a else nan
  | inf a, _ => inf a
  | _, inf b => inf b
  | x, y =>
    if x.toRat + y.toRat = 0 then zero (x.sign && y.sign)
    else round f (x.toRat + y.toRat)

/-- IEEE subtraction on the format f. -/
def sub (f : Fmt) (x y : Fl) : Fl := add f x (neg y)

/-- IEEE multiplication on the format f. -/
def mul (f : Fmt) (x y : Fl) : Fl :=
  match x, y with
  | nan, _ => nan
  | _, nan => nan
  | inf a, y => if y.isFinite && decide (y.toRat = 0) then nan else inf (a != y.sign)
  | x, inf b => if x.isFinite && decide (x.toRat = 0) then nan else inf (x.sign != b)
  | x, y =>
    if x.toRat * y.toRat = 0 then zero (x.sign != y.sign)
    else round f (x.toRat * y.toRat)

/-- IEEE division on the format f; a zero divisor gives an infinity or NaN. -/
def div (f : Fmt) (x y : Fl) : Fl :=
  match x, y with
  | nan, _ => nan
  | _, nan => nan
  | inf _, inf _ => nan
  | inf a, y => inf (a != y.sign)
  | x, inf b => zero (x.sign != b)
  | x, y =>
    if y.toRat = 0 then (if x.toRat = 0 then nan else inf (x.sign != y.sign))
    else if x.toRat = 0 then zero (x.sign != y.sign)
    else round f (x.toRat / y.toRat)

/-- Conversion of a datum to the format f (double to float). -/
def cvt (f : Fmt) : Fl → Fl
  | fin q => if q = 0 then fin 0 else round f q
  | x => x

/-- Conversion of an int to float. -/
def ofInt (n : ℤ) : Fl := if n = 0 then fin 0 else round binary32 (n : ℚ)

/-- Truncation of a rational toward zero. -/
def trunc (q : ℚ) : ℤ := if 0 ≤ q then ⌊q⌋ else ⌈q⌉

/-- Conversion of a float to int where the language defines it: the value
truncated toward zero, when that fits a 32-bit int. -/
def toInt? : Fl → Option ℤ
  | fin q => if -2 ^ 31 ≤ trunc q ∧ trunc q < 2 ^ 31 then some (trunc q) else none
  | nzero => some 0
  | _ => none

end Fl

/-- What the program takes from its platform: the float overloads of cos and
sin, and the int produced by a float-to-int conversion whose operand is NaN,
infinite or out of the range of int. -/
structure Platform where
  cos : Fl → Fl
  sin : Fl → Fl
  castUndef : Fl → ℤ

/-- The cast (int)x as executed. -/
def toInt (P : Platform) (x : Fl) : ℤ := (Fl.toInt? x).getD (P.castUndef x)

/-- Reduction of an integer to the range of a 32-bit two-complement int. -/
def wrap32 (n : ℤ) : ℤ := (n + 2 ^ 31) % 2 ^ 32 - 2 ^ 31

/-- A sample platform: cos and sin by their Taylor polynomials of degree 4 and
3 rounded to float (exact at zero), and the x86-64 result of an out-of-range
conversion. -/
def samplePlatform : Platform where
  cos t := match t with
    | Fl.fin q => if q = 0 then Fl.fin 1 else Fl.round binary32 (1 - q ^ 2 / 2 + q ^ 4 / 24)
    | Fl.nzero => Fl.fin 1
    | _ => Fl.nan
  sin t := match t with
    | Fl.fin q => if q = 0 then Fl.fin 0 else Fl.round binary32 (q - q ^ 3 / 6)
    | Fl.nzero => Fl.nzero
    | _ => Fl.nan
  castUndef _ := -2 ^ 31

/-- A platform whose cos and sin are correctly rounded to binary32 at the
angles 4, -4 and 8 (cos 4 = -0.65364362..., sin 4 = -0.75680249...,
cos 8 = -0.14550003..., sin 8 = 0.98935824...), and as samplePlatform at every
other angle. -/
def tablePlatform : Platform where
  cos t :=
    if t = Fl.fin 4 ∨ t = Fl.fin (-4) then Fl.fin (-685395 / 1048576)
    else if t = Fl.fin 8 then Fl.fin (-4882171 / 33554432)
    else samplePlatform.cos t
  sin t :=
    if t = Fl.fin 4 then Fl.fin (-12697039 / 16777216)
    else if t = Fl.fin (-4) then Fl.fin (12697039 / 16777216)
    else if t = Fl.fin 8 then Fl.fin (16598677 / 16777216)
    else samplePlatform.sin t
  castUndef := samplePlatform.castUndef

/-! ## Vectors and loops -/

/-- The loop for (i = 0; i < n; i++) body, threading the state; none as soon as
an iteration has no defined result. -/
def forLoop {σ : Type} (n : ℕ) (body : ℕ → σ → Option σ) (init : σ) : Option σ :=
  match n with
  | 0 => some init
  | k + 1 => (forLoop k body init).bind (body k)

/-- The assignment v[i] = a on a vector; undefined outside the vector. -/
def vecSet (v : List Fl) (i : ℕ) (a : Fl) : Option (List Fl) :=
  if i < v.length then some (v.set i a) else none

/-! ## The program -/

/-- Buffer width. -/
def width : ℤ := 60

/-- Buffer height. -/
def height : ℤ := 60

/-- Cube vertices, x coordinates. -/
def x_values : List Fl :=
  [Fl.fin 1, Fl.fin (-1), Fl.fin 1, Fl.fin (-1), Fl.fin 1, Fl.fin (-1), Fl.fin 1, Fl.fin (-1)]

/-- Cube vertices, y coordinates. -/
def y_values : List Fl :=
  [Fl.fin 1, Fl.fin 1, Fl.fin (-1), Fl.fin (-1), Fl.fin 1, Fl.fin 1, Fl.fin (-1), Fl.fin (-1)]

/-- Cube vertices, z coordinates. -/
def z_values : List Fl :=
  [Fl.fin 3, Fl.fin 3, Fl.fin 3, Fl.fin 3, Fl.fin 4, Fl.fin 4, Fl.fin 4, Fl.fin 4]

/-- The function projection: output has the size of coord, and the loop runs
over the indices of z; camera_z is the global read by the function. -/
def projection (camera_z : Fl) (coord z : List Fl) : Option (List Fl) :=
  forLoop z.length
    (fun i output =>
      (coord[i]?).bind fun c =>
      (z[i]?).bind fun d =>
      vecSet output i (Fl.div binary32 c (Fl.add binary32 d camera_z)))
    (List.replicate coord.length (Fl.fin 0))

/-- The function rotate_x. -/
def rotate_x (P : Platform) (x y : List Fl) (theta : Fl) : Option (List Fl) :=
  forLoop x.length
    (fun i output =>
      (x[i]?).bind fun a =>
      (y[i]?).bind fun b =>
      vecSet output i
        (Fl.sub binary32 (Fl.mul binary32 a (P.cos theta)) (Fl.mul binary32 b (P.sin theta))))
    (List.replicate x.length (Fl.fin 0))

/-- The function rotate_y. -/
def rotate_y (P : Platform) (x y : List Fl) (theta : Fl) : Option (List Fl) :=
  forLoop x.length
    (fun i output =>
      (x[i]?).bind fun a =>
      (y[i]?).bind fun b =>
      vecSet output i
        (Fl.add binary32 (Fl.mul binary32 a (P.sin theta)) (Fl.mul binary32 b (P.cos theta))))
    (List.replicate x.length (Fl.fin 0))

/-- Camera position and rotation: the five globals camera_x, camera_y,
camera_z, theta_x, theta_y. -/
structure State where
  camera_x : ℤ
  camera_y : ℤ
  camera_z : Fl
  theta_x : Fl
  theta_y : Fl
deriving DecidableEq

/-- The globals as initialised. -/
def State.initial : State := ⟨0, 0, Fl.fin 0, Fl.fin 0, Fl.fin 0⟩

/-- A decimal literal of type double. -/
def lit64 (q : ℚ) : Fl := Fl.cvt binary64 (Fl.fin q)

/-- The statement v += c for a float v and a double c: the sum is formed in
double and converted back to float. -/
def addAssign (v c : Fl) : Fl := Fl.cvt binary32 (Fl.add binary64 v c)

/-- The statement v -= c for a float v and a double c. -/
def subAssign (v c : Fl) : Fl := Fl.cvt binary32 (Fl.sub binary64 v c)

/-- The ten if statements that follow getchar, in order, on the character
read. -/
def main_input (move : Char) (s : State) : State :=
  let s := if move = 'd' then { s with camera_x := wrap32 (s.camera_x - 5) } else s
  let s := if move = 'a' then { s with camera_x := wrap32 (s.camera_x + 5) } else s
  let s := if move = ' ' then { s with camera_y := wrap32 (s.camera_y + 5) } else s
  let s := if move = 'q' then { s with camera_y := wrap32 (s.camera_y - 5) } else s
  let s := if move = 'w' then { s with camera_z := subAssign s.camera_z (lit64 (1 / 2)) } else s
  let s := if move = 's' then { s with camera_z := addAssign s.camera_z (lit64 (1 / 2)) } else s
  let s := if move = 'l' then { s with theta_x := addAssign s.theta_x (lit64 (1 / 10)) } else s
  let s := if move = 'j' then { s with theta_x := subAssign s.theta_x (lit64 (1 / 10)) } else s
  let s := if move = 'i' then { s with theta_y := addAssign s.theta_y (lit64 (1 / 10)) } else s
  let s := if move = 'k' then { s with theta_y := subAssign s.theta_y (lit64 (1 / 10)) } else s
  s

/-- The graphics buffer char buffer[width][height]. -/
abbrev Buffer := Fin 60 → Fin 60 → Char

/-- The assignment buffer[a][b] = c; undefined outside the array. -/
def bufWrite (buf : Buffer) (a b : ℤ) (c : Char) : Option Buffer :=
  if 0 ≤ a ∧ a < width ∧ 0 ≤ b ∧ b < height then
    some (fun i j => if (i : ℤ) = a ∧ (j : ℤ) = b then c else buf i j)
  else none

/-- The two nested loops that fill the buffer with spaces. -/
def clear_buffer (buf : Buffer) : Option Buffer :=
  forLoop width.toNat
    (fun i buf => forLoop height.toNat (fun j buf => bufWrite buf i j ' ') buf)
    buf

/-- The column index a computed for a projected x (and likewise b for y, with
height and camera_y): (int)(p*(float)width/2)+width/2+camera. -/
def cellIndex (P : Platform) (p : Fl) (size camera : ℤ) : ℤ :=
  wrap32 (wrap32 (toInt P (Fl.div binary32 (Fl.mul binary32 p (Fl.ofInt size)) (Fl.ofInt 2))
    + size / 2) + camera)

/-- The body of the drawing loop for one computed pair (a, b): the guarded
write of the marker. -/
def plot (buf : Buffer) (a b : ℤ) : Option Buffer :=
  if a ≥ 0 ∧ b ≥ 0 ∧ a < width ∧ b < height then bufWrite buf a b 'k' else some buf

/-- The drawing loop over the projected vertices. -/
def rasterize (P : Platform) (x_projected y_projected : List Fl) (camera_x camera_y : ℤ)
    (buf : Buffer) : Option Buffer :=
  forLoop x_projected.length
    (fun i buf =>
      (x_projected[i]?).bind fun xp =>
      (y_projected[i]?).bind fun yp =>
      plot buf (cellIndex P xp width camera_x) (cellIndex P yp height camera_y))
    buf

/-- The pairs (a, b) that the drawing loop computes, vertex by vertex. -/
def cells (P : Platform) (x_projected y_projected : List Fl) (camera_x camera_y : ℤ) :
    List (ℤ × ℤ) :=
  List.zipWith (fun xp yp => (cellIndex P xp width camera_x, cellIndex P yp height camera_y))
    x_projected y_projected

/-- The transformed vertex sequences of one frame. -/
structure Transformed where
  x_rotated : List Fl
  z_rotated : List Fl
  y_rotated : List Fl
  z_rotated_again : List Fl
  x_projected : List Fl
  y_projected : List Fl
deriving DecidableEq

/-- The six assignments at the head of the main loop. -/
def main_transform (P : Platform) (s : State) : Option Transformed :=
  (rotate_x P x_values z_values s.theta_x).bind fun x_rotated =>
  (rotate_y P x_values z_values s.theta_x).bind fun z_rotated =>
  (rotate_x P y_values z_rotated s.theta_y).bind fun y_rotated =>
  (rotate_y P y_values z_rotated s.theta_y).bind fun z_rotated_again =>
  (projection s.camera_z x_rotated z_rotated_again).bind fun x_projected =>
  (projection s.camera_z y_rotated z_rotated_again).bind fun y_projected =>
  some ⟨x_rotated, z_rotated, y_rotated, z_rotated_again, x_projected, y_projected⟩

/-- Clearing the buffer and drawing the projected vertices into it. -/
def main_draw (P : Platform) (x_projected y_projected : List Fl) (camera_x camera_y : ℤ)
    (buf : Buffer) : Option Buffer :=
  (clear_buffer buf).bind (rasterize P x_projected y_projected camera_x camera_y)

/-- One iteration of the main loop up to the drawing loop: transform, clear,
draw. -/
def main_frame (P : Platform) (s : State) (buf : Buffer) : Option Buffer :=
  (main_transform P s).bind fun t =>
  main_draw P t.x_projected t.y_projected s.camera_x s.camera_y buf

/-- The read buffer[a][b]; undefined outside the array. -/
def bufRead (buf : Buffer) (a b : ℕ) : Option Char :=
  if h : a < 60 ∧ b < 60 then some (buf ⟨a, h.1⟩ ⟨b, h.2⟩) else none

/-- The output loops: for each i below height, the characters buffer[j][i] for
j below width are written to the standard output, then std::endl. The result is
the text appended to the stream. -/
def main_output (buf : Buffer) : Option (List Char) :=
  forLoop height.toNat
    (fun i out =>
      (forLoop width.toNat (fun j out => (bufRead buf j i).map fun c => out ++ [c]) out).map
        fun out => out ++ ['\n'])
    []

/-! ## Floating point: the rounding function -/

theorem bitLen_zero (fuel : ℕ) : bitLen fuel 0 = 0 := by
  cases fuel <;> simp [bitLen]

theorem bitLen_spec (fuel n : ℕ) (hn : 0 < n) (hf : n ≤ fuel) :
    2 ^ (bitLen fuel n - 1) ≤ n ∧ n < 2 ^ bitLen fuel n ∧ 1 ≤ bitLen fuel n := by
  induction fuel generalizing n with
  | zero => omega
  | succ k ih =>
    have hb : bitLen (k + 1) n = bitLen k (n / 2) + 1 := by
      simp only [bitLen, if_neg (by omega : ¬ n = 0)]
    rw [hb]
    by_cases h2 : n / 2 = 0
    · have h1 : n = 1 := by omega
      subst h1
      simp [bitLen_zero]
    · obtain ⟨h3, h4, h5⟩ := ih (n / 2) (by omega) (by omega)
      refine ⟨?_, ?_, by omega⟩
      · have he : bitLen k (n / 2) + 1 - 1 = (bitLen k (n / 2) - 1) + 1 := by omega
        rw [he, pow_succ]
        omega
      · rw [pow_succ]
        omega

theorem two_zpow_pos (e : ℤ) : (0 : ℚ) < 2 ^ e := zpow_pos (by norm_num) e

theorem abs_eq_natAbs_div (q : ℚ) : |q| = (q.num.natAbs : ℚ) / (q.den : ℚ) := by
  conv_lhs => rw [← Rat.num_div_den q]
  rw [abs_div, Nat.cast_natAbs, Int.cast_abs]
  congr 1
  exact abs_of_nonneg (by positivity)

theorem ilog2_spec (q : ℚ) (hq : q ≠ 0) :
    (2 : ℚ) ^ ilog2 q ≤ |q| ∧ |q| < 2 ^ (ilog2 q + 1) := by
  have ha : 0 < q.num.natAbs := Int.natAbs_pos.mpr (Rat.num_ne_zero.mpr hq)
  have hb : 0 < q.den := q.den_pos
  obtain ⟨a1, a2, a3⟩ := bitLen_spec _ _ ha le_rfl
  obtain ⟨b1, b2, b3⟩ := bitLen_spec _ _ hb le_rfl
  have hB : (0 : ℚ) < (q.den : ℚ) := by exact_mod_cast hb
  have habs := abs_eq_natAbs_div q
  set a := q.num.natAbs
  set b := q.den
  set la := bitLen a a
  set lb := bitLen b b
  -- bounds in ℚ
  have A1 : (2 : ℚ) ^ (la - 1) ≤ (a : ℚ) := by exact_mod_cast a1
  have A2 : (a : ℚ) < 2 ^ la := by exact_mod_cast a2
  have B1 : (2 : ℚ) ^ (lb - 1) ≤ (b : ℚ) := by exact_mod_cast b1
  have B2 : (b : ℚ) < 2 ^ lb := by exact_mod_cast b2
  have hla : (2 : ℚ) ^ la = 2 * 2 ^ (la - 1) := by
    conv_lhs => rw [show la = (la - 1) + 1 by omega]
    rw [pow_succ]; ring
  have hlb : (2 : ℚ) ^ lb = 2 * 2 ^ (lb - 1) := by
    conv_lhs => rw [show lb = (lb - 1) + 1 by omega]
    rw [pow_succ]; ring
  have hc : ∀ k : ℤ, (2 : ℚ) ^ ((la : ℤ) - (lb : ℤ) + k) = 2 ^ la / 2 ^ lb * 2 ^ k := by
    intro k
    rw [zpow_add₀ (by norm_num), zpow_sub₀ (by norm_num), zpow_natCast, zpow_natCast]
  have hpa : (0 : ℚ) < 2 ^ la := by positivity
  have hpb : (0 : ℚ) < 2 ^ lb := by positivity
  have hpa1 : (0 : ℚ) < 2 ^ (la - 1) := by positivity
  have hpb1 : (0 : ℚ) < 2 ^ (lb - 1) := by positivity
  have up : |q| < 2 ^ ((la : ℤ) - (lb : ℤ) + 1) := by
    rw [hc 1, habs, div_lt_iff₀ hB, hlb]
    have : (2 : ℚ) ^ la / (2 * 2 ^ (lb - 1)) * 2 ^ (1 : ℤ) * (b : ℚ) = 2 ^ la * ((b : ℚ) / 2 ^ (lb - 1)) := by
      field_simp
      ring
    rw [this]
    have h1 : (1 : ℚ) ≤ (b : ℚ) / 2 ^ (lb - 1) := by
      rw [le_div_iff₀ hpb1]; linarith
    nlinarith
  have lo : (2 : ℚ) ^ ((la : ℤ) - (lb : ℤ) + (-1)) ≤ |q| := by
    rw [hc (-1), habs, le_div_iff₀ hB, hla]
    have : (2 : ℚ) * 2 ^ (la - 1) / 2 ^ lb * 2 ^ (-1 : ℤ) * (b : ℚ) = 2 ^ (la - 1) * ((b : ℚ) / 2 ^ lb) := by
      rw [zpow_neg, zpow_one]
      field_simp
      ring
    rw [this]
    have h1 : (b : ℚ) / 2 ^ lb ≤ 1 := by
      rw [div_le_iff₀ hpb]; linarith
    nlinarith
  unfold ilog2
  split
  · rename_i hlt
    refine ⟨?_, ?_⟩
    · have : (la : ℤ) - (lb : ℤ) - 1 = (la : ℤ) - (lb : ℤ) + (-1) := by ring
      rw [this]; exact lo
    · have : (la : ℤ) - (lb : ℤ) - 1 + 1 = (la : ℤ) - (lb : ℤ) := by ring
      rw [this]; exact hlt
  · rename_i hge
    exact ⟨not_lt.mp hge, up⟩

theorem ilog2_unique (q : ℚ) (e : ℤ) (h1 : (2 : ℚ) ^ e ≤ |q|) (h2 : |q| < 2 ^ (e + 1)) :
    ilog2 q = e := by
  have hq : q ≠ 0 := by
    intro h0
    rw [h0, abs_zero] at h1
    exact absurd (two_zpow_pos e) (not_lt.mpr h1)
  obtain ⟨s1, s2⟩ := ilog2_spec q hq
  have l1 : ilog2 q < e + 1 :=
    (zpow_lt_zpow_iff_right₀ (by norm_num : (1 : ℚ) < 2)).mp (lt_of_le_of_lt s1 h2)
  have l2 : e < ilog2 q + 1 :=
    (zpow_lt_zpow_iff_right₀ (by norm_num : (1 : ℚ) < 2)).mp (lt_of_le_of_lt h1 s2)
  omega

theorem ilog2_two_mul (q : ℚ) (hq : q ≠ 0) : ilog2 (2 * q) = ilog2 q + 1 := by
  obtain ⟨s1, s2⟩ := ilog2_spec q hq
  apply ilog2_unique
  · rw [abs_mul, zpow_add_one₀ (by norm_num), abs_of_pos (by norm_num : (0 : ℚ) < 2)]
    linarith
  · rw [abs_mul, zpow_add_one₀ (by norm_num : (2 : ℚ) ≠ 0) (ilog2 q + 1),
      abs_of_pos (by norm_num : (0 : ℚ) < 2)]
    linarith


theorem rne_floor_or (r : ℚ) : rne r = ⌊r⌋ ∨ (rne r = ⌊r⌋ + 1 ∧ (1 : ℚ) / 2 ≤ r - ⌊r⌋) := by
  unfold rne
  split
  · exact Or.inl rfl
  · rename_i h1
    split
    · exact Or.inr ⟨rfl, not_lt.mp h1⟩
    · split
      · exact Or.inl rfl
      · exact Or.inr ⟨rfl, not_lt.mp h1⟩

theorem rne_intCast (n : ℤ) : rne (n : ℚ) = n := by
  unfold rne
  simp

theorem rne_le (r : ℚ) (N : ℤ) (h : r ≤ N) : rne r ≤ N := by
  rcases rne_floor_or r with h1 | ⟨h1, h2⟩
  · rw [h1]
    have h3 : ⌊r⌋ ≤ ⌊(N : ℚ)⌋ := Int.floor_le_floor h
    simpa using h3
  · rw [h1]
    have hlt : (⌊r⌋ : ℚ) < N := by linarith
    have : ⌊r⌋ < N := by exact_mod_cast hlt
    omega

theorem le_rne (r : ℚ) (N : ℤ) (h : (N : ℚ) ≤ r) : N ≤ rne r := by
  have hN : N ≤ ⌊r⌋ := Int.le_floor.mpr h
  rcases rne_floor_or r with h1 | ⟨h1, _⟩ <;> rw [h1] <;> omega

theorem roundQ_zero (f : Fmt) : roundQ f 0 = 0 := by
  unfold roundQ
  rw [zero_div]
  have : rne 0 = 0 := by simpa using rne_intCast 0
  rw [this]
  simp

/-- The least exponent of a unit in the last place: that of the subnormals. -/
theorem ulpExp_ge (f : Fmt) (q : ℚ) : 2 - f.emax - (f.prec : ℤ) ≤ ulpExp f q :=
  le_max_right _ _

theorem two_zpow_ne (e : ℤ) : (2 : ℚ) ^ e ≠ 0 := (two_zpow_pos e).ne'

theorem roundQ_of_int (f : Fmt) (r : ℚ) (z : ℤ) (h : r = (z : ℚ) * 2 ^ ulpExp f r) :
    roundQ f r = r := by
  unfold roundQ
  have : r / 2 ^ ulpExp f r = (z : ℚ) := by
    rw [div_eq_iff (two_zpow_ne _)]
    exact h
  rw [this, rne_intCast]
  exact h.symm

/-- A multiple z * 2^w of a power of two at or above the subnormal spacing,
with a significand z of at most prec bits (or exactly 2^prec), is left alone
by rounding. -/
theorem roundQ_representable (f : Fmt) (hp : 1 ≤ f.prec) (z w : ℤ)
    (hw : 2 - f.emax - (f.prec : ℤ) ≤ w) (hz : |z| ≤ 2 ^ f.prec) :
    roundQ f ((z : ℚ) * 2 ^ w) = (z : ℚ) * 2 ^ w := by
  by_cases hz0 : z = 0
  · subst hz0
    simp [roundQ_zero]
  set r : ℚ := (z : ℚ) * 2 ^ w with hr
  have hr0 : r ≠ 0 := mul_ne_zero (by exact_mod_cast hz0) (two_zpow_ne w)
  obtain ⟨s1, s2⟩ := ilog2_spec r hr0
  have habs : |r| = (|z| : ℤ) * (2 : ℚ) ^ w := by
    rw [hr, abs_mul, abs_of_pos (two_zpow_pos w)]
    push_cast
    rfl
  have hzq : ((|z| : ℤ) : ℚ) ≤ 2 ^ (f.prec : ℤ) := by
    rw [zpow_natCast]
    exact_mod_cast hz
  -- a power-of-two multiple of an integer
  have key : ∀ u : ℤ, u ≤ w → ∃ y : ℤ, r = (y : ℚ) * 2 ^ u := by
    intro u hu
    refine ⟨z * 2 ^ (w - u).toNat, ?_⟩
    have h1 : w = u + ((w - u).toNat : ℤ) := by
      rw [Int.toNat_of_nonneg (by omega)]; ring
    rw [hr]
    conv_lhs => rw [h1, zpow_add₀ (by norm_num : (2 : ℚ) ≠ 0), zpow_natCast]
    push_cast
    ring
  by_cases hlt : |z| < 2 ^ f.prec
  · -- the significand fits: the unit in the last place is at most 2^w
    have hzq' : ((|z| : ℤ) : ℚ) < 2 ^ (f.prec : ℤ) := by
      rw [zpow_natCast]
      exact_mod_cast hlt
    have hup : |r| < 2 ^ ((f.prec : ℤ) + w) := by
      rw [habs, zpow_add₀ (by norm_num : (2 : ℚ) ≠ 0)]
      exact mul_lt_mul_of_pos_right hzq' (two_zpow_pos w)
    have he : ilog2 r < (f.prec : ℤ) + w :=
      (zpow_lt_zpow_iff_right₀ (by norm_num : (1 : ℚ) < 2)).mp (lt_of_le_of_lt s1 hup)
    have hu : ulpExp f r ≤ w := by
      unfold ulpExp
      exact max_le (by omega) hw
    obtain ⟨y, hy⟩ := key _ hu
    exact roundQ_of_int f r y hy
  · -- the significand is 2^prec: the next binade, with a unit 2^(w+1)
    have hzeq : |z| = 2 ^ f.prec := le_antisymm hz (not_lt.mp hlt)
    have hzq' : ((|z| : ℤ) : ℚ) = 2 ^ (f.prec : ℤ) := by
      rw [zpow_natCast]
      exact_mod_cast hzeq
    have habs' : |r| = 2 ^ ((f.prec : ℤ) + w) := by
      rw [habs, hzq', zpow_add₀ (by norm_num : (2 : ℚ) ≠ 0)]
    have he : ilog2 r = (f.prec : ℤ) + w := by
      apply ilog2_unique
      · rw [habs']
      · rw [habs']
        exact zpow_lt_zpow_right₀ (by norm_num) (by omega)
    have hu : ulpExp f r = w + 1 := by
      unfold ulpExp
      rw [he]
      have : (f.prec : ℤ) + w - ((f.prec : ℤ) - 1) = w + 1 := by ring
      rw [this]
      exact max_eq_left (by omega)
    -- z = ± 2^prec is even
    have hex : ∃ y : ℤ, z = 2 * y := by
      have h2 : (2 : ℤ) ^ f.prec = 2 * 2 ^ (f.prec - 1) := by
        conv_lhs => rw [show f.prec = (f.prec - 1) + 1 by omega]
        rw [pow_succ]; ring
      rcases abs_cases z with ⟨h1, _⟩ | ⟨h1, _⟩
      · exact ⟨2 ^ (f.prec - 1), by rw [← h2, ← hzeq, h1]⟩
      · exact ⟨-2 ^ (f.prec - 1), by
          have : z = -|z| := by rw [h1]; ring
          rw [this, hzeq, h2]; ring⟩
    obtain ⟨y, hy⟩ := hex
    apply roundQ_of_int f r y
    rw [hu, hr, hy, zpow_add_one₀ (by norm_num : (2 : ℚ) ≠ 0)]
    push_cast
    ring

/-- What rounding returns is a multiple n * 2^u of a power of two at or above
the subnormal spacing, with a significand of at most prec bits (or 2^prec). -/
theorem roundQ_form (f : Fmt) (v : ℚ) :
    ∃ n u : ℤ, roundQ f v = (n : ℚ) * 2 ^ u ∧ 2 - f.emax - (f.prec : ℤ) ≤ u ∧
      |n| ≤ 2 ^ f.prec := by
  by_cases hv : v = 0
  · exact ⟨0, 2 - f.emax - (f.prec : ℤ), by simp [hv, roundQ_zero], le_rfl, by positivity⟩
  refine ⟨rne (v / 2 ^ ulpExp f v), ulpExp f v, rfl, ulpExp_ge f v, ?_⟩
  obtain ⟨_, s2⟩ := ilog2_spec v hv
  have hu : ilog2 v + 1 - ulpExp f v ≤ (f.prec : ℤ) := by
    have : ilog2 v - ((f.prec : ℤ) - 1) ≤ ulpExp f v := le_max_left _ _
    omega
  have hb : |v / 2 ^ ulpExp f v| ≤ 2 ^ (f.prec : ℤ) := by
    rw [abs_div, abs_of_pos (two_zpow_pos _), div_le_iff₀ (two_zpow_pos _),
      ← zpow_add₀ (by norm_num : (2 : ℚ) ≠ 0)]
    refine le_trans s2.le (zpow_le_zpow_right₀ (by norm_num) (by omega))
  rw [zpow_natCast] at hb
  have hb' := abs_le.mp hb
  rw [abs_le]
  constructor
  · apply le_rne
    push_cast
    exact hb'.1
  · apply rne_le
    push_cast
    exact hb'.2

/-- Rounding is idempotent. -/
theorem roundQ_idem (f : Fmt) (hp : 1 ≤ f.prec) (v : ℚ) :
    roundQ f (roundQ f v) = roundQ f v := by
  obtain ⟨n, u, h, hu, hn⟩ := roundQ_form f v
  rw [h]
  exact roundQ_representable f hp n u hu hn

/-- Doubling commutes with rounding on the multiples of the subnormal
spacing. -/
theorem roundQ_two_mul (f : Fmt) (v : ℚ) (y : ℤ)
    (hy : v = (y : ℚ) * 2 ^ (2 - f.emax - (f.prec : ℤ))) :
    roundQ f (2 * v) = 2 * roundQ f v := by
  by_cases hv : v = 0
  · simp [hv, roundQ_zero]
  by_cases hn : 2 - f.emax - (f.prec : ℤ) ≤ ilog2 v - ((f.prec : ℤ) - 1)
  · have hu : ulpExp f v = ilog2 v - ((f.prec : ℤ) - 1) := max_eq_left hn
    have hu2 : ulpExp f (2 * v) = ulpExp f v + 1 := by
      rw [hu]
      unfold ulpExp
      rw [ilog2_two_mul v hv]
      rw [max_eq_left (by omega)]
      ring
    unfold roundQ
    rw [hu2, zpow_add_one₀ (by norm_num : (2 : ℚ) ≠ 0)]
    have : 2 * v / (2 ^ ulpExp f v * 2) = v / 2 ^ ulpExp f v := by
      field_simp
      ring
    rw [this]
    ring
  · have hu : ulpExp f v = 2 - f.emax - (f.prec : ℤ) := max_eq_right (by omega)
    have hu2 : ulpExp f (2 * v) = 2 - f.emax - (f.prec : ℤ) := by
      unfold ulpExp
      rw [ilog2_two_mul v hv]
      exact max_eq_right (by omega)
    have h1 : roundQ f v = v := roundQ_of_int f v y (by rw [hu]; exact hy)
    have h2 : roundQ f (2 * v) = 2 * v := by
      apply roundQ_of_int f (2 * v) (2 * y)
      rw [hu2]
      push_cast
      rw [hy]
      ring
    rw [h1, h2]


/-! ## Floating point: the operations -/

theorem valid_fin (f : Fmt) (q : ℚ) (h : Fl.valid f (Fl.fin q)) :
    roundQ f q = q ∧ |q| < 2 ^ (f.emax + 1) := by
  have h : Fl.round f q = Fl.fin q := h
  unfold Fl.round at h
  split at h
  · exact absurd h (by simp)
  · rename_i hov
    split at h
    · rename_i h0
      unfold Fl.zero at h
      split at h
      · exact absurd h (by simp)
      · have hq : q = 0 := (Fl.fin.inj h).symm
        subst hq
        exact ⟨h0, by rw [abs_zero]; exact two_zpow_pos _⟩
    · have hq : roundQ f q = q := Fl.fin.inj h
      rw [hq] at hov
      exact ⟨hq, not_le.mp hov⟩

theorem valid_fin_multiple (f : Fmt) (q : ℚ) (h : Fl.valid f (Fl.fin q)) :
    ∃ y : ℤ, q = (y : ℚ) * 2 ^ (2 - f.emax - (f.prec : ℤ)) := by
  obtain ⟨n, u, h1, hu, _⟩ := roundQ_form f q
  rw [(valid_fin f q h).1] at h1
  refine ⟨n * 2 ^ (u - (2 - f.emax - (f.prec : ℤ))).toNat, ?_⟩
  have h2 : u = (2 - f.emax - (f.prec : ℤ)) + ((u - (2 - f.emax - (f.prec : ℤ))).toNat : ℤ) := by
    rw [Int.toNat_of_nonneg (by omega)]; ring
  rw [h1]
  conv_lhs => rw [h2, zpow_add₀ (by norm_num : (2 : ℚ) ≠ 0), zpow_natCast]
  push_cast
  ring

theorem round_of_valid (f : Fmt) (q : ℚ) (h : Fl.valid f (Fl.fin q)) :
    Fl.round f q = Fl.fin q := h

/-- Multiplying a float by 1 returns it. -/
theorem mul_one_eq (f : Fmt) (x : Fl) (h : Fl.valid f x) : Fl.mul f x (Fl.fin 1) = x := by
  cases x with
  | nan => rfl
  | inf a => cases a <;> simp [Fl.mul, Fl.isFinite, Fl.toRat, Fl.sign]
  | nzero => simp [Fl.mul, Fl.toRat, Fl.sign, Fl.zero]
  | fin q =>
    by_cases hq : q = 0
    · subst hq
      simp [Fl.mul, Fl.toRat, Fl.sign, Fl.zero]
    · simp only [Fl.mul, Fl.toRat, mul_one, if_neg hq]
      exact h

/-- Multiplying a finite float by zero gives the zero with the sign of the
float. -/
theorem mul_zero_eq (f : Fmt) (x : Fl) (h : x.isFinite = true) :
    Fl.mul f x (Fl.fin 0) = Fl.zero x.sign := by
  cases x with
  | nan => simp [Fl.isFinite] at h
  | inf a => simp [Fl.isFinite] at h
  | nzero => simp [Fl.mul, Fl.toRat, Fl.sign]
  | fin q => simp [Fl.mul, Fl.toRat, Fl.sign]

theorem neg_zero_eq (s : Bool) : Fl.neg (Fl.zero s) = Fl.zero (!s) := by
  cases s <;> simp [Fl.zero, Fl.neg]

theorem zero_isFinite (s : Bool) : (Fl.zero s).isFinite = true := by
  cases s <;> rfl

theorem zero_toRat (s : Bool) : (Fl.zero s).toRat = 0 := by
  cases s <;> rfl

theorem zero_sign (s : Bool) : (Fl.zero s).sign = s := by
  cases s <;> simp [Fl.zero, Fl.sign]

/-- Adding a zero to a finite float returns the same number, and the same
datum unless the float is a negative zero. -/
theorem add_zero_eq (f : Fmt) (x : Fl) (s : Bool) (hf : x.isFinite = true)
    (h : Fl.valid f x) :
    (Fl.add f x (Fl.zero s)).isFinite = true ∧ (Fl.add f x (Fl.zero s)).toRat = x.toRat ∧
      (x ≠ Fl.nzero → Fl.add f x (Fl.zero s) = x) := by
  cases x with
  | nan => simp [Fl.isFinite] at hf
  | inf a => simp [Fl.isFinite] at hf
  | nzero => cases s <;> simp [Fl.add, Fl.zero, Fl.toRat, Fl.sign, Fl.isFinite]
  | fin q =>
    by_cases hq : q = 0
    · subst hq
      cases s <;> simp [Fl.add, Fl.zero, Fl.toRat, Fl.sign, Fl.isFinite]
    · have hr : Fl.round f q = Fl.fin q := h
      cases s <;> simp [Fl.add, Fl.zero, Fl.toRat, hq, hr, Fl.isFinite]

theorem zero_add_eq (f : Fmt) (x : Fl) (s : Bool) (hf : x.isFinite = true)
    (h : Fl.valid f x) :
    (Fl.add f (Fl.zero s) x).isFinite = true ∧ (Fl.add f (Fl.zero s) x).toRat = x.toRat ∧
      (x ≠ Fl.nzero → Fl.add f (Fl.zero s) x = x) := by
  cases x with
  | nan => simp [Fl.isFinite] at hf
  | inf a => simp [Fl.isFinite] at hf
  | nzero => cases s <;> simp [Fl.add, Fl.zero, Fl.toRat, Fl.sign, Fl.isFinite]
  | fin q =>
    by_cases hq : q = 0
    · subst hq
      cases s <;> simp [Fl.add, Fl.zero, Fl.toRat, Fl.sign, Fl.isFinite]
    · have hr : Fl.round f q = Fl.fin q := h
      cases s <;> simp [Fl.add, Fl.zero, Fl.toRat, hq, hr, Fl.isFinite]

/-- The two element expressions of a rotation whose cosine is 1 and sine 0. -/
theorem rotate_zero_elem (a b : Fl) (ha : a.isFinite = true) (hb : b.isFinite = true)
    (va : Fl.valid binary32 a) (vb : Fl.valid binary32 b) :
    ((Fl.sub binary32 (Fl.mul binary32 a (Fl.fin 1)) (Fl.mul binary32 b (Fl.fin 0))).isFinite
        = true ∧
      (Fl.sub binary32 (Fl.mul binary32 a (Fl.fin 1)) (Fl.mul binary32 b (Fl.fin 0))).toRat
        = a.toRat ∧
      (a ≠ Fl.nzero →
        Fl.sub binary32 (Fl.mul binary32 a (Fl.fin 1)) (Fl.mul binary32 b (Fl.fin 0)) = a)) ∧
    ((Fl.add binary32 (Fl.mul binary32 a (Fl.fin 0)) (Fl.mul binary32 b (Fl.fin 1))).isFinite
        = true ∧
      (Fl.add binary32 (Fl.mul binary32 a (Fl.fin 0)) (Fl.mul binary32 b (Fl.fin 1))).toRat
        = b.toRat ∧
      (b ≠ Fl.nzero →
        Fl.add binary32 (Fl.mul binary32 a (Fl.fin 0)) (Fl.mul binary32 b (Fl.fin 1)) = b)) := by
  rw [mul_one_eq _ a va, mul_one_eq _ b vb, mul_zero_eq _ a ha, mul_zero_eq _ b hb]
  unfold Fl.sub
  rw [neg_zero_eq]
  exact ⟨add_zero_eq _ a _ ha va, zero_add_eq _ b _ hb vb⟩


theorem round_eq_fin (f : Fmt) (q : ℚ) (h1 : |roundQ f q| < 2 ^ (f.emax + 1))
    (h2 : roundQ f q ≠ 0) : Fl.round f q = Fl.fin (roundQ f q) := by
  unfold Fl.round
  rw [if_neg (not_le.mpr h1), if_neg h2]

theorem round_eq_zero (f : Fmt) (q : ℚ) (h : roundQ f q = 0) :
    Fl.round f q = Fl.zero (decide (q < 0)) := by
  unfold Fl.round
  rw [if_neg (by rw [h, abs_zero]; exact not_le.mpr (two_zpow_pos _)), if_pos h]

theorem round_eq_inf (f : Fmt) (q : ℚ) (h : (2 : ℚ) ^ (f.emax + 1) ≤ |roundQ f q|) :
    Fl.round f q = Fl.inf (decide (q < 0)) := by
  unfold Fl.round
  rw [if_pos h]

theorem mul_fin_fin (f : Fmt) (a b : ℚ) (h : a * b ≠ 0) :
    Fl.mul f (Fl.fin a) (Fl.fin b) = Fl.round f (a * b) := by
  simp only [Fl.mul, Fl.toRat, if_neg h]

theorem div_fin_fin (f : Fmt) (a b : ℚ) (ha : a ≠ 0) (hb : b ≠ 0) :
    Fl.div f (Fl.fin a) (Fl.fin b) = Fl.round f (a / b) := by
  simp only [Fl.div, Fl.toRat, if_neg ha, if_neg hb]

theorem div_zero_fin (f : Fmt) (s : Bool) (b : ℚ) (hb : 0 < b) :
    Fl.div f (Fl.zero s) (Fl.fin b) = Fl.zero s := by
  have h1 : ¬ b < 0 := not_lt.mpr hb.le
  cases s <;> simp [Fl.div, Fl.zero, Fl.toRat, Fl.sign, hb.ne', h1]

theorem mul_zero_fin (f : Fmt) (s : Bool) (b : ℚ) (hb : 0 < b) :
    Fl.mul f (Fl.zero s) (Fl.fin b) = Fl.zero s := by
  have h1 : ¬ b < 0 := not_lt.mpr hb.le
  cases s <;> simp [Fl.mul, Fl.zero, Fl.toRat, Fl.sign, h1]

theorem trunc_abs_lt (r : ℚ) (N : ℤ) (h1 : -N ≤ Fl.trunc r) (h2 : Fl.trunc r < N) :
    |r| < (N : ℚ) + 1 := by
  unfold Fl.trunc at h1 h2
  rw [abs_lt]
  split at h1
  · rename_i h0
    rw [if_pos h0] at h2
    have h3 : r < (⌊r⌋ : ℚ) + 1 := Int.lt_floor_add_one r
    have h4 : ((⌊r⌋ : ℤ) : ℚ) + 1 ≤ (N : ℚ) := by exact_mod_cast h2
    constructor <;> linarith
  · rename_i h0
    have h3 : (⌈r⌉ : ℚ) < r + 1 := Int.ceil_lt_add_one r
    have h4 : ((-N : ℤ) : ℚ) ≤ ((⌈r⌉ : ℤ) : ℚ) := by exact_mod_cast h1
    push_cast at h4
    have h5 : (0 : ℚ) ≤ (N : ℚ) := by
      have : (0 : ℤ) ≤ N := by
        have h6 : ⌈r⌉ ≤ 0 := Int.ceil_le.mpr (by push_cast; linarith [not_le.mp h0])
        omega
      exact_mod_cast this
    constructor <;> linarith [not_le.mp h0]

/-- Truncation moves toward zero by less than one. -/
theorem trunc_toward_zero (q : ℚ) : |(Fl.trunc q : ℚ)| ≤ |q| ∧ |q - (Fl.trunc q : ℚ)| < 1 := by
  unfold Fl.trunc
  split
  · rename_i h0
    have h1 : (⌊q⌋ : ℚ) ≤ q := Int.floor_le q
    have h2 : q < (⌊q⌋ : ℚ) + 1 := Int.lt_floor_add_one q
    have h3 : (0 : ℚ) ≤ (⌊q⌋ : ℚ) := by exact_mod_cast Int.floor_nonneg.mpr h0
    rw [abs_of_nonneg h3, abs_of_nonneg h0, abs_lt]
    exact ⟨h1, by linarith, by linarith⟩
  · rename_i h0
    have h0' : q < 0 := not_le.mp h0
    have h1 : q ≤ (⌈q⌉ : ℚ) := Int.le_ceil q
    have h2 : (⌈q⌉ : ℚ) < q + 1 := Int.ceil_lt_add_one q
    have h3 : (⌈q⌉ : ℚ) ≤ 0 := by exact_mod_cast Int.ceil_le.mpr (by push_cast; linarith)
    rw [abs_of_nonpos h3, abs_of_neg h0', abs_lt]
    exact ⟨by linarith, by linarith, by linarith⟩

theorem toInt?_eq_some (v : Fl) (t : ℤ) (h : Fl.toInt? v = some t) :
    v.isFinite = true ∧ t = Fl.trunc v.toRat ∧ -2 ^ 31 ≤ t ∧ t < 2 ^ 31 := by
  cases v with
  | nan => simp [Fl.toInt?] at h
  | inf a => simp [Fl.toInt?] at h
  | nzero =>
    simp only [Fl.toInt?, Option.some.injEq] at h
    subst h
    simp [Fl.isFinite, Fl.toRat, Fl.trunc]
  | fin q =>
    have h' : (if -2 ^ 31 ≤ Fl.trunc q ∧ Fl.trunc q < 2 ^ 31 then some (Fl.trunc q) else none)
        = some t := h
    split at h'
    · rename_i hr
      have ht : Fl.trunc q = t := Option.some.inj h'
      subst ht
      exact ⟨rfl, rfl, hr.1, hr.2⟩
    · exact absurd h' (by simp)

/-- On a float x whose product with 60 does not overflow, multiplying by
(float)width and dividing by 2 is the same as multiplying by 30. -/
theorem mul_width_div_two (x : Fl) (hv : Fl.valid binary32 x)
    (hfin : (Fl.mul binary32 x (Fl.fin 60)).isFinite = true) :
    Fl.div binary32 (Fl.mul binary32 x (Fl.fin 60)) (Fl.fin 2) =
      Fl.mul binary32 x (Fl.fin 30) := by
  cases x with
  | nan => simp [Fl.mul, Fl.isFinite] at hfin
  | inf a => simp [Fl.mul, Fl.isFinite, Fl.toRat] at hfin
  | nzero =>
    show Fl.div binary32 (Fl.mul binary32 (Fl.zero true) (Fl.fin 60)) (Fl.fin 2) =
      Fl.mul binary32 (Fl.zero true) (Fl.fin 30)
    rw [mul_zero_fin _ _ _ (by norm_num), mul_zero_fin _ _ _ (by norm_num),
      div_zero_fin _ _ _ (by norm_num)]
  | fin q =>
    by_cases hq : q = 0
    · subst hq
      show Fl.div binary32 (Fl.mul binary32 (Fl.zero false) (Fl.fin 60)) (Fl.fin 2) =
        Fl.mul binary32 (Fl.zero false) (Fl.fin 30)
      rw [mul_zero_fin _ _ _ (by norm_num), mul_zero_fin _ _ _ (by norm_num),
        div_zero_fin _ _ _ (by norm_num)]
    · have h30 : q * 30 ≠ 0 := mul_ne_zero hq (by norm_num)
      have h60 : q * 60 ≠ 0 := mul_ne_zero hq (by norm_num)
      rw [mul_fin_fin _ _ _ h30, mul_fin_fin _ _ _ h60] at *
      obtain ⟨y, hy⟩ := valid_fin_multiple binary32 q hv
      have hA : roundQ binary32 (q * 60) = 2 * roundQ binary32 (q * 30) := by
        have h1 : q * 60 = 2 * (q * 30) := by ring
        rw [h1]
        apply roundQ_two_mul binary32 (q * 30) (30 * y)
        rw [hy]
        push_cast
        ring
      have hs : decide (q * 60 < 0) = decide (q * 30 < 0) := by
        have : (q * 60 < 0) ↔ (q * 30 < 0) := by
          constructor <;> intro h <;> nlinarith
        simp only [this]
      by_cases hov : (2 : ℚ) ^ (binary32.emax + 1) ≤ |roundQ binary32 (q * 60)|
      · rw [round_eq_inf _ _ hov] at hfin
        simp [Fl.isFinite] at hfin
      · have hov' : |roundQ binary32 (q * 60)| < 2 ^ (binary32.emax + 1) := not_le.mp hov
        by_cases hr : roundQ binary32 (q * 30) = 0
        · have hr60 : roundQ binary32 (q * 60) = 0 := by rw [hA, hr, mul_zero]
          rw [round_eq_zero _ _ hr, round_eq_zero _ _ hr60, hs]
          exact div_zero_fin _ _ 2 (by norm_num)
        · have hr60 : roundQ binary32 (q * 60) ≠ 0 := by
            rw [hA]
            exact mul_ne_zero (by norm_num) hr
          have hlt : |roundQ binary32 (q * 30)| < 2 ^ (binary32.emax + 1) := by
            rw [hA, abs_mul, abs_of_pos (by norm_num : (0 : ℚ) < 2)] at hov'
            have : (0 : ℚ) ≤ |roundQ binary32 (q * 30)| := abs_nonneg _
            linarith
          rw [round_eq_fin _ _ hov' hr60, round_eq_fin _ _ hlt hr,
            div_fin_fin _ _ _ hr60 (by norm_num), hA]
          have h2 : 2 * roundQ binary32 (q * 30) / 2 = roundQ binary32 (q * 30) := by ring
          rw [h2]
          have hid := roundQ_idem binary32 (by decide) (q * 30)
          rw [round_eq_fin _ _ (by rw [hid]; exact hlt) (by rw [hid]; exact hr), hid]

/-- A product with 30 that converts to int does so identically when formed
as ((x * 60) / 2). -/
theorem toInt?_width_half (x : Fl) (hv : Fl.valid binary32 x) (t : ℤ)
    (h : Fl.toInt? (Fl.mul binary32 x (Fl.fin 30)) = some t) :
    Fl.toInt? (Fl.div binary32 (Fl.mul binary32 x (Fl.fin 60)) (Fl.fin 2)) = some t := by
  have hfin : (Fl.mul binary32 x (Fl.fin 60)).isFinite = true := by
    cases x with
    | nan => simp [Fl.mul, Fl.toInt?] at h
    | inf a => simp [Fl.mul, Fl.toInt?, Fl.isFinite, Fl.toRat] at h
    | nzero =>
      show (Fl.mul binary32 (Fl.zero true) (Fl.fin 60)).isFinite = true
      rw [mul_zero_fin _ _ _ (by norm_num)]
      rfl
    | fin q =>
      by_cases hq : q = 0
      · subst hq
        show (Fl.mul binary32 (Fl.zero false) (Fl.fin 60)).isFinite = true
        rw [mul_zero_fin _ _ _ (by norm_num)]
        rfl
      · have h30 : q * 30 ≠ 0 := mul_ne_zero hq (by norm_num)
        have h60 : q * 60 ≠ 0 := mul_ne_zero hq (by norm_num)
        rw [mul_fin_fin _ _ _ h30] at h
        rw [mul_fin_fin _ _ _ h60]
        obtain ⟨y, hy⟩ := valid_fin_multiple binary32 q hv
        have hA : roundQ binary32 (q * 60) = 2 * roundQ binary32 (q * 30) := by
          have h1 : q * 60 = 2 * (q * 30) := by ring
          rw [h1]
          apply roundQ_two_mul binary32 (q * 30) (30 * y)
          rw [hy]
          push_cast
          ring
        by_cases hr : roundQ binary32 (q * 30) = 0
        · rw [round_eq_zero _ _ (by rw [hA, hr, mul_zero])]
          exact zero_isFinite _
        · by_cases hov : (2 : ℚ) ^ (binary32.emax + 1) ≤ |roundQ binary32 (q * 30)|
          · rw [round_eq_inf _ _ hov] at h
            simp [Fl.toInt?] at h
          · rw [round_eq_fin _ _ (not_le.mp hov) hr] at h
            obtain ⟨_, ht, h1, h2⟩ := toInt?_eq_some _ _ h
            rw [ht] at h1 h2
            simp only [Fl.toRat] at h1 h2
            have hb := trunc_abs_lt _ (2 ^ 31) h1 h2
            have hlt : |roundQ binary32 (q * 60)| < 2 ^ (binary32.emax + 1) := by
              rw [hA, abs_mul, abs_of_pos (by norm_num : (0 : ℚ) < 2)]
              have h128 : (2 : ℚ) ^ (binary32.emax + 1) = 2 ^ (128 : ℕ) := by
                rw [← zpow_natCast]; rfl
              rw [h128]
              push_cast at hb
              norm_num at hb ⊢
              linarith
            rw [round_eq_fin _ _ hlt (by rw [hA]; exact mul_ne_zero (by norm_num) hr)]
            rfl
  rw [mul_width_div_two x hv hfin]
  exact h

theorem toInt_eq (P : Platform) (x : Fl) (t : ℤ) (h : Fl.toInt? x = some t) :
    toInt P x = t := by
  unfold toInt
  rw [h]
  rfl

theorem wrap32_wrap32_add (a b : ℤ) : wrap32 (wrap32 a + b) = wrap32 (a + b) := by
  unfold wrap32
  omega

theorem wrap32_eq_self (n : ℤ) (h1 : -2 ^ 31 ≤ n) (h2 : n < 2 ^ 31) : wrap32 n = n := by
  unfold wrap32
  omega

theorem cellIndex_eq (P : Platform) (p : Fl) (size camera t : ℤ)
    (h : Fl.toInt? (Fl.div binary32 (Fl.mul binary32 p (Fl.ofInt size)) (Fl.ofInt 2)) = some t) :
    cellIndex P p size camera = wrap32 (t + size / 2 + camera) := by
  unfold cellIndex
  rw [toInt_eq P _ t h, wrap32_wrap32_add]

theorem ofInt_60 : Fl.ofInt 60 = Fl.fin 60 := by decide!

theorem ofInt_2 : Fl.ofInt 2 = Fl.fin 2 := by decide!


/-! ## Loops -/

theorem forLoop_fill (m : ℕ) (body : ℕ → List Fl → Option (List Fl)) (f : ℕ → Fl)
    (init : List Fl) (hinit : init.length = m) (n : ℕ) (hnm : n ≤ m)
    (hbody : ∀ i, i < n → ∀ out : List Fl, out.length = m →
      body i out = some (out.set i (f i))) :
    ∃ out, forLoop n body init = some out ∧ out.length = m ∧
      (∀ i, i < n → out[i]? = some (f i)) ∧ (∀ i, n ≤ i → out[i]? = init[i]?) := by
  induction n with
  | zero => exact ⟨init, rfl, hinit, by simp, by simp⟩
  | succ k ih =>
    obtain ⟨out, h1, h2, h3, h4⟩ := ih (by omega) (fun i hi => hbody i (by omega))
    refine ⟨out.set k (f k), ?_, ?_, ?_, ?_⟩
    · simp [forLoop, h1, hbody k (by omega) out h2]
    · simp [h2]
    · intro i hi
      by_cases hik : k = i
      · subst hik
        rw [List.getElem?_set_self (by omega)]
      · rw [List.getElem?_set_ne hik]
        exact h3 i (by omega)
    · intro i hi
      rw [List.getElem?_set_ne (by omega)]
      exact h4 i (by omega)

theorem forLoop_zipWith (g : Fl → Fl → Fl) (x y : List Fl) (n : ℕ)
    (hx : x.length = n) (hy : y.length = n) :
    forLoop n
      (fun i output => (x[i]?).bind fun a => (y[i]?).bind fun b => vecSet output i (g a b))
      (List.replicate n (Fl.fin 0)) = some (List.zipWith g x y) := by
  obtain ⟨out, h1, h2, h3, _⟩ := forLoop_fill n
    (fun i output => (x[i]?).bind fun a => (y[i]?).bind fun b => vecSet output i (g a b))
    (fun i => g (x.getD i (Fl.fin 0)) (y.getD i (Fl.fin 0)))
    (List.replicate n (Fl.fin 0)) (by simp) n le_rfl
    (by
      intro i hi out hout
      have hxi : x[i]? = some (x.getD i (Fl.fin 0)) := by
        rw [List.getD_eq_getElem?_getD, List.getElem?_eq_getElem (by omega)]; rfl
      have hyi : y[i]? = some (y.getD i (Fl.fin 0)) := by
        rw [List.getD_eq_getElem?_getD, List.getElem?_eq_getElem (by omega)]; rfl
      simp only [hxi, hyi, Option.some_bind, vecSet, hout, hi, if_true])
  rw [h1]
  congr 1
  apply List.ext_getElem?
  intro i
  by_cases hi : i < n
  · rw [h3 i hi, List.getElem?_zipWith]
    have hxi : x[i]? = some (x.getD i (Fl.fin 0)) := by
      rw [List.getD_eq_getElem?_getD, List.getElem?_eq_getElem (by omega)]; rfl
    have hyi : y[i]? = some (y.getD i (Fl.fin 0)) := by
      rw [List.getD_eq_getElem?_getD, List.getElem?_eq_getElem (by omega)]; rfl
    rw [hxi, hyi]
  · rw [List.getElem?_eq_none (by omega), List.getElem?_eq_none (by simp; omega)]

theorem rotate_x_eq (P : Platform) (x y : List Fl) (theta : Fl) (h : x.length = y.length) :
    rotate_x P x y theta = some (List.zipWith (fun a b =>
      Fl.sub binary32 (Fl.mul binary32 a (P.cos theta)) (Fl.mul binary32 b (P.sin theta))) x y) :=
  forLoop_zipWith _ x y x.length rfl h.symm

theorem rotate_y_eq (P : Platform) (x y : List Fl) (theta : Fl) (h : x.length = y.length) :
    rotate_y P x y theta = some (List.zipWith (fun a b =>
      Fl.add binary32 (Fl.mul binary32 a (P.sin theta)) (Fl.mul binary32 b (P.cos theta))) x y) :=
  forLoop_zipWith _ x y x.length rfl h.symm

theorem projection_eq (camera_z : Fl) (coord z : List Fl) (h : coord.length = z.length) :
    projection camera_z coord z = some (List.zipWith (fun c d =>
      Fl.div binary32 c (Fl.add binary32 d camera_z)) coord z) := by
  unfold projection
  rw [h]
  exact forLoop_zipWith _ coord z z.length h rfl

/-- C1: for equal-length sequences A, B and any angle theta, rotate_x and
rotate_y return sequences of the length of A whose elements at every index i are
A[i]*cos(theta) - B[i]*sin(theta) and A[i]*sin(theta) + B[i]*cos(theta), the
products, difference and sum being those of float arithmetic. -/
theorem C1_rotate_elements (P : Platform) (A B : List Fl) (theta : Fl)
    (h : A.length = B.length) :
    ∃ X Y, rotate_x P A B theta = some X ∧ rotate_y P A B theta = some Y ∧
      X.length = A.length ∧ Y.length = A.length ∧
      ∀ (i : ℕ) a b, A[i]? = some a → B[i]? = some b →
        X[i]? = some (Fl.sub binary32 (Fl.mul binary32 a (P.cos theta))
          (Fl.mul binary32 b (P.sin theta))) ∧
        Y[i]? = some (Fl.add binary32 (Fl.mul binary32 a (P.sin theta))
          (Fl.mul binary32 b (P.cos theta))) := by
  refine ⟨_, _, rotate_x_eq P A B theta h, rotate_y_eq P A B theta h, ?_, ?_, ?_⟩
  · simp [h]
  · simp [h]
  · intro i a b ha hb
    simp [List.getElem?_zipWith, ha, hb]

/-- Witness of C1 on the sample platform: the vertex (x, z) = (1, 3) and
(-1, 4) rotated by the angle 1/2. -/
theorem C1_rotate_elements_witness :
    ∃ X Y, rotate_x samplePlatform [Fl.fin 1, Fl.fin (-1)] [Fl.fin 3, Fl.fin 4] (Fl.fin (1 / 2))
        = some X ∧
      rotate_y samplePlatform [Fl.fin 1, Fl.fin (-1)] [Fl.fin 3, Fl.fin 4] (Fl.fin (1 / 2))
        = some Y ∧
      X.length = 2 ∧ Y.length = 2 ∧
      ∀ (i : ℕ) a b, [Fl.fin 1, Fl.fin (-1)][i]? = some a → [Fl.fin 3, Fl.fin 4][i]? = some b →
        X[i]? = some (Fl.sub binary32 (Fl.mul binary32 a (samplePlatform.cos (Fl.fin (1 / 2))))
          (Fl.mul binary32 b (samplePlatform.sin (Fl.fin (1 / 2))))) ∧
        Y[i]? = some (Fl.add binary32 (Fl.mul binary32 a (samplePlatform.sin (Fl.fin (1 / 2))))
          (Fl.mul binary32 b (samplePlatform.cos (Fl.fin (1 / 2))))) :=
  C1_rotate_elements samplePlatform [Fl.fin 1, Fl.fin (-1)] [Fl.fin 3, Fl.fin 4] (Fl.fin (1 / 2))
    (by decide)

/-- C2: for a coordinate sequence C and a depth sequence Z of equal length and
any camera depth offset, projection returns a sequence of the length of C whose
element at every index i is C[i] / (Z[i] + camera_z) in float arithmetic. -/
theorem C2_projection_elements (camera_z : Fl) (C Z : List Fl) (h : C.length = Z.length) :
    ∃ out, projection camera_z C Z = some out ∧ out.length = C.length ∧
      ∀ (i : ℕ) c d, C[i]? = some c → Z[i]? = some d →
        out[i]? = some (Fl.div binary32 c (Fl.add binary32 d camera_z)) := by
  refine ⟨_, projection_eq camera_z C Z h, ?_, ?_⟩
  · simp [h]
  · intro i c d hc hd
    simp [List.getElem?_zipWith, hc, hd]

/-- Witness of C2: two coordinates over the depths 3 and 4 with the camera
half a unit back. -/
theorem C2_projection_elements_witness :
    ∃ out, projection (Fl.fin (1 / 2)) [Fl.fin 1, Fl.fin (-1)] [Fl.fin 3, Fl.fin 4] = some out ∧
      out.length = 2 ∧
      ∀ (i : ℕ) c d, [Fl.fin 1, Fl.fin (-1)][i]? = some c → [Fl.fin 3, Fl.fin 4][i]? = some d →
        out[i]? = some (Fl.div binary32 c (Fl.add binary32 d (Fl.fin (1 / 2)))) :=
  C2_projection_elements (Fl.fin (1 / 2)) [Fl.fin 1, Fl.fin (-1)] [Fl.fin 3, Fl.fin 4]
    (by decide)

/-! ## Input -/

/-- C7: each of the ten listed characters performs exactly one update of
exactly one field and leaves the other four alone: d and a subtract and add 5 on
camera_x, space and q add and subtract 5 on camera_y (int arithmetic, which is
exact while the result fits an int), w and s subtract and add 0.5 on camera_z,
l and j add and subtract 0.1 on theta_x, i and k add and subtract 0.1 on theta_y
(the float compound assignments). -/
theorem C7_input_table (s : State) :
    main_input 'd' s = { s with camera_x := wrap32 (s.camera_x - 5) } ∧
    main_input 'a' s = { s with camera_x := wrap32 (s.camera_x + 5) } ∧
    main_input ' ' s = { s with camera_y := wrap32 (s.camera_y + 5) } ∧
    main_input 'q' s = { s with camera_y := wrap32 (s.camera_y - 5) } ∧
    main_input 'w' s = { s with camera_z := subAssign s.camera_z (lit64 (1 / 2)) } ∧
    main_input 's' s = { s with camera_z := addAssign s.camera_z (lit64 (1 / 2)) } ∧
    main_input 'l' s = { s with theta_x := addAssign s.theta_x (lit64 (1 / 10)) } ∧
    main_input 'j' s = { s with theta_x := subAssign s.theta_x (lit64 (1 / 10)) } ∧
    main_input 'i' s = { s with theta_y := addAssign s.theta_y (lit64 (1 / 10)) } ∧
    main_input 'k' s = { s with theta_y := subAssign s.theta_y (lit64 (1 / 10)) } ∧
    (∀ n : ℤ, -2 ^ 31 ≤ n → n < 2 ^ 31 → wrap32 n = n) := by
  refine ⟨?_, ?_, ?_, ?_, ?_, ?_, ?_, ?_, ?_, ?_, wrap32_eq_self⟩ <;> simp [main_input]

/-- C8: a character that is none of the ten listed ones leaves the five state
fields as they were. -/
theorem C8_input_other (s : State) (move : Char)
    (h : move ∉ ['d', 'a', ' ', 'q', 'w', 's', 'l', 'j', 'i', 'k']) :
    main_input move s = s := by
  simp only [List.mem_cons, List.mem_singleton, List.not_mem_nil, or_false, not_or] at h
  obtain ⟨h1, h2, h3, h4, h5, h6, h7, h8, h9, h10⟩ := h
  simp [main_input, h1, h2, h3, h4, h5, h6, h7, h8, h9, h10]

/-- Witness of C8: the character z on a state with all five fields set. -/
theorem C8_input_other_witness :
    main_input 'z' ⟨5, -10, Fl.fin (1 / 2), Fl.fin 1, Fl.fin (-1)⟩ =
      ⟨5, -10, Fl.fin (1 / 2), Fl.fin 1, Fl.fin (-1)⟩ :=
  C8_input_other ⟨5, -10, Fl.fin (1 / 2), Fl.fin 1, Fl.fin (-1)⟩ 'z' (by decide)

/-- The double literal 0.1 is 3602879701896397 / 2^55, and 0.5 is exact. -/
theorem lit64_values :
    lit64 (1 / 10) = Fl.fin (3602879701896397 / 2 ^ 55) ∧ lit64 (1 / 2) = Fl.fin (1 / 2) := by
  decide!

theorem main_input_l (s : State) :
    main_input 'l' s = { s with theta_x := addAssign s.theta_x (lit64 (1 / 10)) } := by
  simp [main_input]

theorem main_input_l_iterate (n : ℕ) (s : State) :
    (main_input 'l')^[n] s =
      { s with theta_x := (fun t => addAssign t (lit64 (1 / 10)))^[n] s.theta_x } := by
  induction n generalizing s with
  | zero => rfl
  | succ k ih => rw [Function.iterate_succ_apply, ih, main_input_l, Function.iterate_succ_apply]

/-- C9, refuted as stated: from the initial state, ten inputs l leave theta_x
at 8388609/8388608 = 1 + 2^-23, not at 1. -/
theorem C9_not_exactly_one :
    ((main_input 'l')^[10] State.initial).theta_x = Fl.fin (8388609 / 8388608) ∧
      ((main_input 'l')^[10] State.initial).theta_x ≠
        Fl.fin (State.initial.theta_x.toRat + 1) := by
  decide!

/-- C9, amended: for every starting state, ten inputs l leave camera_x,
camera_y, camera_z and theta_y unchanged and apply the float update
theta_x += 0.1 ten times; the increase is not exactly 1.0, from theta_x = 0 the
result is 1 + 2^-23, one unit in the last place above 1. -/
theorem C9_ten_l_amended (s : State) :
    (main_input 'l')^[10] s =
      { s with theta_x := (fun t => addAssign t (lit64 (1 / 10)))^[10] s.theta_x } ∧
    (fun t => addAssign t (lit64 (1 / 10)))^[10] (Fl.fin 0) = Fl.fin (1 + 2 ^ (-23 : ℤ)) :=
  ⟨main_input_l_iterate 10 s, by decide!⟩

/-! ## The frame buffer -/

theorem forLoop_inv {σ : Type} (Inv : ℕ → σ → Prop) (body : ℕ → σ → Option σ) (init : σ)
    (n : ℕ) (h0 : Inv 0 init)
    (hstep : ∀ i, i < n → ∀ s, Inv i s → ∃ s', body i s = some s' ∧ Inv (i + 1) s') :
    ∃ s, forLoop n body init = some s ∧ Inv n s := by
  induction n with
  | zero => exact ⟨init, rfl, h0⟩
  | succ k ih =>
    obtain ⟨s, h1, h2⟩ := ih (fun i hi => hstep i (by omega))
    obtain ⟨s', h3, h4⟩ := hstep k (by omega) s h2
    exact ⟨s', by simp [forLoop, h1, h3], h4⟩

theorem bufWrite_eq (buf : Buffer) (a b : ℤ) (c : Char)
    (h : 0 ≤ a ∧ a < width ∧ 0 ≤ b ∧ b < height) :
    bufWrite buf a b c = some (fun (i j : Fin 60) => if (i : ℤ) = a ∧ (j : ℤ) = b then c else buf i j) := by
  simp [bufWrite, h]

theorem bufWrite_isSome (buf : Buffer) (a b : ℤ) (c : Char) :
    (bufWrite buf a b c).isSome ↔ (0 ≤ a ∧ a < 60 ∧ 0 ≤ b ∧ b < 60) := by
  unfold bufWrite width height
  split <;> simp_all

theorem plot_eq (buf : Buffer) (a b : ℤ) :
    plot buf a b = some (fun (i j : Fin 60) => if (i : ℤ) = a ∧ (j : ℤ) = b then 'k' else buf i j) := by
  unfold plot
  split
  · rename_i h
    exact bufWrite_eq buf a b 'k' ⟨h.1, h.2.2.1, h.2.1, h.2.2.2⟩
  · rename_i h
    congr 1
    funext i j
    have hi := i.isLt
    have hj := j.isLt
    unfold width height at h
    split
    · rename_i h2
      exfalso
      apply h
      omega
    · rfl

theorem plot_outside (buf : Buffer) (a b : ℤ) (h : a < 0 ∨ a ≥ 60 ∨ b < 0 ∨ b ≥ 60) :
    plot buf a b = some buf := by
  unfold plot width height
  rw [if_neg (by omega)]

theorem clear_row (buf : Buffer) (r : ℕ) (hr : r < 60) :
    forLoop height.toNat (fun j b => bufWrite b r j ' ') buf =
      some (fun (i j : Fin 60) => if (i : ℕ) = r then ' ' else buf i j) := by
  obtain ⟨s, h1, h2⟩ := forLoop_inv
    (fun k (b : Buffer) => b = fun (i j : Fin 60) => if (i : ℕ) = r ∧ (j : ℕ) < k then ' ' else buf i j)
    (fun j b => bufWrite b r j ' ') buf height.toNat (by simp)
    (by
      intro k hk b hb
      have hk' : k < 60 := hk
      refine ⟨_, bufWrite_eq b r k ' ' (by unfold width height; omega), ?_⟩
      subst hb
      funext i j
      have h4 : ((j : ℕ) < k + 1) = ((j : ℕ) = k ∨ (j : ℕ) < k) := by
        apply propext; omega
      by_cases h1 : (i : ℕ) = r <;> by_cases h2 : (j : ℕ) = k <;>
        by_cases h3 : (j : ℕ) < k <;> simp [h1, h2, h3, h4])
  rw [h1, h2]
  refine congrArg some (funext fun i => funext fun j => ?_)
  have hj : (j : ℕ) < height.toNat := j.isLt
  simp only [hj, and_true]

theorem clear_buffer_eq (buf : Buffer) : clear_buffer buf = some (fun _ _ => ' ') := by
  obtain ⟨s, h1, h2⟩ := forLoop_inv
    (fun k (b : Buffer) => b = fun (i j : Fin 60) => if (i : ℕ) < k then ' ' else buf i j)
    (fun i b => forLoop height.toNat (fun j b => bufWrite b i j ' ') b) buf width.toNat
    (by simp)
    (by
      intro k hk b hb
      have hk' : k < 60 := hk
      refine ⟨_, clear_row b k hk', ?_⟩
      subst hb
      funext i j
      have h4 : ((i : ℕ) < k + 1) = ((i : ℕ) = k ∨ (i : ℕ) < k) := by
        apply propext; omega
      by_cases h1 : (i : ℕ) = k <;> by_cases h3 : (i : ℕ) < k <;> simp [h1, h3, h4])
  unfold clear_buffer
  rw [h1, h2]
  refine congrArg some (funext fun i => funext fun j => ?_)
  have hi : (i : ℕ) < width.toNat := i.isLt
  rw [if_pos hi]

theorem rasterize_eq (P : Platform) (xs ys : List Fl) (cx cy : ℤ) (buf : Buffer)
    (h : xs.length = ys.length) :
    rasterize P xs ys cx cy buf =
      some (fun (i j : Fin 60) => if ((i : ℤ), (j : ℤ)) ∈ cells P xs ys cx cy then 'k' else buf i j) := by
  obtain ⟨s, h1, h2⟩ := forLoop_inv
    (fun k (b : Buffer) => b = fun (i j : Fin 60) =>
      if ((i : ℤ), (j : ℤ)) ∈ (cells P xs ys cx cy).take k then 'k' else buf i j)
    (fun i b => (xs[i]?).bind fun xp => (ys[i]?).bind fun yp =>
      plot b (cellIndex P xp width cx) (cellIndex P yp height cy)) buf xs.length
    (by simp)
    (by
      intro k hk b hb
      have hk2 : k < ys.length := by omega
      have hx : xs[k]? = some xs[k] := List.getElem?_eq_getElem hk
      have hy : ys[k]? = some ys[k] := List.getElem?_eq_getElem hk2
      refine ⟨_, by simp only [hx, hy, Option.some_bind]; exact plot_eq _ _ _, ?_⟩
      subst hb
      have hc : (cells P xs ys cx cy)[k]? =
          some (cellIndex P xs[k] width cx, cellIndex P ys[k] height cy) := by
        simp [cells, List.getElem?_zipWith, hx, hy]
      have ht : (cells P xs ys cx cy).take (k + 1) =
          (cells P xs ys cx cy).take k ++
            [(cellIndex P xs[k] width cx, cellIndex P ys[k] height cy)] := by
        rw [List.take_succ, hc]; rfl
      funext i j
      rw [ht]
      by_cases hm : ((i : ℤ), (j : ℤ)) ∈ (cells P xs ys cx cy).take k
      · simp [hm]
      · by_cases he : (i : ℤ) = cellIndex P xs[k] width cx ∧
            (j : ℤ) = cellIndex P ys[k] height cy
        · simp [he]
        · have he' : ¬ ((i : ℤ), (j : ℤ)) =
              (cellIndex P xs[k] width cx, cellIndex P ys[k] height cy) := by
            intro hcon
            exact he (Prod.mk.inj hcon)
          simp only [List.mem_append, hm, List.mem_singleton, he', or_self, if_false, he])
  unfold rasterize
  rw [h1, h2, List.take_of_length_le]
  simp [cells, h]

/-! ## One frame -/

theorem main_transform_eq (P : Platform) (s : State) :
    main_transform P s = some
      ⟨List.zipWith (fun a b => Fl.sub binary32 (Fl.mul binary32 a (P.cos s.theta_x))
          (Fl.mul binary32 b (P.sin s.theta_x))) x_values z_values,
       List.zipWith (fun a b => Fl.add binary32 (Fl.mul binary32 a (P.sin s.theta_x))
          (Fl.mul binary32 b (P.cos s.theta_x))) x_values z_values,
       List.zipWith (fun a b => Fl.sub binary32 (Fl.mul binary32 a (P.cos s.theta_y))
          (Fl.mul binary32 b (P.sin s.theta_y))) y_values
        (List.zipWith (fun a b => Fl.add binary32 (Fl.mul binary32 a (P.sin s.theta_x))
          (Fl.mul binary32 b (P.cos s.theta_x))) x_values z_values),
       List.zipWith (fun a b => Fl.add binary32 (Fl.mul binary32 a (P.sin s.theta_y))
          (Fl.mul binary32 b (P.cos s.theta_y))) y_values
        (List.zipWith (fun a b => Fl.add binary32 (Fl.mul binary32 a (P.sin s.theta_x))
          (Fl.mul binary32 b (P.cos s.theta_x))) x_values z_values),
       List.zipWith (fun c d => Fl.div binary32 c (Fl.add binary32 d s.camera_z))
        (List.zipWith (fun a b => Fl.sub binary32 (Fl.mul binary32 a (P.cos s.theta_x))
          (Fl.mul binary32 b (P.sin s.theta_x))) x_values z_values)
        (List.zipWith (fun a b => Fl.add binary32 (Fl.mul binary32 a (P.sin s.theta_y))
          (Fl.mul binary32 b (P.cos s.theta_y))) y_values
          (List.zipWith (fun a b => Fl.add binary32 (Fl.mul binary32 a (P.sin s.theta_x))
            (Fl.mul binary32 b (P.cos s.theta_x))) x_values z_values)),
       List.zipWith (fun c d => Fl.div binary32 c (Fl.add binary32 d s.camera_z))
        (List.zipWith (fun a b => Fl.sub binary32 (Fl.mul binary32 a (P.cos s.theta_y))
          (Fl.mul binary32 b (P.sin s.theta_y))) y_values
          (List.zipWith (fun a b => Fl.add binary32 (Fl.mul binary32 a (P.sin s.theta_x))
            (Fl.mul binary32 b (P.cos s.theta_x))) x_values z_values))
        (List.zipWith (fun a b => Fl.add binary32 (Fl.mul binary32 a (P.sin s.theta_y))
          (Fl.mul binary32 b (P.cos s.theta_y))) y_values
          (List.zipWith (fun a b => Fl.add binary32 (Fl.mul binary32 a (P.sin s.theta_x))
            (Fl.mul binary32 b (P.cos s.theta_x))) x_values z_values))⟩ := by
  unfold main_transform
  rw [rotate_x_eq P x_values z_values _ rfl, rotate_y_eq P x_values z_values _ rfl]
  simp only [Option.some_bind]
  rw [rotate_x_eq P y_values _ _ (by simp [x_values, y_values, z_values]),
    rotate_y_eq P y_values _ _ (by simp [x_values, y_values, z_values])]
  simp only [Option.some_bind]
  rw [projection_eq _ _ _ (by simp [x_values, y_values, z_values]),
    projection_eq _ _ _ (by simp [x_values, y_values, z_values])]
  simp only [Option.some_bind]

theorem main_transform_length (P : Platform) (s : State) :
    ∃ t, main_transform P s = some t ∧ t.x_rotated.length = 8 ∧ t.z_rotated.length = 8 ∧
      t.y_rotated.length = 8 ∧ t.z_rotated_again.length = 8 ∧ t.x_projected.length = 8 ∧
      t.y_projected.length = 8 := by
  refine ⟨_, main_transform_eq P s, ?_, ?_, ?_, ?_, ?_, ?_⟩ <;>
    simp [x_values, y_values, z_values]

theorem main_draw_eq (P : Platform) (xs ys : List Fl) (cx cy : ℤ) (buf : Buffer)
    (h : xs.length = ys.length) :
    main_draw P xs ys cx cy buf =
      some (fun (i j : Fin 60) =>
        if ((i : ℤ), (j : ℤ)) ∈ cells P xs ys cx cy then 'k' else ' ') := by
  unfold main_draw
  rw [clear_buffer_eq, Option.some_bind, rasterize_eq P xs ys cx cy _ h]

theorem mem_cells_iff (P : Platform) (xs ys : List Fl) (cx cy a b : ℤ) :
    (a, b) ∈ cells P xs ys cx cy ↔
      ∃ (k : ℕ) (xp yp : Fl), xs[k]? = some xp ∧ ys[k]? = some yp ∧
        cellIndex P xp width cx = a ∧ cellIndex P yp height cy = b := by
  unfold cells
  rw [List.mem_iff_getElem?]
  constructor
  · rintro ⟨k, hk⟩
    rw [List.getElem?_zipWith_eq_some] at hk
    obtain ⟨xp, yp, hx, hy, he⟩ := hk
    have he' := Prod.mk.inj he
    exact ⟨k, xp, yp, hx, hy, he'.1, he'.2⟩
  · rintro ⟨k, xp, yp, hx, hy, ha, hb⟩
    refine ⟨k, ?_⟩
    rw [List.getElem?_zipWith_eq_some]
    exact ⟨xp, yp, hx, hy, by rw [ha, hb]⟩

set_option maxRecDepth 4000 in
theorem marked_card_le (L : List (ℤ × ℤ)) :
    (Finset.univ.filter (fun p : Fin 60 × Fin 60 => (((p.1 : ℕ) : ℤ), ((p.2 : ℕ) : ℤ)) ∈ L)).card
      ≤ L.length := by
  have hinj : Function.Injective (fun p : Fin 60 × Fin 60 => (((p.1 : ℕ) : ℤ), ((p.2 : ℕ) : ℤ))) := by
    intro p q hpq
    have h := Prod.mk.inj hpq
    have h1 : (p.1 : ℕ) = (q.1 : ℕ) := by exact_mod_cast h.1
    have h2 : (p.2 : ℕ) = (q.2 : ℕ) := by exact_mod_cast h.2
    exact Prod.ext (Fin.ext h1) (Fin.ext h2)
  rw [← Finset.card_image_of_injective _ hinj]
  calc (Finset.image (fun p : Fin 60 × Fin 60 => (((p.1 : ℕ) : ℤ), ((p.2 : ℕ) : ℤ)))
          (Finset.univ.filter (fun p : Fin 60 × Fin 60 =>
            (((p.1 : ℕ) : ℤ), ((p.2 : ℕ) : ℤ)) ∈ L))).card
      ≤ L.toFinset.card := by
        apply Finset.card_le_card
        intro c hc
        rw [Finset.mem_image] at hc
        obtain ⟨p, hp, rfl⟩ := hc
        rw [Finset.mem_filter] at hp
        exact List.mem_toFinset.mpr hp.2
    _ ≤ L.length := List.toFinset_card_le L

/-- C4: a computed cell (a, b) with a < 0, a >= 60, b < 0 or b >= 60 leaves the
whole buffer unchanged; a write into the buffer is defined exactly at the index
pairs with 0 <= a < 60 and 0 <= b < 60, and neither the guarded write of one
point, nor the drawing loop, nor a whole frame in any camera state ever performs
an undefined one. -/
theorem C4_bounds_guard (buf : Buffer) (a b : ℤ) (h : a < 0 ∨ a ≥ 60 ∨ b < 0 ∨ b ≥ 60) :
    plot buf a b = some buf ∧
    (∀ (a' b' : ℤ) (c : Char),
      (bufWrite buf a' b' c).isSome ↔ (0 ≤ a' ∧ a' < 60 ∧ 0 ≤ b' ∧ b' < 60)) ∧
    (∀ a' b' : ℤ, (plot buf a' b').isSome) ∧
    (∀ (P : Platform) (xs ys : List Fl) (cx cy : ℤ), xs.length = ys.length →
      (rasterize P xs ys cx cy buf).isSome) ∧
    (∀ (P : Platform) (s : State), (main_frame P s buf).isSome) := by
  refine ⟨plot_outside buf a b h, fun a' b' c => bufWrite_isSome buf a' b' c, ?_, ?_, ?_⟩
  · intro a' b'
    rw [plot_eq]; rfl
  · intro P xs ys cx cy hl
    rw [rasterize_eq P xs ys cx cy buf hl]; rfl
  · intro P s
    obtain ⟨t, ht, _, _, _, _, hx, hy⟩ := main_transform_length P s
    unfold main_frame
    rw [ht, Option.some_bind, main_draw_eq P _ _ _ _ buf (by rw [hx, hy])]; rfl

/-- Witness of C4: the cell (-1, 5) on a buffer of dots. -/
theorem C4_bounds_guard_witness :
    plot (fun _ _ => '.') (-1) 5 = some (fun _ _ => '.') ∧
    (∀ (a' b' : ℤ) (c : Char),
      (bufWrite (fun _ _ => '.') a' b' c).isSome ↔ (0 ≤ a' ∧ a' < 60 ∧ 0 ≤ b' ∧ b' < 60)) ∧
    (∀ a' b' : ℤ, (plot (fun _ _ => '.') a' b').isSome) ∧
    (∀ (P : Platform) (xs ys : List Fl) (cx cy : ℤ), xs.length = ys.length →
      (rasterize P xs ys cx cy (fun _ _ => '.')).isSome) ∧
    (∀ (P : Platform) (s : State), (main_frame P s (fun _ _ => '.')).isSome) :=
  C4_bounds_guard (fun _ _ => '.') (-1) 5 (by decide)

/-- C5: in every camera state and whatever the buffer held before, one frame
produces a buffer that does not depend on the previous content; each of its
60x60 cells holds a space or k; the cell (i, j) holds k exactly when one of the 8
vertices has (i, j) as its computed pair (a, b); so at most 8 cells are marked. -/
theorem C5_frame_buffer (P : Platform) (s : State) (prev : Buffer) :
    ∃ t buf, main_transform P s = some t ∧ main_frame P s prev = some buf ∧
      (∀ prev' : Buffer, main_frame P s prev' = some buf) ∧
      (∀ i j : Fin 60, buf i j = ' ' ∨ buf i j = 'k') ∧
      (∀ i j : Fin 60, buf i j = 'k' ↔
        ∃ (k : ℕ) (xp yp : Fl), k < 8 ∧ t.x_projected[k]? = some xp ∧
          t.y_projected[k]? = some yp ∧
          cellIndex P xp width s.camera_x = ((i : ℕ) : ℤ) ∧
          cellIndex P yp height s.camera_y = ((j : ℕ) : ℤ)) ∧
      (Finset.univ.filter (fun p : Fin 60 × Fin 60 => buf p.1 p.2 = 'k')).card ≤ 8 := by
  obtain ⟨t, ht, _, _, _, _, hx, hy⟩ := main_transform_length P s
  have hframe : ∀ b : Buffer, main_frame P s b = some (fun (i j : Fin 60) =>
      if (((i : ℕ) : ℤ), ((j : ℕ) : ℤ)) ∈ cells P t.x_projected t.y_projected s.camera_x s.camera_y
      then 'k' else ' ') := by
    intro b
    unfold main_frame
    rw [ht, Option.some_bind, main_draw_eq P _ _ _ _ b (by rw [hx, hy])]
  have hk : ∀ i j : Fin 60,
      ((if (((i : ℕ) : ℤ), ((j : ℕ) : ℤ)) ∈
          cells P t.x_projected t.y_projected s.camera_x s.camera_y then 'k' else ' ') = 'k') ↔
        (((i : ℕ) : ℤ), ((j : ℕ) : ℤ)) ∈
          cells P t.x_projected t.y_projected s.camera_x s.camera_y := by
    intro i j
    split <;> simp_all
  refine ⟨t, _, ht, hframe prev, hframe, ?_, ?_, ?_⟩
  · intro i j
    split
    · exact Or.inr rfl
    · exact Or.inl rfl
  · intro i j
    rw [hk, mem_cells_iff]
    constructor
    · rintro ⟨k, xp, yp, h1, h2, h3, h4⟩
      refine ⟨k, xp, yp, ?_, h1, h2, h3, h4⟩
      have := (List.getElem?_eq_some.mp h1).1
      omega
    · rintro ⟨k, xp, yp, _, h1, h2, h3, h4⟩
      exact ⟨k, xp, yp, h1, h2, h3, h4⟩
  · have hfilter : (Finset.univ.filter (fun p : Fin 60 × Fin 60 =>
        (if (((p.1 : ℕ) : ℤ), ((p.2 : ℕ) : ℤ)) ∈
          cells P t.x_projected t.y_projected s.camera_x s.camera_y then 'k' else ' ') = 'k')) =
        (Finset.univ.filter (fun p : Fin 60 × Fin 60 => (((p.1 : ℕ) : ℤ), ((p.2 : ℕ) : ℤ)) ∈
          cells P t.x_projected t.y_projected s.camera_x s.camera_y)) := by
      apply Finset.filter_congr
      intro p _
      exact hk p.1 p.2
    rw [hfilter]
    refine le_trans (marked_card_le _) ?_
    simp [cells, hx, hy]

/-! ## The cell of a projected point -/

/-- C3, refuted as stated: the projected value 10^9 is a float whose product
with 30 is the float 30000001024, which does not fit an int, so the conversion
has no defined result; with the result -2^31 of x86-64 the rasterizer computes
a = -2147483618 at zero offset, which is neither trunc(x*30) + 30 = 30000001054
nor that sum reduced to an int. The same cell is computed for an infinite
projected value, and the first vertex has one after six inputs w. -/
theorem C3_cast_out_of_range :
    Fl.valid binary32 (Fl.fin (10 ^ 9)) ∧
    Fl.mul binary32 (Fl.fin (10 ^ 9)) (Fl.fin 30) = Fl.fin 30000001024 ∧
    Fl.div binary32 (Fl.mul binary32 (Fl.fin (10 ^ 9)) (Fl.ofInt width)) (Fl.ofInt 2)
      = Fl.fin 30000001024 ∧
    Fl.toInt? (Fl.fin 30000001024) = none ∧
    Fl.trunc (Fl.mul binary32 (Fl.fin (10 ^ 9)) (Fl.fin 30)).toRat + 30 + 0 = 30000001054 ∧
    cellIndex samplePlatform (Fl.fin (10 ^ 9)) width 0 = -2147483618 ∧
    cellIndex samplePlatform (Fl.fin (10 ^ 9)) width 0 ≠
      Fl.trunc (Fl.mul binary32 (Fl.fin (10 ^ 9)) (Fl.fin 30)).toRat + 30 + 0 ∧
    cellIndex samplePlatform (Fl.fin (10 ^ 9)) width 0 ≠
      wrap32 (Fl.trunc (Fl.mul binary32 (Fl.fin (10 ^ 9)) (Fl.fin 30)).toRat + 30 + 0) ∧
    (main_transform samplePlatform ((main_input 'w')^[6] State.initial)).bind
      (fun t => t.x_projected[0]?) = some (Fl.inf false) ∧
    Fl.toInt? (Fl.div binary32 (Fl.mul binary32 (Fl.inf false) (Fl.ofInt width)) (Fl.ofInt 2))
      = none ∧
    cellIndex samplePlatform (Fl.inf false) width 0 = -2147483618 := by
  decide!

/-- C3, amended: for projected floats x, y whose products with 30 convert to
int (they are finite and their truncations tx and ty fit an int) and any camera
offsets, the rasterizer computes a = trunc(x*30) + 30 + camera_x and
b = trunc(y*30) + 30 + camera_y, the product being the float one and the sums
those of int; trunc moves toward zero by less than one, so that x = -0.25 gives
trunc(-7.5) = -7 (floor gives -8) and a = 23 with zero offset; the projected
point (0, 0) with zero offsets gives the cell (30, 30). -/
theorem C3_cell_formula (P : Platform) (x y : Fl) (camera_x camera_y tx ty : ℤ)
    (hx : Fl.valid binary32 x) (hy : Fl.valid binary32 y)
    (h1 : Fl.toInt? (Fl.mul binary32 x (Fl.fin 30)) = some tx)
    (h2 : Fl.toInt? (Fl.mul binary32 y (Fl.fin 30)) = some ty) :
    cellIndex P x width camera_x = wrap32 (tx + 30 + camera_x) ∧
    cellIndex P y height camera_y = wrap32 (ty + 30 + camera_y) ∧
    tx = Fl.trunc (Fl.mul binary32 x (Fl.fin 30)).toRat ∧
    ty = Fl.trunc (Fl.mul binary32 y (Fl.fin 30)).toRat ∧
    (-2 ^ 31 ≤ tx + 30 + camera_x ∧ tx + 30 + camera_x < 2 ^ 31 →
      cellIndex P x width camera_x = tx + 30 + camera_x) ∧
    (-2 ^ 31 ≤ ty + 30 + camera_y ∧ ty + 30 + camera_y < 2 ^ 31 →
      cellIndex P y height camera_y = ty + 30 + camera_y) ∧
    (∀ q : ℚ, |(Fl.trunc q : ℚ)| ≤ |q| ∧ |q - (Fl.trunc q : ℚ)| < 1) ∧
    Fl.mul binary32 (Fl.fin (-1 / 4)) (Fl.fin 30) = Fl.fin (-15 / 2) ∧
    Fl.trunc (-15 / 2) = -7 ∧ ⌊(-15 / 2 : ℚ)⌋ = -8 ∧
    cellIndex P (Fl.fin (-1 / 4)) width 0 = 23 ∧
    cellIndex P (Fl.fin 0) width 0 = 30 ∧ cellIndex P (Fl.fin 0) height 0 = 30 := by
  have ha : cellIndex P x width camera_x = wrap32 (tx + 30 + camera_x) := by
    rw [cellIndex_eq P x width camera_x tx
      (by rw [show Fl.ofInt width = Fl.fin 60 from ofInt_60, ofInt_2]
          exact toInt?_width_half x hx tx h1)]
    rfl
  have hb : cellIndex P y height camera_y = wrap32 (ty + 30 + camera_y) := by
    rw [cellIndex_eq P y height camera_y ty
      (by rw [show Fl.ofInt height = Fl.fin 60 from ofInt_60, ofInt_2]
          exact toInt?_width_half y hy ty h2)]
    rfl
  refine ⟨ha, hb, (toInt?_eq_some _ _ h1).2.1, (toInt?_eq_some _ _ h2).2.1, ?_, ?_,
    trunc_toward_zero, by decide!, by decide!, by decide!, ?_, ?_, ?_⟩
  · intro h
    rw [ha, wrap32_eq_self _ h.1 h.2]
  · intro h
    rw [hb, wrap32_eq_self _ h.1 h.2]
  · rw [cellIndex_eq P _ _ _ (-7) (by decide!)]
    decide!
  · rw [cellIndex_eq P _ _ _ 0 (by decide!)]
    decide!
  · rw [cellIndex_eq P _ _ _ 0 (by decide!)]
    decide!

/-- Witness of C3: the projected pair (-1/4, 1/3 as a float) with the camera
offsets (5, -10). -/
theorem C3_cell_formula_witness :
    cellIndex samplePlatform (Fl.fin (-1 / 4)) width 5 = wrap32 (-7 + 30 + 5) ∧
    cellIndex samplePlatform (Fl.fin (11184811 / 2 ^ 25)) height (-10) =
      wrap32 (10 + 30 + (-10)) ∧
    (-7 : ℤ) = Fl.trunc (Fl.mul binary32 (Fl.fin (-1 / 4)) (Fl.fin 30)).toRat ∧
    (10 : ℤ) = Fl.trunc (Fl.mul binary32 (Fl.fin (11184811 / 2 ^ 25)) (Fl.fin 30)).toRat ∧
    (-2 ^ 31 ≤ (-7 : ℤ) + 30 + 5 ∧ (-7 : ℤ) + 30 + 5 < 2 ^ 31 →
      cellIndex samplePlatform (Fl.fin (-1 / 4)) width 5 = -7 + 30 + 5) ∧
    (-2 ^ 31 ≤ (10 : ℤ) + 30 + (-10) ∧ (10 : ℤ) + 30 + (-10) < 2 ^ 31 →
      cellIndex samplePlatform (Fl.fin (11184811 / 2 ^ 25)) height (-10) = 10 + 30 + (-10)) ∧
    (∀ q : ℚ, |(Fl.trunc q : ℚ)| ≤ |q| ∧ |q - (Fl.trunc q : ℚ)| < 1) ∧
    Fl.mul binary32 (Fl.fin (-1 / 4)) (Fl.fin 30) = Fl.fin (-15 / 2) ∧
    Fl.trunc (-15 / 2) = -7 ∧ ⌊(-15 / 2 : ℚ)⌋ = -8 ∧
    cellIndex samplePlatform (Fl.fin (-1 / 4)) width 0 = 23 ∧
    cellIndex samplePlatform (Fl.fin 0) width 0 = 30 ∧
    cellIndex samplePlatform (Fl.fin 0) height 0 = 30 :=
  C3_cell_formula samplePlatform (Fl.fin (-1 / 4)) (Fl.fin (11184811 / 2 ^ 25)) 5 (-10) (-7) 10
    (by decide!) (by decide!) (by decide!) (by decide!)

/-! ## Rotation by the angle zero -/

/-- C10, refuted as stated: with an infinite element in B, rotate_x by the
angle 0 turns the element 0 of A into NaN (0*1 - inf*0). -/
theorem C10_inf_gives_nan :
    rotate_x samplePlatform [Fl.fin 0] [Fl.inf false] (Fl.fin 0) = some [Fl.nan] ∧
      samplePlatform.cos (Fl.fin 0) = Fl.fin 1 ∧ samplePlatform.sin (Fl.fin 0) = Fl.fin 0 ∧
      rotate_x samplePlatform [Fl.fin 0] [Fl.inf false] (Fl.fin 0) ≠ some [Fl.fin 0] := by
  decide!

/-- C10, amended: where cos 0 = 1 and sin 0 = 0, for equal-length sequences A,
B of finite floats, rotation by the angle 0 returns the same numbers:
rotate_x(A, B, 0)[i] and rotate_y(A, B, 0)[i] are finite with the values of A[i]
and B[i], and are the very same floats unless the element is a negative zero
(which may come back as positive zero). -/
theorem C10_rotate_zero (P : Platform) (A B : List Fl)
    (hc : P.cos (Fl.fin 0) = Fl.fin 1) (hs : P.sin (Fl.fin 0) = Fl.fin 0)
    (h : A.length = B.length)
    (hA : ∀ a ∈ A, a.isFinite = true ∧ Fl.valid binary32 a)
    (hB : ∀ b ∈ B, b.isFinite = true ∧ Fl.valid binary32 b) :
    ∃ X Y, rotate_x P A B (Fl.fin 0) = some X ∧ rotate_y P A B (Fl.fin 0) = some Y ∧
      X.length = A.length ∧ Y.length = B.length ∧
      ∀ (i : ℕ) a b, A[i]? = some a → B[i]? = some b →
        ∃ x y, X[i]? = some x ∧ Y[i]? = some y ∧
          x.isFinite = true ∧ x.toRat = a.toRat ∧ (a ≠ Fl.nzero → x = a) ∧
          y.isFinite = true ∧ y.toRat = b.toRat ∧ (b ≠ Fl.nzero → y = b) := by
  refine ⟨_, _, rotate_x_eq P A B _ h, rotate_y_eq P A B _ h, by simp [h], by simp [h], ?_⟩
  intro i a b ha hb
  have hma : a ∈ A := List.getElem?_mem ha
  have hmb : b ∈ B := List.getElem?_mem hb
  obtain ⟨⟨x1, x2, x3⟩, ⟨y1, y2, y3⟩⟩ :=
    rotate_zero_elem a b (hA a hma).1 (hB b hmb).1 (hA a hma).2 (hB b hmb).2
  refine ⟨_, _, ?_, ?_, x1, x2, x3, y1, y2, y3⟩
  · simp [List.getElem?_zipWith, ha, hb, hc, hs]
  · simp [List.getElem?_zipWith, ha, hb, hc, hs]

/-- Witness of C10 on the sample platform: two vertices, one with a negative
zero. -/
theorem C10_rotate_zero_witness :
    ∃ X Y, rotate_x samplePlatform [Fl.fin 1, Fl.nzero] [Fl.fin 3, Fl.fin (-4)] (Fl.fin 0)
        = some X ∧
      rotate_y samplePlatform [Fl.fin 1, Fl.nzero] [Fl.fin 3, Fl.fin (-4)] (Fl.fin 0)
        = some Y ∧
      X.length = [Fl.fin 1, Fl.nzero].length ∧ Y.length = [Fl.fin 3, Fl.fin (-4)].length ∧
      ∀ (i : ℕ) a b, [Fl.fin 1, Fl.nzero][i]? = some a → [Fl.fin 3, Fl.fin (-4)][i]? = some b →
        ∃ x y, X[i]? = some x ∧ Y[i]? = some y ∧
          x.isFinite = true ∧ x.toRat = a.toRat ∧ (a ≠ Fl.nzero → x = a) ∧
          y.isFinite = true ∧ y.toRat = b.toRat ∧ (b ≠ Fl.nzero → y = b) :=
  C10_rotate_zero samplePlatform [Fl.fin 1, Fl.nzero] [Fl.fin 3, Fl.fin (-4)]
    (by decide!) (by decide!) (by decide!) (by decide!) (by decide!)

/-! ## The first frame -/

theorem initial_transform (P : Platform)
    (hc : P.cos (Fl.fin 0) = Fl.fin 1) (hs : P.sin (Fl.fin 0) = Fl.fin 0) :
    main_transform P State.initial = some
      ⟨x_values, z_values, y_values, z_values,
        [Fl.fin (11184811 / 2 ^ 25), Fl.fin (-11184811 / 2 ^ 25), Fl.fin (11184811 / 2 ^ 25),
          Fl.fin (-11184811 / 2 ^ 25), Fl.fin (1 / 4), Fl.fin (-1 / 4), Fl.fin (1 / 4),
          Fl.fin (-1 / 4)],
        [Fl.fin (11184811 / 2 ^ 25), Fl.fin (11184811 / 2 ^ 25), Fl.fin (-11184811 / 2 ^ 25),
          Fl.fin (-11184811 / 2 ^ 25), Fl.fin (1 / 4), Fl.fin (1 / 4), Fl.fin (-1 / 4),
          Fl.fin (-1 / 4)]⟩ := by
  rw [main_transform_eq]
  simp only [State.initial, hc, hs]
  decide!

theorem initial_cells (P : Platform) :
    cells P
      [Fl.fin (11184811 / 2 ^ 25), Fl.fin (-11184811 / 2 ^ 25), Fl.fin (11184811 / 2 ^ 25),
        Fl.fin (-11184811 / 2 ^ 25), Fl.fin (1 / 4), Fl.fin (-1 / 4), Fl.fin (1 / 4),
        Fl.fin (-1 / 4)]
      [Fl.fin (11184811 / 2 ^ 25), Fl.fin (11184811 / 2 ^ 25), Fl.fin (-11184811 / 2 ^ 25),
        Fl.fin (-11184811 / 2 ^ 25), Fl.fin (1 / 4), Fl.fin (1 / 4), Fl.fin (-1 / 4),
        Fl.fin (-1 / 4)] 0 0 =
      [(40, 40), (20, 40), (40, 20), (20, 20), (37, 37), (23, 37), (37, 23), (23, 23)] := by
  have w1 : cellIndex P (Fl.fin (11184811 / 2 ^ 25)) width 0 = 40 := by
    rw [cellIndex_eq P _ _ _ 10 (by decide!)]; decide!
  have w2 : cellIndex P (Fl.fin (-11184811 / 2 ^ 25)) width 0 = 20 := by
    rw [cellIndex_eq P _ _ _ (-10) (by decide!)]; decide!
  have w3 : cellIndex P (Fl.fin (1 / 4)) width 0 = 37 := by
    rw [cellIndex_eq P _ _ _ 7 (by decide!)]; decide!
  have w4 : cellIndex P (Fl.fin (-1 / 4)) width 0 = 23 := by
    rw [cellIndex_eq P _ _ _ (-7) (by decide!)]; decide!
  have h1 : cellIndex P (Fl.fin (11184811 / 2 ^ 25)) height 0 = 40 := by
    rw [cellIndex_eq P _ _ _ 10 (by decide!)]; decide!
  have h2 : cellIndex P (Fl.fin (-11184811 / 2 ^ 25)) height 0 = 20 := by
    rw [cellIndex_eq P _ _ _ (-10) (by decide!)]; decide!
  have h3 : cellIndex P (Fl.fin (1 / 4)) height 0 = 37 := by
    rw [cellIndex_eq P _ _ _ 7 (by decide!)]; decide!
  have h4 : cellIndex P (Fl.fin (-1 / 4)) height 0 = 23 := by
    rw [cellIndex_eq P _ _ _ (-7) (by decide!)]; decide!
  simp only [cells, List.zipWith, w1, w2, w3, w4, h1, h2, h3, h4]

theorem mark_eq_k_iff (c : Prop) [Decidable c] : ((if c then 'k' else ' ') = 'k') ↔ c := by
  by_cases h : c <;> simp [h]

theorem marked_card_eight (buf : Buffer)
    (h : ∀ i j : Fin 60, buf i j = 'k' ↔
      ((i : ℕ), (j : ℕ)) ∈ [(40, 40), (20, 40), (40, 20), (20, 20), (37, 37), (23, 37),
        (37, 23), (23, 23)]) :
    (Finset.univ.filter (fun p : Fin 60 × Fin 60 => buf p.1 p.2 = 'k')).card = 8 := by
  have he : Finset.univ.filter (fun p : Fin 60 × Fin 60 => buf p.1 p.2 = 'k') =
      {((40 : Fin 60), (40 : Fin 60)), (20, 40), (40, 20), (20, 20), (37, 37), (23, 37),
        (37, 23), (23, 23)} := by
    ext ⟨i, j⟩
    simp only [Finset.mem_filter, Finset.mem_univ, true_and, h, List.mem_cons, List.mem_singleton,
      List.not_mem_nil, or_false, Prod.mk.injEq, Finset.mem_insert, Finset.mem_singleton,
      Fin.ext_iff]
    rfl
  rw [he]
  rfl

theorem initial_frame_buffer (P : Platform) (prev : Buffer)
    (hc : P.cos (Fl.fin 0) = Fl.fin 1) (hs : P.sin (Fl.fin 0) = Fl.fin 0) :
    ∃ buf, main_frame P State.initial prev = some buf ∧
      (∀ i j : Fin 60, buf i j = 'k' ↔
        ((i : ℕ), (j : ℕ)) ∈ [(40, 40), (20, 40), (40, 20), (20, 20), (37, 37), (23, 37),
          (37, 23), (23, 23)]) ∧
      (∀ i j : Fin 60, buf i j ≠ 'k' → buf i j = ' ') := by
  have hframe : main_frame P State.initial prev = some (fun (i j : Fin 60) =>
      if (((i : ℕ) : ℤ), ((j : ℕ) : ℤ)) ∈
        [((40 : ℤ), (40 : ℤ)), (20, 40), (40, 20), (20, 20), (37, 37), (23, 37), (37, 23),
          (23, 23)]
      then 'k' else ' ') := by
    unfold main_frame
    rw [initial_transform P hc hs, Option.some_bind]
    dsimp only
    have e1 : State.initial.camera_x = 0 := rfl
    have e2 : State.initial.camera_y = 0 := rfl
    rw [main_draw_eq, e1, e2, initial_cells P]
    rfl
  refine ⟨_, hframe, ?_, ?_⟩
  · intro i j
    refine (mark_eq_k_iff _).trans ?_
    have h20 : ∀ n : ℕ, ((n : ℤ) = 20) = (n = 20) := fun n => propext (by omega)
    have h23 : ∀ n : ℕ, ((n : ℤ) = 23) = (n = 23) := fun n => propext (by omega)
    have h37 : ∀ n : ℕ, ((n : ℤ) = 37) = (n = 37) := fun n => propext (by omega)
    have h40 : ∀ n : ℕ, ((n : ℤ) = 40) = (n = 40) := fun n => propext (by omega)
    simp only [List.mem_cons, List.mem_singleton, List.not_mem_nil, or_false, Prod.mk.injEq,
      h20, h23, h37, h40]
  · intro i j hne
    by_cases hm : (((i : ℕ) : ℤ), ((j : ℕ) : ℤ)) ∈
        [((40 : ℤ), (40 : ℤ)), (20, 40), (40, 20), (20, 20), (37, 37), (23, 37), (37, 23),
          (23, 23)]
    · exact absurd (if_pos hm) hne
    · exact if_neg hm

theorem initial_cells_mirror (a b a' b' : ℕ) (h1 : a + a' = 60) (h2 : b + b' = 60)
    (hm : (a, b) ∈ [(40, 40), (20, 40), (40, 20), (20, 20), (37, 37), (23, 37), (37, 23),
      (23, 23)]) :
    (a', b') ∈ [(40, 40), (20, 40), (40, 20), (20, 20), (37, 37), (23, 37), (37, 23),
      (23, 23)] := by
  obtain rfl : a' = 60 - a := by omega
  obtain rfl : b' = 60 - b := by omega
  simp only [List.mem_cons, List.mem_singleton, List.not_mem_nil, or_false, Prod.mk.injEq] at hm
  rcases hm with h | h | h | h | h | h | h | h <;> obtain ⟨rfl, rfl⟩ := h <;> decide

/-- C6: where cos 0 = 1 and sin 0 = 0, the frame computed from the initial
state (all five camera fields zero) and the 8 hard-coded vertices marks exactly
8 cells: vertex by vertex, the four cells (30±10, 30±10) of the depth-3
vertices and the four cells (30±7, 30±7) of the depth-4 vertices, that is
{20,40}x{20,40} with {23,37}x{23,37}; every other cell is blank, and the marked
set is symmetric about the cell (30, 30). -/
theorem C6_initial_frame (P : Platform) (prev : Buffer)
    (hc : P.cos (Fl.fin 0) = Fl.fin 1) (hs : P.sin (Fl.fin 0) = Fl.fin 0) :
    ∃ buf, main_frame P State.initial prev = some buf ∧
      (∀ i j : Fin 60, buf i j = 'k' ↔
        ((i : ℕ), (j : ℕ)) ∈ [(40, 40), (20, 40), (40, 20), (20, 20), (37, 37), (23, 37),
          (37, 23), (23, 23)]) ∧
      (∀ i j : Fin 60, buf i j ≠ 'k' → buf i j = ' ') ∧
      (Finset.univ.filter (fun p : Fin 60 × Fin 60 => buf p.1 p.2 = 'k')).card = 8 ∧
      (∀ i j i' j' : Fin 60, (i : ℕ) + (i' : ℕ) = 60 → (j : ℕ) + (j' : ℕ) = 60 →
        (buf i j = 'k' ↔ buf i' j' = 'k')) := by
  obtain ⟨buf, hframe, hchar, hblank⟩ := initial_frame_buffer P prev hc hs
  refine ⟨buf, hframe, hchar, hblank, marked_card_eight buf hchar, ?_⟩
  intro i j i' j' hi hj
  rw [hchar, hchar]
  exact ⟨initial_cells_mirror _ _ _ _ hi hj,
    initial_cells_mirror _ _ _ _ (by omega) (by omega)⟩

/-- Witness of C6 on the sample platform, over a buffer of dots. -/
theorem C6_initial_frame_witness :
    ∃ buf, main_frame samplePlatform State.initial (fun _ _ => '.') = some buf ∧
      (∀ i j : Fin 60, buf i j = 'k' ↔
        ((i : ℕ), (j : ℕ)) ∈ [(40, 40), (20, 40), (40, 20), (20, 20), (37, 37), (23, 37),
          (37, 23), (23, 23)]) ∧
      (∀ i j : Fin 60, buf i j ≠ 'k' → buf i j = ' ') ∧
      (Finset.univ.filter (fun p : Fin 60 × Fin 60 => buf p.1 p.2 = 'k')).card = 8 ∧
      (∀ i j i' j' : Fin 60, (i : ℕ) + (i' : ℕ) = 60 → (j : ℕ) + (j' : ℕ) = 60 →
        (buf i j = 'k' ↔ buf i' j' = 'k')) :=
  C6_initial_frame samplePlatform (fun _ _ => '.') (by decide!) (by decide!)

/-! ## Projection at unit depth -/

/-- Dividing a float by 1 returns it. -/
theorem div_one_eq (f : Fmt) (x : Fl) (h : Fl.valid f x) : Fl.div f x (Fl.fin 1) = x := by
  cases x with
  | nan => rfl
  | inf a => cases a <;> simp [Fl.div, Fl.sign]
  | nzero => simp [Fl.div, Fl.toRat, Fl.sign, Fl.zero]
  | fin q =>
    by_cases hq : q = 0
    · subst hq
      simp [Fl.div, Fl.toRat, Fl.sign, Fl.zero]
    · simp only [Fl.div, Fl.toRat, one_ne_zero, if_false, if_neg hq, div_one]
      exact h

theorem one_add_zero : Fl.add binary32 (Fl.fin 1) (Fl.fin 0) = Fl.fin 1 := by decide!

/-- C13: for a coordinate sequence C of floats and a depth sequence Z of the
same length with Z[i] = 1 for every i, projection with the camera depth offset 0
returns C unchanged. -/
theorem C13_projection_unit_depth (C Z : List Fl) (h : C.length = Z.length)
    (hZ : ∀ d ∈ Z, d = Fl.fin 1) (hC : ∀ c ∈ C, Fl.valid binary32 c) :
    projection (Fl.fin 0) C Z = some C := by
  rw [projection_eq _ C Z h]
  congr 1
  apply List.ext_getElem?
  intro i
  rw [List.getElem?_zipWith]
  by_cases hi : i < C.length
  · have hc : C[i]? = some C[i] := List.getElem?_eq_getElem hi
    have hi2 : i < Z.length := by omega
    have hz : Z[i]? = some Z[i] := List.getElem?_eq_getElem hi2
    have hd : Z[i] = Fl.fin 1 := hZ _ (List.getElem_mem hi2)
    rw [hc, hz, hd]
    simp only [one_add_zero]
    rw [div_one_eq _ _ (hC _ (List.getElem_mem hi))]
  · rw [List.getElem?_eq_none (by omega)]

/-- Witness of C13: three coordinates, one of them a negative zero and one an
infinity, over unit depths. -/
theorem C13_projection_unit_depth_witness :
    projection (Fl.fin 0) [Fl.fin (1 / 4), Fl.nzero, Fl.inf true]
        [Fl.fin 1, Fl.fin 1, Fl.fin 1] =
      some [Fl.fin (1 / 4), Fl.nzero, Fl.inf true] :=
  C13_projection_unit_depth [Fl.fin (1 / 4), Fl.nzero, Fl.inf true]
    [Fl.fin 1, Fl.fin 1, Fl.fin 1] (by decide!) (by decide!) (by decide!)

/-! ## The transform chain -/

/-- C15: in every camera state the frame chains the two rotations and projects
both coordinates by the same doubly rotated depth: for each hard-coded vertex
(x, y, z), with xr = x*cos(theta_x) - z*sin(theta_x), zr = x*sin(theta_x) +
z*cos(theta_x), yr = y*cos(theta_y) - zr*sin(theta_y) and zrr = y*sin(theta_y) +
zr*cos(theta_y), the projected coordinates are xr / (zrr + camera_z) and
yr / (zrr + camera_z) (float arithmetic); all six sequences have length 8. -/
theorem C15_transform_chain (P : Platform) (s : State) :
    ∃ t, main_transform P s = some t ∧
      t.x_rotated.length = 8 ∧ t.z_rotated.length = 8 ∧ t.y_rotated.length = 8 ∧
      t.z_rotated_again.length = 8 ∧ t.x_projected.length = 8 ∧ t.y_projected.length = 8 ∧
      ∀ (i : ℕ) (x y z : Fl), x_values[i]? = some x → y_values[i]? = some y →
        z_values[i]? = some z →
        t.x_rotated[i]? = some (Fl.sub binary32 (Fl.mul binary32 x (P.cos s.theta_x))
          (Fl.mul binary32 z (P.sin s.theta_x))) ∧
        t.z_rotated[i]? = some (Fl.add binary32 (Fl.mul binary32 x (P.sin s.theta_x))
          (Fl.mul binary32 z (P.cos s.theta_x))) ∧
        t.y_rotated[i]? = some (Fl.sub binary32 (Fl.mul binary32 y (P.cos s.theta_y))
          (Fl.mul binary32
            (Fl.add binary32 (Fl.mul binary32 x (P.sin s.theta_x))
              (Fl.mul binary32 z (P.cos s.theta_x)))
            (P.sin s.theta_y))) ∧
        t.z_rotated_again[i]? = some (Fl.add binary32 (Fl.mul binary32 y (P.sin s.theta_y))
          (Fl.mul binary32
            (Fl.add binary32 (Fl.mul binary32 x (P.sin s.theta_x))
              (Fl.mul binary32 z (P.cos s.theta_x)))
            (P.cos s.theta_y))) ∧
        t.x_projected[i]? = some (Fl.div binary32
          (Fl.sub binary32 (Fl.mul binary32 x (P.cos s.theta_x))
            (Fl.mul binary32 z (P.sin s.theta_x)))
          (Fl.add binary32
            (Fl.add binary32 (Fl.mul binary32 y (P.sin s.theta_y))
              (Fl.mul binary32
                (Fl.add binary32 (Fl.mul binary32 x (P.sin s.theta_x))
                  (Fl.mul binary32 z (P.cos s.theta_x)))
                (P.cos s.theta_y)))
            s.camera_z)) ∧
        t.y_projected[i]? = some (Fl.div binary32
          (Fl.sub binary32 (Fl.mul binary32 y (P.cos s.theta_y))
            (Fl.mul binary32
              (Fl.add binary32 (Fl.mul binary32 x (P.sin s.theta_x))
                (Fl.mul binary32 z (P.cos s.theta_x)))
              (P.sin s.theta_y)))
          (Fl.add binary32
            (Fl.add binary32 (Fl.mul binary32 y (P.sin s.theta_y))
              (Fl.mul binary32
                (Fl.add binary32 (Fl.mul binary32 x (P.sin s.theta_x))
                  (Fl.mul binary32 z (P.cos s.theta_x)))
                (P.cos s.theta_y)))
            s.camera_z)) := by
  refine ⟨_, main_transform_eq P s, ?_, ?_, ?_, ?_, ?_, ?_, ?_⟩
  · simp [x_values, z_values]
  · simp [x_values, z_values]
  · simp [x_values, y_values, z_values]
  · simp [x_values, y_values, z_values]
  · simp [x_values, y_values, z_values]
  · simp [x_values, y_values, z_values]
  · intro i x y z hx hy hz
    simp [List.getElem?_zipWith, hx, hy, hz]

/-! ## Output -/

theorem bufRead_eq (buf : Buffer) (a b : ℕ) (ha : a < 60) (hb : b < 60) :
    bufRead buf a b = some (buf ⟨a, ha⟩ ⟨b, hb⟩) := by
  unfold bufRead
  rw [dif_pos ⟨ha, hb⟩]

theorem output_row (buf : Buffer) (i : ℕ) (hi : i < 60) (out0 : List Char) :
    ∃ l : List Char,
      forLoop width.toNat (fun j out => (bufRead buf j i).map fun c => out ++ [c]) out0 =
        some (out0 ++ l) ∧
      l.length = 60 ∧ ∀ j : Fin 60, l[(j : ℕ)]? = some (buf j ⟨i, hi⟩) := by
  obtain ⟨s, h1, l, h2, h3, h4⟩ := forLoop_inv
    (fun k (out : List Char) => ∃ l : List Char, out = out0 ++ l ∧ l.length = k ∧
      ∀ j : Fin 60, (j : ℕ) < k → l[(j : ℕ)]? = some (buf j ⟨i, hi⟩))
    (fun j out => (bufRead buf j i).map fun c => out ++ [c]) out0 width.toNat
    ⟨[], by simp, rfl, fun j hj => absurd hj (Nat.not_lt_zero _)⟩
    (by
      rintro k hk out ⟨l, rfl, hl, hget⟩
      have hk' : k < 60 := hk
      refine ⟨out0 ++ l ++ [buf ⟨k, hk'⟩ ⟨i, hi⟩], ?_, l ++ [buf ⟨k, hk'⟩ ⟨i, hi⟩], ?_, ?_, ?_⟩
      · simp only [bufRead_eq buf k i hk' hi, Option.map_some']
      · rw [List.append_assoc]
      · simp [hl]
      · intro j hj
        by_cases hjk : (j : ℕ) = k
        · have hj' : j = ⟨k, hk'⟩ := Fin.ext hjk
          subst hj'
          rw [List.getElem?_append_right (by simp [hl])]
          simp [hl]
        · rw [List.getElem?_append_left (by omega)]
          exact hget j (by omega))
  refine ⟨l, ?_, h3, fun j => h4 j j.isLt⟩
  rw [h1, h2]

/-- C14: for every buffer the output step emits 60 records, in increasing i,
each of the 60 characters buffer[j][i] in increasing j followed by a line
break: the text has 60 * 61 characters, the character of line i, column j is
buffer[j][i] and each line ends with the line break, so that the cell (a, b)
appears on line b at column a. -/
theorem C14_output_layout (buf : Buffer) :
    ∃ out : List Char, main_output buf = some out ∧ out.length = 60 * 61 ∧
      (∀ i j : Fin 60, out[61 * (i : ℕ) + (j : ℕ)]? = some (buf j i)) ∧
      (∀ i : Fin 60, out[61 * (i : ℕ) + 60]? = some '\n') := by
  obtain ⟨out, h1, h2, h3, h4⟩ := forLoop_inv
    (fun k (out : List Char) => out.length = 61 * k ∧
      (∀ i j : Fin 60, (i : ℕ) < k → out[61 * (i : ℕ) + (j : ℕ)]? = some (buf j i)) ∧
      (∀ i : Fin 60, (i : ℕ) < k → out[61 * (i : ℕ) + 60]? = some '\n'))
    (fun i out =>
      (forLoop width.toNat (fun j out => (bufRead buf j i).map fun c => out ++ [c]) out).map
        fun out => out ++ ['\n'])
    [] height.toNat
    ⟨rfl, fun i j hi => absurd hi (Nat.not_lt_zero _), fun i hi => absurd hi (Nat.not_lt_zero _)⟩
    (by
      rintro k hk out ⟨hlen, hc, hn⟩
      have hk' : k < 60 := hk
      obtain ⟨l, hrow, hl, hget⟩ := output_row buf k hk' out
      refine ⟨out ++ l ++ ['\n'], by simp only [hrow, Option.map_some'], ?_, ?_, ?_⟩
      · simp only [List.length_append, hlen, hl, List.length_singleton]
        ring
      · intro i j hi
        by_cases hik : (i : ℕ) = k
        · have hi' : i = ⟨k, hk'⟩ := Fin.ext hik
          subst hi'
          have hj := j.isLt
          rw [List.getElem?_append_left (by simp only [List.length_append, hlen, hl]; omega),
            List.getElem?_append_right (by rw [hlen]; simp)]
          have : 61 * k + (j : ℕ) - out.length = (j : ℕ) := by rw [hlen]; simp
          simp only [this]
          exact hget j
        · have hj := j.isLt
          rw [List.append_assoc, List.getElem?_append_left (by rw [hlen]; omega)]
          exact hc i j (by omega)
      · intro i hi
        by_cases hik : (i : ℕ) = k
        · rw [hik, List.getElem?_append_right (by simp only [List.length_append, hlen, hl]; omega)]
          simp [hlen, hl]
        · rw [List.append_assoc, List.getElem?_append_left (by rw [hlen]; omega)]
          exact hn i (by omega))
  refine ⟨out, h1, h2, fun i j => h3 i j i.isLt, fun i => h4 i i.isLt⟩

/-! ## Symmetry of rounding and truncation -/

theorem rne_neg (r : ℚ) : rne (-r) = -rne r := by
  by_cases hd : r = (⌊r⌋ : ℚ)
  · have h1 : -r = ((-⌊r⌋ : ℤ) : ℚ) := by
      push_cast
      rw [← hd]
    rw [h1, rne_intCast]
    conv_rhs => rw [hd, rne_intCast]
  · have h1 : (⌊r⌋ : ℚ) < r := lt_of_le_of_ne (Int.floor_le r) (Ne.symm hd)
    have h2 : r < (⌊r⌋ : ℚ) + 1 := Int.lt_floor_add_one r
    have hf : ⌊-r⌋ = -⌊r⌋ - 1 := by
      rw [Int.floor_eq_iff]
      push_cast
      constructor <;> linarith
    unfold rne
    rw [hf]
    push_cast
    split_ifs <;> first | omega | (exfalso; linarith)

theorem ilog2_neg (q : ℚ) : ilog2 (-q) = ilog2 q := by
  unfold ilog2
  simp only [Rat.neg_num, Rat.neg_den, Int.natAbs_neg, abs_neg]

theorem roundQ_neg (f : Fmt) (v : ℚ) : roundQ f (-v) = -roundQ f v := by
  unfold roundQ ulpExp
  rw [ilog2_neg, neg_div, rne_neg]
  push_cast
  ring

theorem round_neg (f : Fmt) (v : ℚ) (hv : v ≠ 0) : Fl.round f (-v) = Fl.neg (Fl.round f v) := by
  have hs : decide (-v < 0) = !decide (v < 0) := by
    rcases lt_or_gt_of_ne hv with h | h
    · have h2 : ¬ (-v < 0) := by linarith
      simp [h, h2]
    · have h2 : ¬ (v < 0) := by linarith
      have h3 : -v < 0 := by linarith
      simp [h2, h3]
  unfold Fl.round
  rw [roundQ_neg, abs_neg, hs]
  split
  · simp [Fl.neg]
  · split
    · rename_i h0
      rw [if_pos (neg_eq_zero.mp h0)]
      cases decide (v < 0) <;> simp [Fl.zero, Fl.neg]
    · rename_i h0
      rw [if_neg (fun h => h0 (by rw [h, neg_zero]))]
      simp only [Fl.neg]
      rw [if_neg (fun h => h0 (by rw [h, neg_zero]))]

theorem valid_neg (f : Fmt) (x : Fl) (h : Fl.valid f x) : Fl.valid f (Fl.neg x) := by
  cases x with
  | nan => trivial
  | inf a => trivial
  | nzero =>
    show Fl.round f 0 = Fl.fin 0
    rw [round_eq_zero f 0 (roundQ_zero f)]
    simp [Fl.zero]
  | fin q =>
    by_cases hq : q = 0
    · subst hq
      simp only [Fl.neg, if_true]
      trivial
    · simp only [Fl.neg, if_neg hq]
      show Fl.round f (-q) = Fl.fin (-q)
      rw [round_neg f q hq, round_of_valid f q h]
      simp [Fl.neg, hq]

/-- Negating a factor negates the product with a positive float. -/
theorem mul_neg_left (f : Fmt) (x : Fl) (b : ℚ) (hb : 0 < b) :
    Fl.mul f (Fl.neg x) (Fl.fin b) = Fl.neg (Fl.mul f x (Fl.fin b)) := by
  have hb0 : ¬ b < 0 := not_lt.mpr hb.le
  cases x with
  | nan => rfl
  | inf a => cases a <;> simp [Fl.mul, Fl.neg, Fl.isFinite, Fl.toRat, Fl.sign, hb.ne', hb0]
  | nzero =>
    show Fl.mul f (Fl.zero false) (Fl.fin b) = Fl.neg (Fl.mul f (Fl.zero true) (Fl.fin b))
    rw [mul_zero_fin f _ b hb, mul_zero_fin f _ b hb]
    rfl
  | fin q =>
    by_cases hq : q = 0
    · subst hq
      show Fl.mul f (Fl.zero true) (Fl.fin b) = Fl.neg (Fl.mul f (Fl.zero false) (Fl.fin b))
      rw [mul_zero_fin f _ b hb, mul_zero_fin f _ b hb]
      rfl
    · have e : Fl.neg (Fl.fin q) = Fl.fin (-q) := by simp [Fl.neg, hq]
      rw [e, mul_fin_fin f _ _ (mul_ne_zero (neg_ne_zero.mpr hq) hb.ne'),
        mul_fin_fin f _ _ (mul_ne_zero hq hb.ne'), neg_mul,
        round_neg f _ (mul_ne_zero hq hb.ne')]

theorem toRat_neg (x : Fl) : (Fl.neg x).toRat = -x.toRat := by
  cases x with
  | nan => simp [Fl.neg, Fl.toRat]
  | inf a => simp [Fl.neg, Fl.toRat]
  | nzero => simp [Fl.neg, Fl.toRat]
  | fin q =>
    by_cases hq : q = 0
    · subst hq
      simp [Fl.neg, Fl.toRat]
    · simp [Fl.neg, Fl.toRat, hq]

theorem trunc_neg (q : ℚ) : Fl.trunc (-q) = -Fl.trunc q := by
  unfold Fl.trunc
  rcases lt_trichotomy q 0 with h | h | h
  · rw [if_pos (by linarith), if_neg (by linarith), Int.floor_neg]
  · subst h
    simp
  · rw [if_neg (by linarith), if_pos h.le, Int.ceil_neg]

/-- For a value that is not an integer, floor is not symmetric. -/
theorem floor_neg_add_floor (v : ℚ) (hv : v ≠ (⌊v⌋ : ℚ)) : ⌊-v⌋ + ⌊v⌋ = -1 := by
  have h1 : (⌊v⌋ : ℚ) < v := lt_of_le_of_ne (Int.floor_le v) (Ne.symm hv)
  have h2 : v < (⌊v⌋ : ℚ) + 1 := Int.lt_floor_add_one v
  have hf : ⌊-v⌋ = -⌊v⌋ - 1 := by
    rw [Int.floor_eq_iff]
    push_cast
    constructor <;> linarith
  rw [hf]
  ring

/-- C18, refuted as stated: for the projected value 10^9, and for an infinite
one, neither p*30 nor (-p)*30 converts to int; with the result -2^31 of x86-64
the cell index of p and the cell index of -p are both -2147483618, which is not
trunc(p*30) + 30, and the two indices do not sum to 60. -/
theorem C18_no_mirror_out_of_range :
    Fl.valid binary32 (Fl.fin (10 ^ 9)) ∧
    Fl.toInt? (Fl.mul binary32 (Fl.fin (10 ^ 9)) (Fl.fin 30)) = none ∧
    Fl.toInt? (Fl.mul binary32 (Fl.neg (Fl.fin (10 ^ 9))) (Fl.fin 30)) = none ∧
    cellIndex samplePlatform (Fl.fin (10 ^ 9)) width 0 = -2147483618 ∧
    cellIndex samplePlatform (Fl.neg (Fl.fin (10 ^ 9))) width 0 = -2147483618 ∧
    cellIndex samplePlatform (Fl.neg (Fl.fin (10 ^ 9))) width 0 +
      cellIndex samplePlatform (Fl.fin (10 ^ 9)) width 0 ≠ 60 ∧
    cellIndex samplePlatform (Fl.inf false) width 0 = -2147483618 ∧
    cellIndex samplePlatform (Fl.neg (Fl.inf false)) width 0 = -2147483618 ∧
    cellIndex samplePlatform (Fl.neg (Fl.inf false)) width 0 +
      cellIndex samplePlatform (Fl.inf false) width 0 ≠ 60 ∧
    cellIndex samplePlatform (Fl.fin (10 ^ 9)) width 0 ≠
      Fl.trunc (Fl.mul binary32 (Fl.fin (10 ^ 9)) (Fl.fin 30)).toRat + 30 := by
  decide!

/-- C18, amended: for every projected float p such that p*30 and (-p)*30
convert to int (t and t'), with zero camera offset the cell index of -p mirrors
that of p: t' = -t, so (trunc(-p*30) + 30) + (trunc(p*30) + 30) = 60, and these
are the indices the rasterizer computes (while the int additions do not
overflow); with floor in place of trunc the sum is 59 for every non-integer
value of p*30. -/
theorem C18_mirror (P : Platform) (p : Fl) (t t' : ℤ) (hp : Fl.valid binary32 p)
    (h1 : Fl.toInt? (Fl.mul binary32 p (Fl.fin 30)) = some t)
    (h2 : Fl.toInt? (Fl.mul binary32 (Fl.neg p) (Fl.fin 30)) = some t') :
    t = Fl.trunc (Fl.mul binary32 p (Fl.fin 30)).toRat ∧
    t' = Fl.trunc (Fl.mul binary32 (Fl.neg p) (Fl.fin 30)).toRat ∧
    t' = -t ∧ (t' + 30) + (t + 30) = 60 ∧
    cellIndex P (Fl.neg p) width 0 = wrap32 (t' + 30) ∧
    cellIndex P p width 0 = wrap32 (t + 30) ∧
    (t + 30 < 2 ^ 31 ∧ t' + 30 < 2 ^ 31 →
      cellIndex P (Fl.neg p) width 0 + cellIndex P p width 0 = 60) ∧
    (∀ v : ℚ, v ≠ (⌊v⌋ : ℚ) → (⌊-v⌋ + 30) + (⌊v⌋ + 30) = 59) := by
  obtain ⟨_, ht, hlo, hhi⟩ := toInt?_eq_some _ _ h1
  obtain ⟨_, ht', hlo', hhi'⟩ := toInt?_eq_some _ _ h2
  have hneg : t' = -t := by
    rw [ht', ht, mul_neg_left _ _ _ (by norm_num), toRat_neg, trunc_neg]
  have ha : cellIndex P p width 0 = wrap32 (t + 30) := by
    rw [cellIndex_eq P p width 0 t
      (by rw [show Fl.ofInt width = Fl.fin 60 from ofInt_60, ofInt_2]
          exact toInt?_width_half p hp t h1)]
    simp [width]
  have ha' : cellIndex P (Fl.neg p) width 0 = wrap32 (t' + 30) := by
    rw [cellIndex_eq P (Fl.neg p) width 0 t'
      (by rw [show Fl.ofInt width = Fl.fin 60 from ofInt_60, ofInt_2]
          exact toInt?_width_half _ (valid_neg _ _ hp) t' h2)]
    simp [width]
  refine ⟨ht, ht', hneg, by rw [hneg]; ring, ha', ha, ?_, ?_⟩
  · intro hr
    rw [ha, ha', wrap32_eq_self _ (by omega) (by omega), wrap32_eq_self _ (by omega) (by omega),
      hneg]
    ring
  · intro v hv
    have := floor_neg_add_floor v hv
    omega

/-- Witness of C18: the projected value 1/3 as a float and its negative. -/
theorem C18_mirror_witness :
    (10 : ℤ) = Fl.trunc (Fl.mul binary32 (Fl.fin (11184811 / 2 ^ 25)) (Fl.fin 30)).toRat ∧
    (-10 : ℤ) =
      Fl.trunc (Fl.mul binary32 (Fl.neg (Fl.fin (11184811 / 2 ^ 25))) (Fl.fin 30)).toRat ∧
    (-10 : ℤ) = -10 ∧ ((-10 : ℤ) + 30) + (10 + 30) = 60 ∧
    cellIndex samplePlatform (Fl.neg (Fl.fin (11184811 / 2 ^ 25))) width 0 = wrap32 (-10 + 30) ∧
    cellIndex samplePlatform (Fl.fin (11184811 / 2 ^ 25)) width 0 = wrap32 (10 + 30) ∧
    ((10 : ℤ) + 30 < 2 ^ 31 ∧ (-10 : ℤ) + 30 < 2 ^ 31 →
      cellIndex samplePlatform (Fl.neg (Fl.fin (11184811 / 2 ^ 25))) width 0 +
        cellIndex samplePlatform (Fl.fin (11184811 / 2 ^ 25)) width 0 = 60) ∧
    (∀ v : ℚ, v ≠ (⌊v⌋ : ℚ) → (⌊-v⌋ + 30) + (⌊v⌋ + 30) = 59) :=
  C18_mirror samplePlatform (Fl.fin (11184811 / 2 ^ 25)) 10 (-10) (by decide!) (by decide!)
    (by decide!)

/-! ## Reaching a zero denominator -/

theorem main_input_s (s : State) :
    main_input 's' s = { s with camera_z := addAssign s.camera_z (lit64 (1 / 2)) } := by
  simp [main_input]

theorem main_input_s_iterate (n : ℕ) (s : State) :
    (main_input 's')^[n] s =
      { s with camera_z := (fun z => addAssign z (lit64 (1 / 2)))^[n] s.camera_z } := by
  induction n generalizing s with
  | zero => rfl
  | succ k ih => rw [Function.iterate_succ_apply, ih, main_input_s, Function.iterate_succ_apply]

/-- Rounding a positive value gives a nonnegative float or plus infinity. -/
theorem round_pos (f : Fmt) (v : ℚ) (hv : 0 < v) :
    Fl.round f v = Fl.inf false ∨ ∃ r : ℚ, 0 ≤ r ∧ Fl.round f v = Fl.fin r := by
  have hs : decide (v < 0) = false := by simp [hv.le]
  unfold Fl.round
  rw [hs]
  split
  · exact Or.inl rfl
  · split
    · exact Or.inr ⟨0, le_rfl, rfl⟩
    · refine Or.inr ⟨roundQ f v, ?_, rfl⟩
      unfold roundQ
      have h1 : (0 : ℤ) ≤ rne (v / 2 ^ ulpExp f v) :=
        le_rne _ 0 (by push_cast; exact div_nonneg hv.le (two_zpow_pos _).le)
      exact mul_nonneg (by exact_mod_cast h1) (two_zpow_pos _).le

/-- Pressing s keeps camera_z nonnegative (or plus infinity). -/
theorem addAssign_half_nonneg (z : Fl)
    (hz : z = Fl.inf false ∨ ∃ q : ℚ, 0 ≤ q ∧ z = Fl.fin q) :
    addAssign z (lit64 (1 / 2)) = Fl.inf false ∨
      ∃ q : ℚ, 0 ≤ q ∧ addAssign z (lit64 (1 / 2)) = Fl.fin q := by
  have hcvt : ∀ y : Fl, (y = Fl.inf false ∨ ∃ r : ℚ, 0 ≤ r ∧ y = Fl.fin r) →
      (Fl.cvt binary32 y = Fl.inf false ∨ ∃ q : ℚ, 0 ≤ q ∧ Fl.cvt binary32 y = Fl.fin q) := by
    rintro y (rfl | ⟨r, hr, rfl⟩)
    · exact Or.inl rfl
    · by_cases hr0 : r = 0
      · subst hr0
        exact Or.inr ⟨0, le_rfl, by simp [Fl.cvt]⟩
      · simp only [Fl.cvt, if_neg hr0]
        exact round_pos _ _ (lt_of_le_of_ne hr (Ne.symm hr0))
  unfold addAssign
  rw [lit64_values.2]
  apply hcvt
  rcases hz with rfl | ⟨q, hq, rfl⟩
  · exact Or.inl rfl
  · have hne : q + 1 / 2 ≠ 0 := by linarith
    simp only [Fl.add, Fl.toRat, if_neg hne]
    exact round_pos _ _ (by linarith)

theorem iterate_s_nonneg (n : ℕ) :
    (fun z => addAssign z (lit64 (1 / 2)))^[n] (Fl.fin 0) = Fl.inf false ∨
      ∃ q : ℚ, 0 ≤ q ∧ (fun z => addAssign z (lit64 (1 / 2)))^[n] (Fl.fin 0) = Fl.fin q := by
  induction n with
  | zero => exact Or.inr ⟨0, le_rfl, rfl⟩
  | succ k ih =>
    rw [Function.iterate_succ_apply']
    exact addAssign_half_nonneg _ ih

/-- Rounding to binary32 a value of at least 1 does not give zero. -/
theorem roundQ_pos_of_one_le (v : ℚ) (hv : 1 ≤ v) : 0 < roundQ binary32 v := by
  have hv0 : v ≠ 0 := by linarith
  obtain ⟨s1, s2⟩ := ilog2_spec v hv0
  have he : 0 ≤ ilog2 v := by
    have h1 : (2 : ℚ) ^ (0 : ℤ) < 2 ^ (ilog2 v + 1) := by
      rw [zpow_zero]
      exact lt_of_le_of_lt (le_trans hv (le_abs_self v)) s2
    have := (zpow_lt_zpow_iff_right₀ (by norm_num : (1 : ℚ) < 2)).mp h1
    omega
  have hu : ulpExp binary32 v ≤ ilog2 v := by
    unfold ulpExp
    apply max_le
    · have : (0 : ℤ) ≤ ((binary32.prec : ℤ) - 1) := by decide
      omega
    · have : 2 - binary32.emax - (binary32.prec : ℤ) ≤ 0 := by decide
      omega
  have h1 : (1 : ℚ) ≤ v / 2 ^ ulpExp binary32 v := by
    rw [le_div_iff₀ (two_zpow_pos _), one_mul]
    calc (2 : ℚ) ^ ulpExp binary32 v ≤ 2 ^ ilog2 v := zpow_le_zpow_right₀ (by norm_num) hu
      _ ≤ |v| := s1
      _ = v := abs_of_pos (by linarith)
  have h2 : (1 : ℤ) ≤ rne (v / 2 ^ ulpExp binary32 v) := le_rne _ 1 (by push_cast; exact h1)
  unfold roundQ
  exact mul_pos (by exact_mod_cast (by omega : (0 : ℤ) < rne (v / 2 ^ ulpExp binary32 v)))
    (two_zpow_pos _)

/-- The sum of a float of at least 1 and a nonnegative float or plus infinity
is not a zero. -/
theorem add_pos_not_zero (d : ℚ) (hd : 1 ≤ d) (z : Fl)
    (hz : z = Fl.inf false ∨ ∃ q : ℚ, 0 ≤ q ∧ z = Fl.fin q) :
    Fl.add binary32 (Fl.fin d) z ≠ Fl.fin 0 ∧ Fl.add binary32 (Fl.fin d) z ≠ Fl.nzero := by
  rcases hz with rfl | ⟨q, hq, rfl⟩
  · simp [Fl.add]
  · have hne : d + q ≠ 0 := by linarith
    have hpos := roundQ_pos_of_one_le (d + q) (by linarith)
    simp only [Fl.add, Fl.toRat, if_neg hne]
    unfold Fl.round
    split
    · simp
    · rw [if_neg hpos.ne']
      constructor
      · intro h
        exact hpos.ne' (Fl.fin.inj h)
      · simp

/-- The transformed sequences in a state whose two angles are 0, where cos 0 = 1
and sin 0 = 0: the rotations return the vertices. -/
theorem transform_theta_zero (P : Platform) (s : State)
    (hc : P.cos (Fl.fin 0) = Fl.fin 1) (hs : P.sin (Fl.fin 0) = Fl.fin 0)
    (hx : s.theta_x = Fl.fin 0) (hy : s.theta_y = Fl.fin 0) :
    main_transform P s = some
      ⟨x_values, z_values, y_values, z_values,
        List.zipWith (fun c d => Fl.div binary32 c (Fl.add binary32 d s.camera_z))
          x_values z_values,
        List.zipWith (fun c d => Fl.div binary32 c (Fl.add binary32 d s.camera_z))
          y_values z_values⟩ := by
  have e1 : List.zipWith (fun a b => Fl.sub binary32 (Fl.mul binary32 a (Fl.fin 1))
      (Fl.mul binary32 b (Fl.fin 0))) x_values z_values = x_values := by decide!
  have e2 : List.zipWith (fun a b => Fl.add binary32 (Fl.mul binary32 a (Fl.fin 0))
      (Fl.mul binary32 b (Fl.fin 1))) x_values z_values = z_values := by decide!
  have e3 : List.zipWith (fun a b => Fl.sub binary32 (Fl.mul binary32 a (Fl.fin 1))
      (Fl.mul binary32 b (Fl.fin 0))) y_values z_values = y_values := by decide!
  have e4 : List.zipWith (fun a b => Fl.add binary32 (Fl.mul binary32 a (Fl.fin 0))
      (Fl.mul binary32 b (Fl.fin 1))) y_values z_values = z_values := by decide!
  rw [main_transform_eq]
  simp only [hx, hy, hc, hs, e1, e2, e3, e4]

/-- C16, refuted as stated: where cos 0 = 1 and sin 0 = 0, no number n >= 1 of
inputs s from the initial state gives any vertex a zero denominator: s adds 0.5
to camera_z, which stays nonnegative while the depths are 3 and 4. -/
theorem C16_s_never_reaches_zero :
    ¬ ∃ (P : Platform) (n : ℕ) (t : Transformed) (i : ℕ) (d : Fl),
      P.cos (Fl.fin 0) = Fl.fin 1 ∧ P.sin (Fl.fin 0) = Fl.fin 0 ∧ 1 ≤ n ∧
      main_transform P ((main_input 's')^[n] State.initial) = some t ∧
      t.z_rotated_again[i]? = some d ∧
      (Fl.add binary32 d ((main_input 's')^[n] State.initial).camera_z = Fl.fin 0 ∨
        Fl.add binary32 d ((main_input 's')^[n] State.initial).camera_z = Fl.nzero) := by
  rintro ⟨P, n, t, i, d, hc, hs, _, ht, hd, hzero⟩
  rw [main_input_s_iterate] at ht hzero
  rw [transform_theta_zero P _ hc hs rfl rfl] at ht
  have ht' := Option.some.inj ht
  subst ht'
  have hmem : d ∈ z_values := List.getElem?_mem hd
  have hz := iterate_s_nonneg n
  have hd' : d = Fl.fin 3 ∨ d = Fl.fin 4 := by
    simp only [z_values, List.mem_cons, List.mem_singleton, List.not_mem_nil, or_false] at hmem
    rcases hmem with h | h | h | h | h | h | h | h <;> simp [h]
  rcases hd' with rfl | rfl
  · have := add_pos_not_zero 3 (by norm_num) _ hz
    rcases hzero with h | h
    · exact this.1 h
    · exact this.2 h
  · have := add_pos_not_zero 4 (by norm_num) _ hz
    rcases hzero with h | h
    · exact this.1 h
    · exact this.2 h

/-- C16, amended: where cos 0 = 1 and sin 0 = 0, the zero denominator is
reachable from the initial state by pressing w repeatedly: after 6 inputs w,
camera_z is -3 and each of the four vertices of depth 3 has depth plus camera_z
equal to zero. -/
theorem C16_w_reaches_zero (P : Platform)
    (hc : P.cos (Fl.fin 0) = Fl.fin 1) (hs : P.sin (Fl.fin 0) = Fl.fin 0) :
    ((main_input 'w')^[6] State.initial).camera_z = Fl.fin (-3) ∧
    ∃ t, main_transform P ((main_input 'w')^[6] State.initial) = some t ∧
      ∀ i : ℕ, i < 4 → ∃ d, t.z_rotated_again[i]? = some d ∧
        Fl.add binary32 d ((main_input 'w')^[6] State.initial).camera_z = Fl.fin 0 := by
  have h6 : (main_input 'w')^[6] State.initial =
      ⟨0, 0, Fl.fin (-3), Fl.fin 0, Fl.fin 0⟩ := by decide!
  rw [h6]
  refine ⟨rfl, _, transform_theta_zero P _ hc hs rfl rfl, ?_⟩
  intro i hi
  have h3 : Fl.add binary32 (Fl.fin 3) (Fl.fin (-3)) = Fl.fin 0 := by decide!
  interval_cases i
  · exact ⟨Fl.fin 3, rfl, h3⟩
  · exact ⟨Fl.fin 3, rfl, h3⟩
  · exact ⟨Fl.fin 3, rfl, h3⟩
  · exact ⟨Fl.fin 3, rfl, h3⟩

/-- Witness of the amended C16 on the sample platform. -/
theorem C16_w_reaches_zero_witness :
    ((main_input 'w')^[6] State.initial).camera_z = Fl.fin (-3) ∧
    ∃ t, main_transform samplePlatform ((main_input 'w')^[6] State.initial) = some t ∧
      ∀ i : ℕ, i < 4 → ∃ d, t.z_rotated_again[i]? = some d ∧
        Fl.add binary32 d ((main_input 'w')^[6] State.initial).camera_z = Fl.fin 0 :=
  C16_w_reaches_zero samplePlatform (by decide!) (by decide!)

/-! ## A vertex with a zero denominator -/

/-- Dividing by a zero gives an infinity or NaN. -/
theorem div_zero_not_finite (f : Fmt) (x y : Fl) (hy : y = Fl.fin 0 ∨ y = Fl.nzero) :
    (Fl.div f x y).isFinite = false := by
  cases x with
  | nan => rcases hy with rfl | rfl <;> rfl
  | inf a => rcases hy with rfl | rfl <;> simp [Fl.div, Fl.isFinite]
  | nzero => rcases hy with rfl | rfl <;> simp [Fl.div, Fl.toRat, Fl.isFinite]
  | fin q =>
    rcases hy with rfl | rfl <;> by_cases hq : q = 0 <;>
      simp [Fl.div, Fl.toRat, Fl.isFinite, hq]

/-- An infinity or NaN scaled by (float)width/2 does not convert to int. -/
theorem scaled_not_finite (x : Fl) (hx : x.isFinite = false) :
    Fl.toInt? (Fl.div binary32 (Fl.mul binary32 x (Fl.fin 60)) (Fl.fin 2)) = none := by
  cases x with
  | nan => rfl
  | inf a => cases a <;> simp [Fl.mul, Fl.div, Fl.isFinite, Fl.toRat, Fl.sign, Fl.toInt?]
  | nzero => simp [Fl.isFinite] at hx
  | fin q => simp [Fl.isFinite] at hx

theorem cellIndex_undef (P : Platform) (p : Fl) (size camera : ℤ)
    (h : Fl.toInt? (Fl.div binary32 (Fl.mul binary32 p (Fl.ofInt size)) (Fl.ofInt 2)) = none) :
    cellIndex P p size camera =
      wrap32 (P.castUndef (Fl.div binary32 (Fl.mul binary32 p (Fl.ofInt size)) (Fl.ofInt 2))
        + size / 2 + camera) := by
  unfold cellIndex toInt
  rw [h, wrap32_wrap32_add]
  rfl

/-- The projected coordinates of the vertex i are its rotated coordinates
divided by its doubly rotated depth plus camera_z. -/
theorem projected_elem (P : Platform) (s : State) (t : Transformed)
    (ht : main_transform P s = some t) (i : ℕ) (d : Fl)
    (hd : t.z_rotated_again[i]? = some d) :
    ∃ xr yr, t.x_rotated[i]? = some xr ∧ t.y_rotated[i]? = some yr ∧
      t.x_projected[i]? = some (Fl.div binary32 xr (Fl.add binary32 d s.camera_z)) ∧
      t.y_projected[i]? = some (Fl.div binary32 yr (Fl.add binary32 d s.camera_z)) := by
  rw [main_transform_eq] at ht
  have ht' := Option.some.inj ht
  subst ht'
  have hi : i < 8 := by
    have := (List.getElem?_eq_some.mp hd).1
    simpa [x_values, y_values, z_values] using this
  have hx : ∃ xr, (List.zipWith (fun a b => Fl.sub binary32 (Fl.mul binary32 a (P.cos s.theta_x))
      (Fl.mul binary32 b (P.sin s.theta_x))) x_values z_values)[i]? = some xr := by
    refine ⟨_, List.getElem?_eq_getElem ?_⟩
    simpa [x_values, z_values] using hi
  have hy : ∃ yr, (List.zipWith (fun a b => Fl.sub binary32 (Fl.mul binary32 a (P.cos s.theta_y))
      (Fl.mul binary32 b (P.sin s.theta_y))) y_values
        (List.zipWith (fun a b => Fl.add binary32 (Fl.mul binary32 a (P.sin s.theta_x))
          (Fl.mul binary32 b (P.cos s.theta_x))) x_values z_values))[i]? = some yr := by
    refine ⟨_, List.getElem?_eq_getElem ?_⟩
    simpa [x_values, y_values, z_values] using hi
  obtain ⟨xr, hxr⟩ := hx
  obtain ⟨yr, hyr⟩ := hy
  refine ⟨xr, yr, hxr, hyr, ?_, ?_⟩
  · show (List.zipWith _ _ _)[i]? = _
    rw [List.getElem?_zipWith, hxr, hd]
  · show (List.zipWith _ _ _)[i]? = _
    rw [List.getElem?_zipWith, hyr, hd]

theorem main_frame_isSome (P : Platform) (s : State) (buf : Buffer) :
    (main_frame P s buf).isSome = true := by
  obtain ⟨t, ht, _, _, _, _, hx, hy⟩ := main_transform_length P s
  unfold main_frame
  rw [ht, Option.some_bind, main_draw_eq P _ _ _ _ buf (by rw [hx, hy])]
  rfl

/-- C17, refuted as stated: with the int conversion of x86-64 (the sample
platform) and the camera offsets at 2^31 - 1, the vertex 0, whose denominator
3 + (-3) is zero and whose projected coordinates are infinite, gets the cell
(29, 29), which is in range, and the frame marks it. -/
theorem C17_extreme_offset_marked :
    ∃ t buf,
      main_transform samplePlatform ⟨2 ^ 31 - 1, 2 ^ 31 - 1, Fl.fin (-3), Fl.fin 0, Fl.fin 0⟩
        = some t ∧
      t.z_rotated_again[0]? = some (Fl.fin 3) ∧
      Fl.add binary32 (Fl.fin 3) (Fl.fin (-3)) = Fl.fin 0 ∧
      t.x_projected[0]? = some (Fl.inf false) ∧ t.y_projected[0]? = some (Fl.inf false) ∧
      cellIndex samplePlatform (Fl.inf false) width (2 ^ 31 - 1) = 29 ∧
      cellIndex samplePlatform (Fl.inf false) height (2 ^ 31 - 1) = 29 ∧
      main_frame samplePlatform ⟨2 ^ 31 - 1, 2 ^ 31 - 1, Fl.fin (-3), Fl.fin 0, Fl.fin 0⟩
        (fun _ _ => ' ') = some buf ∧
      buf 29 29 = 'k' := by
  have h1 : ((main_frame samplePlatform
      ⟨2 ^ 31 - 1, 2 ^ 31 - 1, Fl.fin (-3), Fl.fin 0, Fl.fin 0⟩ (fun _ _ => ' ')).map
        (fun b => b 29 29)) = some 'k' := by decide!
  obtain ⟨buf, hb1, hb2⟩ := Option.map_eq_some'.mp h1
  have h2 : ∃ t,
      main_transform samplePlatform ⟨2 ^ 31 - 1, 2 ^ 31 - 1, Fl.fin (-3), Fl.fin 0, Fl.fin 0⟩
        = some t ∧
      t.z_rotated_again[0]? = some (Fl.fin 3) ∧
      t.x_projected[0]? = some (Fl.inf false) ∧ t.y_projected[0]? = some (Fl.inf false) := by
    rw [transform_theta_zero samplePlatform _ (by decide!) (by decide!) rfl rfl]
    refine ⟨_, rfl, ?_, ?_, ?_⟩ <;> decide!
  obtain ⟨t, ht, h3, h4, h5⟩ := h2
  exact ⟨t, buf, ht, h3, by decide!, h4, h5, by decide!, by decide!, hb1, hb2⟩

/-- C17, amended: in every camera state in which a vertex has a zero
denominator, the frame is produced without any out-of-bounds write and the
projected coordinates of that vertex are infinite or NaN, so that their
conversion to int is outside what the language defines; where that conversion
yields -2^31 (x86-64) and camera_x or camera_y lies between -2^31 + 30 and
2^31 - 31, the computed cell of the vertex is out of range and the vertex marks
nothing. -/
theorem C17_zero_denominator (P : Platform) (s : State) (buf : Buffer) (t : Transformed)
    (i : ℕ) (d : Fl)
    (ht : main_transform P s = some t) (hd : t.z_rotated_again[i]? = some d)
    (hzero : Fl.add binary32 d s.camera_z = Fl.fin 0 ∨
      Fl.add binary32 d s.camera_z = Fl.nzero)
    (hcast : ∀ v, P.castUndef v = -2 ^ 31)
    (hcam : (-2 ^ 31 + 30 ≤ s.camera_x ∧ s.camera_x ≤ 2 ^ 31 - 31) ∨
      (-2 ^ 31 + 30 ≤ s.camera_y ∧ s.camera_y ≤ 2 ^ 31 - 31)) :
    (main_frame P s buf).isSome = true ∧
    ∃ xp yp, t.x_projected[i]? = some xp ∧ t.y_projected[i]? = some yp ∧
      xp.isFinite = false ∧ yp.isFinite = false ∧
      Fl.toInt? (Fl.div binary32 (Fl.mul binary32 xp (Fl.ofInt width)) (Fl.ofInt 2)) = none ∧
      Fl.toInt? (Fl.div binary32 (Fl.mul binary32 yp (Fl.ofInt height)) (Fl.ofInt 2)) = none ∧
      ¬ (0 ≤ cellIndex P xp width s.camera_x ∧ cellIndex P xp width s.camera_x < 60 ∧
        0 ≤ cellIndex P yp height s.camera_y ∧ cellIndex P yp height s.camera_y < 60) ∧
      ∀ b : Buffer,
        plot b (cellIndex P xp width s.camera_x) (cellIndex P yp height s.camera_y) = some b := by
  obtain ⟨xr, yr, _, _, hxp, hyp⟩ := projected_elem P s t ht i d hd
  have fx := div_zero_not_finite binary32 xr _ hzero
  have fy := div_zero_not_finite binary32 yr _ hzero
  have tx : Fl.toInt? (Fl.div binary32 (Fl.mul binary32
      (Fl.div binary32 xr (Fl.add binary32 d s.camera_z)) (Fl.ofInt width)) (Fl.ofInt 2)) = none := by
    rw [show Fl.ofInt width = Fl.fin 60 from ofInt_60, ofInt_2]
    exact scaled_not_finite _ fx
  have ty : Fl.toInt? (Fl.div binary32 (Fl.mul binary32
      (Fl.div binary32 yr (Fl.add binary32 d s.camera_z)) (Fl.ofInt height)) (Fl.ofInt 2)) = none := by
    rw [show Fl.ofInt height = Fl.fin 60 from ofInt_60, ofInt_2]
    exact scaled_not_finite _ fy
  have ca := cellIndex_undef P _ width s.camera_x tx
  have cb := cellIndex_undef P _ height s.camera_y ty
  rw [hcast] at ca cb
  have hout : ¬ (0 ≤ cellIndex P (Fl.div binary32 xr (Fl.add binary32 d s.camera_z)) width
        s.camera_x ∧
      cellIndex P (Fl.div binary32 xr (Fl.add binary32 d s.camera_z)) width s.camera_x < 60 ∧
      0 ≤ cellIndex P (Fl.div binary32 yr (Fl.add binary32 d s.camera_z)) height s.camera_y ∧
      cellIndex P (Fl.div binary32 yr (Fl.add binary32 d s.camera_z)) height s.camera_y < 60) := by
    rw [ca, cb]
    unfold wrap32 width height
    omega
  refine ⟨main_frame_isSome P s buf, _, _, hxp, hyp, fx, fy, tx, ty, hout, ?_⟩
  intro b
  apply plot_outside
  omega

/-- Witness of the amended C17 on the sample platform: the camera at depth -3
and the vertex 0. -/
theorem C17_zero_denominator_witness :
    (main_frame samplePlatform ⟨0, 0, Fl.fin (-3), Fl.fin 0, Fl.fin 0⟩ (fun _ _ => '.')).isSome
      = true ∧
    ∃ xp yp,
      (⟨x_values, z_values, y_values, z_values,
        List.zipWith (fun c d => Fl.div binary32 c (Fl.add binary32 d (Fl.fin (-3))))
          x_values z_values,
        List.zipWith (fun c d => Fl.div binary32 c (Fl.add binary32 d (Fl.fin (-3))))
          y_values z_values⟩ : Transformed).x_projected[0]? = some xp ∧
      (⟨x_values, z_values, y_values, z_values,
        List.zipWith (fun c d => Fl.div binary32 c (Fl.add binary32 d (Fl.fin (-3))))
          x_values z_values,
        List.zipWith (fun c d => Fl.div binary32 c (Fl.add binary32 d (Fl.fin (-3))))
          y_values z_values⟩ : Transformed).y_projected[0]? = some yp ∧
      xp.isFinite = false ∧ yp.isFinite = false ∧
      Fl.toInt? (Fl.div binary32 (Fl.mul binary32 xp (Fl.ofInt width)) (Fl.ofInt 2)) = none ∧
      Fl.toInt? (Fl.div binary32 (Fl.mul binary32 yp (Fl.ofInt height)) (Fl.ofInt 2)) = none ∧
      ¬ (0 ≤ cellIndex samplePlatform xp width 0 ∧ cellIndex samplePlatform xp width 0 < 60 ∧
        0 ≤ cellIndex samplePlatform yp height 0 ∧ cellIndex samplePlatform yp height 0 < 60) ∧
      ∀ b : Buffer,
        plot b (cellIndex samplePlatform xp width 0) (cellIndex samplePlatform yp height 0)
          = some b :=
  C17_zero_denominator samplePlatform ⟨0, 0, Fl.fin (-3), Fl.fin 0, Fl.fin 0⟩ (fun _ _ => '.')
    _ 0 (Fl.fin 3)
    (transform_theta_zero samplePlatform _ (by decide!) (by decide!) rfl rfl)
    (by decide!) (by decide!) (fun _ => rfl) (by decide!)

/-! ## Rounding error -/

theorem rne_err (r : ℚ) : |(rne r : ℚ) - r| ≤ 1 / 2 := by
  have h1 : (⌊r⌋ : ℚ) ≤ r := Int.floor_le r
  have h2 : r < (⌊r⌋ : ℚ) + 1 := Int.lt_floor_add_one r
  rw [abs_le]
  unfold rne
  split_ifs <;> push_cast <;> constructor <;> linarith

/-- Rounding moves a value by at most half a unit in the last place: a relative
error of 2^-prec plus, for the subnormal range, half the least spacing. -/
theorem roundQ_err (f : Fmt) (v : ℚ) :
    |roundQ f v - v| ≤ |v| * 2 ^ (-(f.prec : ℤ)) + 2 ^ (1 - f.emax - (f.prec : ℤ)) := by
  by_cases hv : v = 0
  · subst hv
    rw [roundQ_zero, sub_zero, abs_zero, zero_mul, zero_add]
    exact (two_zpow_pos _).le
  obtain ⟨s1, _⟩ := ilog2_spec v hv
  have hu : (0 : ℚ) < 2 ^ ulpExp f v := two_zpow_pos _
  have h1 : |roundQ f v - v| ≤ 2 ^ ulpExp f v / 2 := by
    have e : roundQ f v - v = ((rne (v / 2 ^ ulpExp f v) : ℚ) - v / 2 ^ ulpExp f v) *
        2 ^ ulpExp f v := by
      unfold roundQ
      field_simp
    rw [e, abs_mul, abs_of_pos hu]
    have := rne_err (v / 2 ^ ulpExp f v)
    nlinarith
  have h2 : (2 : ℚ) ^ ulpExp f v ≤
      2 ^ (ilog2 v - ((f.prec : ℤ) - 1)) + 2 ^ (2 - f.emax - (f.prec : ℤ)) := by
    unfold ulpExp
    rcases max_cases (ilog2 v - ((f.prec : ℤ) - 1)) (2 - f.emax - (f.prec : ℤ)) with
      ⟨h, _⟩ | ⟨h, _⟩ <;> rw [h]
    · linarith [two_zpow_pos (2 - f.emax - (f.prec : ℤ))]
    · linarith [two_zpow_pos (ilog2 v - ((f.prec : ℤ) - 1))]
  have h3 : (2 : ℚ) ^ (ilog2 v - ((f.prec : ℤ) - 1)) = 2 ^ ilog2 v * 2 ^ (-(f.prec : ℤ)) * 2 := by
    rw [show ilog2 v - ((f.prec : ℤ) - 1) = ilog2 v + -(f.prec : ℤ) + 1 by ring,
      zpow_add₀ (by norm_num : (2 : ℚ) ≠ 0), zpow_add₀ (by norm_num : (2 : ℚ) ≠ 0), zpow_one]
  have h4 : (2 : ℚ) ^ (2 - f.emax - (f.prec : ℤ)) = 2 ^ (1 - f.emax - (f.prec : ℤ)) * 2 := by
    rw [show 2 - f.emax - (f.prec : ℤ) = (1 - f.emax - (f.prec : ℤ)) + 1 by ring,
      zpow_add₀ (by norm_num : (2 : ℚ) ≠ 0), zpow_one]
  have h5 : (2 : ℚ) ^ ilog2 v * 2 ^ (-(f.prec : ℤ)) ≤ |v| * 2 ^ (-(f.prec : ℤ)) :=
    mul_le_mul_of_nonneg_right s1 (two_zpow_pos _).le
  rw [h3, h4] at h2
  linarith

/-- The rounding error on binary32: 2^-24 relative plus 2^-150. -/
theorem roundQ_err32 (v : ℚ) :
    |roundQ binary32 v - v| ≤ |v| * (1 / 2 ^ 24) + 1 / 2 ^ 150 := by
  have h := roundQ_err binary32 v
  have e1 : (2 : ℚ) ^ (-(binary32.prec : ℤ)) = 1 / 2 ^ 24 := by
    rw [show (-(binary32.prec : ℤ)) = -((24 : ℕ) : ℤ) by rfl, zpow_neg, zpow_natCast]
    norm_num
  have e2 : (2 : ℚ) ^ (1 - binary32.emax - (binary32.prec : ℤ)) = 1 / 2 ^ 150 := by
    rw [show (1 - binary32.emax - (binary32.prec : ℤ)) = -((150 : ℕ) : ℤ) by rfl, zpow_neg,
      zpow_natCast]
    norm_num
  rw [e1, e2] at h
  exact h

/-- The rounding error on binary64: 2^-53 relative plus 2^-1075. -/
theorem roundQ_err64 (v : ℚ) :
    |roundQ binary64 v - v| ≤ |v| * (1 / 2 ^ 53) + 1 / 2 ^ 1075 := by
  have h := roundQ_err binary64 v
  have e1 : (2 : ℚ) ^ (-(binary64.prec : ℤ)) = 1 / 2 ^ 53 := by
    rw [show (-(binary64.prec : ℤ)) = -((53 : ℕ) : ℤ) by rfl, zpow_neg, zpow_natCast]
    norm_num
  have e2 : (2 : ℚ) ^ (1 - binary64.emax - (binary64.prec : ℤ)) = 1 / 2 ^ 1075 := by
    rw [show (1 - binary64.emax - (binary64.prec : ℤ)) = -((1075 : ℕ) : ℤ) by rfl, zpow_neg,
      zpow_natCast]
    norm_num
  rw [e1, e2] at h
  exact h

/-! ## Finite operations -/

theorem round_finite (f : Fmt) (v : ℚ) (h : |roundQ f v| < 2 ^ (f.emax + 1)) :
    (Fl.round f v).isFinite = true ∧ (Fl.round f v).toRat = roundQ f v := by
  by_cases h0 : roundQ f v = 0
  · rw [round_eq_zero f v h0, h0]
    exact ⟨zero_isFinite _, zero_toRat _⟩
  · rw [round_eq_fin f v h h0]
    exact ⟨rfl, rfl⟩

theorem finite_cases (x : Fl) (h : x.isFinite = true) : x = Fl.fin x.toRat ∨ x = Fl.nzero := by
  cases x with
  | nan => simp [Fl.isFinite] at h
  | inf a => simp [Fl.isFinite] at h
  | nzero => exact Or.inr rfl
  | fin q => exact Or.inl rfl

theorem mul_finite (f : Fmt) (x y : Fl) (hx : x.isFinite = true) (hy : y.isFinite = true)
    (h : |roundQ f (x.toRat * y.toRat)| < 2 ^ (f.emax + 1)) :
    (Fl.mul f x y).isFinite = true ∧ (Fl.mul f x y).toRat = roundQ f (x.toRat * y.toRat) := by
  have key : Fl.mul f x y = if x.toRat * y.toRat = 0 then Fl.zero (x.sign != y.sign)
      else Fl.round f (x.toRat * y.toRat) := by
    rcases finite_cases x hx with h1 | h1 <;> rcases finite_cases y hy with h2 | h2 <;>
      rw [h1, h2] <;> rfl
  rw [key]
  split
  · rename_i h0
    rw [h0, roundQ_zero]
    exact ⟨zero_isFinite _, zero_toRat _⟩
  · exact round_finite f _ h

theorem add_finite (f : Fmt) (x y : Fl) (hx : x.isFinite = true) (hy : y.isFinite = true)
    (h : |roundQ f (x.toRat + y.toRat)| < 2 ^ (f.emax + 1)) :
    (Fl.add f x y).isFinite = true ∧ (Fl.add f x y).toRat = roundQ f (x.toRat + y.toRat) := by
  have key : Fl.add f x y = if x.toRat + y.toRat = 0 then Fl.zero (x.sign && y.sign)
      else Fl.round f (x.toRat + y.toRat) := by
    rcases finite_cases x hx with h1 | h1 <;> rcases finite_cases y hy with h2 | h2 <;>
      rw [h1, h2] <;> rfl
  rw [key]
  split
  · rename_i h0
    rw [h0, roundQ_zero]
    exact ⟨zero_isFinite _, zero_toRat _⟩
  · exact round_finite f _ h

theorem neg_isFinite (x : Fl) (h : x.isFinite = true) : (Fl.neg x).isFinite = true := by
  cases x with
  | nan => simp [Fl.isFinite] at h
  | inf a => simp [Fl.isFinite] at h
  | nzero => rfl
  | fin q => by_cases hq : q = 0 <;> simp [Fl.neg, hq, Fl.isFinite]

theorem sub_finite (f : Fmt) (x y : Fl) (hx : x.isFinite = true) (hy : y.isFinite = true)
    (h : |roundQ f (x.toRat - y.toRat)| < 2 ^ (f.emax + 1)) :
    (Fl.sub f x y).isFinite = true ∧ (Fl.sub f x y).toRat = roundQ f (x.toRat - y.toRat) := by
  unfold Fl.sub
  have := add_finite f x (Fl.neg y) hx (neg_isFinite y hy)
    (by rw [toRat_neg, ← sub_eq_add_neg]; exact h)
  rw [toRat_neg, ← sub_eq_add_neg] at this
  exact this

theorem cvt_finite (f : Fmt) (x : Fl) (hx : x.isFinite = true)
    (h : |roundQ f x.toRat| < 2 ^ (f.emax + 1)) :
    (Fl.cvt f x).isFinite = true ∧ (Fl.cvt f x).toRat = roundQ f x.toRat := by
  cases x with
  | nan => simp [Fl.isFinite] at hx
  | inf a => simp [Fl.isFinite] at hx
  | nzero => simp [Fl.cvt, Fl.isFinite, Fl.toRat, roundQ_zero]
  | fin q =>
    by_cases hq : q = 0
    · subst hq
      simp [Fl.cvt, Fl.isFinite, Fl.toRat, roundQ_zero]
    · simp only [Fl.cvt, if_neg hq]
      exact round_finite f q h

/-- A value of magnitude at most 2^100 does not overflow binary32. -/
theorem roundQ32_lt (v : ℚ) (h : |v| ≤ 2 ^ 100) :
    |roundQ binary32 v| < 2 ^ (binary32.emax + 1) := by
  have e : (2 : ℚ) ^ (binary32.emax + 1) = 2 ^ 128 := by
    rw [show binary32.emax + 1 = ((128 : ℕ) : ℤ) by rfl, zpow_natCast]
  rw [e]
  have h1 := roundQ_err32 v
  have h2 : |roundQ binary32 v| ≤ |roundQ binary32 v - v| + |v| := by
    have := abs_add (roundQ binary32 v - v) v
    rwa [sub_add_cancel] at this
  have h3 : |v| * (1 / 2 ^ 24) ≤ 2 ^ 100 * (1 / 2 ^ 24) :=
    mul_le_mul_of_nonneg_right h (by positivity)
  norm_num at h1 h3 h ⊢
  linarith

/-- A value of magnitude at most 2^1000 does not overflow binary64. -/
theorem roundQ64_lt (v : ℚ) (h : |v| ≤ 2 ^ 1000) :
    |roundQ binary64 v| < 2 ^ (binary64.emax + 1) := by
  have e : (2 : ℚ) ^ (binary64.emax + 1) = 2 ^ 1024 := by
    rw [show binary64.emax + 1 = ((1024 : ℕ) : ℤ) by rfl, zpow_natCast]
  rw [e]
  have h1 := roundQ_err64 v
  have h2 : |roundQ binary64 v| ≤ |roundQ binary64 v - v| + |v| := by
    have := abs_add (roundQ binary64 v - v) v
    rwa [sub_add_cancel] at this
  have h3 : |v| * (1 / 2 ^ 53) ≤ 2 ^ 1000 * (1 / 2 ^ 53) :=
    mul_le_mul_of_nonneg_right h (by positivity)
  norm_num at h1 h3 h ⊢
  linarith

/-! ## Rounding error of a rotated pair -/

theorem mul32_err (x y : Fl) (hx : x.isFinite = true) (hy : y.isFinite = true)
    (h : |x.toRat * y.toRat| ≤ 2 ^ 100) :
    (Fl.mul binary32 x y).isFinite = true ∧
    |(Fl.mul binary32 x y).toRat - x.toRat * y.toRat| ≤
      |x.toRat * y.toRat| * (1 / 2 ^ 24) + 1 / 2 ^ 150 := by
  obtain ⟨h1, h2⟩ := mul_finite binary32 x y hx hy (roundQ32_lt _ h)
  exact ⟨h1, by rw [h2]; exact roundQ_err32 _⟩

theorem add32_err (x y : Fl) (hx : x.isFinite = true) (hy : y.isFinite = true)
    (h : |x.toRat + y.toRat| ≤ 2 ^ 100) :
    (Fl.add binary32 x y).isFinite = true ∧
    |(Fl.add binary32 x y).toRat - (x.toRat + y.toRat)| ≤
      |x.toRat + y.toRat| * (1 / 2 ^ 24) + 1 / 2 ^ 150 := by
  obtain ⟨h1, h2⟩ := add_finite binary32 x y hx hy (roundQ32_lt _ h)
  exact ⟨h1, by rw [h2]; exact roundQ_err32 _⟩

theorem sub32_err (x y : Fl) (hx : x.isFinite = true) (hy : y.isFinite = true)
    (h : |x.toRat - y.toRat| ≤ 2 ^ 100) :
    (Fl.sub binary32 x y).isFinite = true ∧
    |(Fl.sub binary32 x y).toRat - (x.toRat - y.toRat)| ≤
      |x.toRat - y.toRat| * (1 / 2 ^ 24) + 1 / 2 ^ 150 := by
  obtain ⟨h1, h2⟩ := sub_finite binary32 x y hx hy (roundQ32_lt _ h)
  exact ⟨h1, by rw [h2]; exact roundQ_err32 _⟩

/-- Two rounded products of magnitude at most |a| and |b|: their sum and the
distance of a rounding of that sum from the exact a * c + b * s. -/
theorem rot_err_core (a b c s p q : ℚ) (hc : |c| ≤ 1) (hs : |s| ≤ 1)
    (hp : |p - a * c| ≤ |a * c| * (1 / 2 ^ 24) + 1 / 2 ^ 150)
    (hq : |q - b * s| ≤ |b * s| * (1 / 2 ^ 24) + 1 / 2 ^ 150) :
    |p + q| ≤ (|a| + |b|) * (1 + 1 / 2 ^ 24) + 2 / 2 ^ 150 ∧
    ∀ X : ℚ, |X - (p + q)| ≤ |p + q| * (1 / 2 ^ 24) + 1 / 2 ^ 150 →
      |X - (a * c + b * s)| ≤ 3 / 2 ^ 24 * (|a| + |b|) + 1 / 2 ^ 148 := by
  have hac : |a * c| ≤ |a| := by
    rw [abs_mul]; exact mul_le_of_le_one_right (abs_nonneg a) hc
  have hbs : |b * s| ≤ |b| := by
    rw [abs_mul]; exact mul_le_of_le_one_right (abs_nonneg b) hs
  have hp1 : |p| ≤ |p - a * c| + |a * c| := by
    have := abs_add (p - a * c) (a * c)
    rwa [sub_add_cancel] at this
  have hq1 : |q| ≤ |q - b * s| + |b * s| := by
    have := abs_add (q - b * s) (b * s)
    rwa [sub_add_cancel] at this
  have hpq : |p + q| ≤ |p| + |q| := abs_add p q
  have ha0 := abs_nonneg a
  have hb0 := abs_nonneg b
  have hsum : |p + q| ≤ (|a| + |b|) * (1 + 1 / 2 ^ 24) + 2 / 2 ^ 150 := by
    norm_num at hp hq ⊢
    linarith
  refine ⟨hsum, fun X hX => ?_⟩
  have htri : |X - (a * c + b * s)| ≤ |X - (p + q)| + |p - a * c| + |q - b * s| := by
    have e : X - (a * c + b * s) = (X - (p + q)) + (p - a * c) + (q - b * s) := by ring
    rw [e]
    exact abs_add_three _ _ _
  norm_num at hp hq hX hsum ⊢
  linarith

theorem rotate_pair_err (xa xb xc xs : Fl)
    (hfa : xa.isFinite = true) (hfb : xb.isFinite = true)
    (hfc : xc.isFinite = true) (hfs : xs.isFinite = true)
    (ha : |xa.toRat| ≤ 2 ^ 90) (hb : |xb.toRat| ≤ 2 ^ 90)
    (hc : |xc.toRat| ≤ 1) (hs : |xs.toRat| ≤ 1) :
    (Fl.sub binary32 (Fl.mul binary32 xa xc) (Fl.mul binary32 xb xs)).isFinite = true ∧
    (Fl.add binary32 (Fl.mul binary32 xa xs) (Fl.mul binary32 xb xc)).isFinite = true ∧
    |(Fl.sub binary32 (Fl.mul binary32 xa xc) (Fl.mul binary32 xb xs)).toRat -
        (xa.toRat * xc.toRat - xb.toRat * xs.toRat)| ≤
      3 / 2 ^ 24 * (|xa.toRat| + |xb.toRat|) + 1 / 2 ^ 148 ∧
    |(Fl.add binary32 (Fl.mul binary32 xa xs) (Fl.mul binary32 xb xc)).toRat -
        (xa.toRat * xs.toRat + xb.toRat * xc.toRat)| ≤
      3 / 2 ^ 24 * (|xa.toRat| + |xb.toRat|) + 1 / 2 ^ 148 := by
  have big : ∀ u v : ℚ, |u| ≤ 2 ^ 90 → |v| ≤ 1 → |u * v| ≤ 2 ^ 100 := by
    intro u v hu hv
    rw [abs_mul]
    calc |u| * |v| ≤ 2 ^ 90 * 1 := mul_le_mul hu hv (abs_nonneg v) (by positivity)
      _ ≤ 2 ^ 100 := by norm_num
  obtain ⟨f1, e1⟩ := mul32_err xa xc hfa hfc (big _ _ ha hc)
  obtain ⟨f2, e2⟩ := mul32_err xb xs hfb hfs (big _ _ hb hs)
  obtain ⟨f3, e3⟩ := mul32_err xa xs hfa hfs (big _ _ ha hs)
  obtain ⟨f4, e4⟩ := mul32_err xb xc hfb hfc (big _ _ hb hc)
  have e2n : |-(Fl.mul binary32 xb xs).toRat - -xb.toRat * xs.toRat| ≤
      |-xb.toRat * xs.toRat| * (1 / 2 ^ 24) + 1 / 2 ^ 150 := by
    have e : -(Fl.mul binary32 xb xs).toRat - -xb.toRat * xs.toRat =
        -((Fl.mul binary32 xb xs).toRat - xb.toRat * xs.toRat) := by ring
    rw [e, abs_neg, neg_mul, abs_neg]
    exact e2
  obtain ⟨sx, cx⟩ := rot_err_core xa.toRat (-xb.toRat) xc.toRat xs.toRat _ _ hc hs e1 e2n
  obtain ⟨sy, cy⟩ := rot_err_core xa.toRat xb.toRat xs.toRat xc.toRat _ _ hs hc e3 e4
  rw [abs_neg] at sx cx
  rw [← sub_eq_add_neg] at sx cx
  have lim : (|xa.toRat| + |xb.toRat|) * (1 + 1 / 2 ^ 24) + 2 / 2 ^ 150 ≤ (2 : ℚ) ^ 100 := by
    norm_num at ha hb ⊢
    linarith
  obtain ⟨g1, d1⟩ := sub32_err _ _ f1 f2 (sx.trans lim)
  obtain ⟨g2, d2⟩ := add32_err _ _ f3 f4 (sy.trans lim)
  refine ⟨g1, g2, ?_, cy _ d2⟩
  have := cx _ d1
  rwa [neg_mul, ← sub_eq_add_neg] at this

/-- The squared norm of a pair within E of an exactly rotated pair. -/
theorem norm_err_core (a b c s X Y E : ℚ) (hc : |c| ≤ 1) (hs : |s| ≤ 1)
    (hX : |X - (a * c - b * s)| ≤ E) (hY : |Y - (a * s + b * c)| ≤ E) :
    |X ^ 2 + Y ^ 2 - (a ^ 2 + b ^ 2)| ≤
      (a ^ 2 + b ^ 2) * |c ^ 2 + s ^ 2 - 1| + 2 * E * (2 * (|a| + |b|) + E) := by
  have hE : 0 ≤ E := (abs_nonneg _).trans hX
  have sq : ∀ U u : ℚ, |U - u| ≤ E → |u| ≤ |a| + |b| →
      |U ^ 2 - u ^ 2| ≤ E * (2 * (|a| + |b|) + E) := by
    intro U u h1 h2
    have e : U ^ 2 - u ^ 2 = (U - u) * ((U - u) + 2 * u) := by ring
    rw [e, abs_mul]
    have h3 : |(U - u) + 2 * u| ≤ E + 2 * (|a| + |b|) := by
      refine (abs_add _ _).trans ?_
      rw [abs_mul, abs_two]
      linarith
    calc |U - u| * |(U - u) + 2 * u| ≤ E * (E + 2 * (|a| + |b|)) :=
          mul_le_mul h1 h3 (abs_nonneg _) hE
      _ = E * (2 * (|a| + |b|) + E) := by ring
  have prod : ∀ u v : ℚ, |v| ≤ 1 → |u * v| ≤ |u| := by
    intro u v hv
    rw [abs_mul]; exact mul_le_of_le_one_right (abs_nonneg u) hv
  have hx0 : |a * c - b * s| ≤ |a| + |b| :=
    (abs_sub _ _).trans (add_le_add (prod a c hc) (prod b s hs))
  have hy0 : |a * s + b * c| ≤ |a| + |b| :=
    (abs_add _ _).trans (add_le_add (prod a s hs) (prod b c hc))
  have e : X ^ 2 + Y ^ 2 - (a ^ 2 + b ^ 2) =
      (X ^ 2 - (a * c - b * s) ^ 2) + (Y ^ 2 - (a * s + b * c) ^ 2) +
        (a ^ 2 + b ^ 2) * (c ^ 2 + s ^ 2 - 1) := by ring
  have hn : |(a ^ 2 + b ^ 2) * (c ^ 2 + s ^ 2 - 1)| = (a ^ 2 + b ^ 2) * |c ^ 2 + s ^ 2 - 1| := by
    rw [abs_mul, abs_of_nonneg (by positivity : (0 : ℚ) ≤ a ^ 2 + b ^ 2)]
  rw [e]
  refine (abs_add_three _ _ _).trans ?_
  rw [hn]
  have := sq X _ hX hx0
  have := sq Y _ hY hy0
  linarith

/-! ## Norm of a rotated pair -/

theorem rotate_elem (P : Platform) (A B : List Fl) (theta : Fl) (h : A.length = B.length)
    (i : ℕ) (a b : Fl) (hA : A[i]? = some a) (hB : B[i]? = some b) :
    ∃ X Y, rotate_x P A B theta = some X ∧ rotate_y P A B theta = some Y ∧
      X.length = A.length ∧ Y.length = A.length ∧
      X[i]? = some (Fl.sub binary32 (Fl.mul binary32 a (P.cos theta))
        (Fl.mul binary32 b (P.sin theta))) ∧
      Y[i]? = some (Fl.add binary32 (Fl.mul binary32 a (P.sin theta))
        (Fl.mul binary32 b (P.cos theta))) := by
  refine ⟨_, _, rotate_x_eq P A B theta h, rotate_y_eq P A B theta h, ?_, ?_, ?_, ?_⟩
  · simp [h]
  · simp [h]
  · simp [List.getElem?_zipWith, hA, hB]
  · simp [List.getElem?_zipWith, hA, hB]

/-- C11, refuted as stated: with cos 4 and sin 4 correctly rounded, the pair
(3, 4) rotated by the angle 4 becomes (4472299/4194304, -5122275/1048576), whose
squared norm is not 25, neither exactly nor when the squares and their sum are
formed in float arithmetic (13107201/524288 against 25). -/
theorem C11_norm_not_preserved :
    rotate_x tablePlatform [Fl.fin 3] [Fl.fin 4] (Fl.fin 4) = some [Fl.fin (4472299 / 4194304)] ∧
    rotate_y tablePlatform [Fl.fin 3] [Fl.fin 4] (Fl.fin 4)
      = some [Fl.fin (-5122275 / 1048576)] ∧
    (4472299 / 4194304 : ℚ) ^ 2 + (-5122275 / 1048576) ^ 2 ≠ 3 ^ 2 + 4 ^ 2 ∧
    Fl.add binary32
        (Fl.mul binary32 (Fl.fin (4472299 / 4194304)) (Fl.fin (4472299 / 4194304)))
        (Fl.mul binary32 (Fl.fin (-5122275 / 1048576)) (Fl.fin (-5122275 / 1048576)))
      = Fl.fin (13107201 / 524288) ∧
    Fl.add binary32 (Fl.mul binary32 (Fl.fin 3) (Fl.fin 3))
        (Fl.mul binary32 (Fl.fin 4) (Fl.fin 4)) = Fl.fin 25 := by
  decide!

/-- C11, amended: for equal-length sequences A, B, an index i at which both
hold finite floats a, b of magnitude at most 2^90, and an angle whose cos and
sin are finite floats c, s of magnitude at most 1, the rotated elements x =
rotate_x(A, B, theta)[i] and y = rotate_y(A, B, theta)[i] are finite and their
squared norm is that of (a, b) within a tolerance:
|x^2 + y^2 - (a^2 + b^2)| <= (a^2 + b^2) * |c^2 + s^2 - 1|
  + (|a| + |b|)^2 / 2^20 + (|a| + |b|) / 2^145 + 1 / 2^290. -/
theorem C11_norm_tolerance (P : Platform) (A B : List Fl) (theta : Fl)
    (h : A.length = B.length) (i : ℕ) (xa xb : Fl)
    (hA : A[i]? = some xa) (hB : B[i]? = some xb)
    (hfa : xa.isFinite = true) (hfb : xb.isFinite = true)
    (ha : |xa.toRat| ≤ 2 ^ 90) (hb : |xb.toRat| ≤ 2 ^ 90)
    (hfc : (P.cos theta).isFinite = true) (hfs : (P.sin theta).isFinite = true)
    (hc : |(P.cos theta).toRat| ≤ 1) (hs : |(P.sin theta).toRat| ≤ 1) :
    ∃ A' B' x y, rotate_x P A B theta = some A' ∧ rotate_y P A B theta = some B' ∧
      A'[i]? = some x ∧ B'[i]? = some y ∧ x.isFinite = true ∧ y.isFinite = true ∧
      |x.toRat ^ 2 + y.toRat ^ 2 - (xa.toRat ^ 2 + xb.toRat ^ 2)| ≤
        (xa.toRat ^ 2 + xb.toRat ^ 2) *
            |(P.cos theta).toRat ^ 2 + (P.sin theta).toRat ^ 2 - 1| +
          (|xa.toRat| + |xb.toRat|) ^ 2 / 2 ^ 20 + (|xa.toRat| + |xb.toRat|) / 2 ^ 145 +
          1 / 2 ^ 290 := by
  obtain ⟨X, Y, hX, hY, -, -, eX, eY⟩ := rotate_elem P A B theta h i xa xb hA hB
  obtain ⟨g1, g2, d1, d2⟩ := rotate_pair_err xa xb _ _ hfa hfb hfc hfs ha hb hc hs
  refine ⟨X, Y, _, _, hX, hY, eX, eY, g1, g2, ?_⟩
  refine (norm_err_core _ _ _ _ _ _ _ hc hs d1 d2).trans ?_
  have hS : 0 ≤ |xa.toRat| + |xb.toRat| := add_nonneg (abs_nonneg _) (abs_nonneg _)
  generalize |xa.toRat| + |xb.toRat| = S at hS
  generalize (xa.toRat ^ 2 + xb.toRat ^ 2) *
    |(P.cos theta).toRat ^ 2 + (P.sin theta).toRat ^ 2 - 1| = N
  have h2 : 0 ≤ S * S := mul_nonneg hS hS
  have e : 2 * (3 / 2 ^ 24 * S + 1 / 2 ^ 148) * (2 * S + (3 / 2 ^ 24 * S + 1 / 2 ^ 148)) =
      (12 / 2 ^ 24 + 18 / 2 ^ 48) * (S * S) + (4 / 2 ^ 148 + 12 / 2 ^ 172) * S
        + 2 / 2 ^ 296 := by ring
  have e2 : S ^ 2 / 2 ^ 20 = 1 / 2 ^ 20 * (S * S) := by ring
  rw [e, e2]
  norm_num
  linarith

/-- Witness of C11: the pair (3, 4) rotated by the angle 4. -/
theorem C11_norm_tolerance_witness :
    ∃ A' B' x y, rotate_x tablePlatform [Fl.fin 3] [Fl.fin 4] (Fl.fin 4) = some A' ∧
      rotate_y tablePlatform [Fl.fin 3] [Fl.fin 4] (Fl.fin 4) = some B' ∧
      A'[0]? = some x ∧ B'[0]? = some y ∧ x.isFinite = true ∧ y.isFinite = true ∧
      |x.toRat ^ 2 + y.toRat ^ 2 - ((Fl.fin 3).toRat ^ 2 + (Fl.fin 4).toRat ^ 2)| ≤
        ((Fl.fin 3).toRat ^ 2 + (Fl.fin 4).toRat ^ 2) *
            |(tablePlatform.cos (Fl.fin 4)).toRat ^ 2 + (tablePlatform.sin (Fl.fin 4)).toRat ^ 2
              - 1| +
          (|(Fl.fin 3).toRat| + |(Fl.fin 4).toRat|) ^ 2 / 2 ^ 20 +
          (|(Fl.fin 3).toRat| + |(Fl.fin 4).toRat|) / 2 ^ 145 + 1 / 2 ^ 290 :=
  C11_norm_tolerance tablePlatform [Fl.fin 3] [Fl.fin 4] (Fl.fin 4) rfl 0 (Fl.fin 3) (Fl.fin 4)
    rfl rfl rfl rfl (by decide!) (by decide!) rfl rfl (by decide!) (by decide!)

/-! ## Two rotations in sequence -/

/-- The error of a rotation applied to an already rotated pair: both results
lie within 13 * 2^-24 * (|a| + |b|) + 13 * 2^-150 of the exact composition. -/
theorem compose_err_core (a b c1 s1 c2 s2 x1 y1 X2 Y2 : ℚ)
    (hc1 : |c1| ≤ 1) (hs1 : |s1| ≤ 1) (hc2 : |c2| ≤ 1) (hs2 : |s2| ≤ 1)
    (h1x : |x1 - (a * c1 - b * s1)| ≤ 3 / 2 ^ 24 * (|a| + |b|) + 1 / 2 ^ 148)
    (h1y : |y1 - (a * s1 + b * c1)| ≤ 3 / 2 ^ 24 * (|a| + |b|) + 1 / 2 ^ 148)
    (h2x : |X2 - (x1 * c2 - y1 * s2)| ≤ 3 / 2 ^ 24 * (|x1| + |y1|) + 1 / 2 ^ 148)
    (h2y : |Y2 - (x1 * s2 + y1 * c2)| ≤ 3 / 2 ^ 24 * (|x1| + |y1|) + 1 / 2 ^ 148) :
    |X2 - (a * (c1 * c2 - s1 * s2) - b * (s1 * c2 + c1 * s2))| ≤
        13 / 2 ^ 24 * (|a| + |b|) + 13 / 2 ^ 150 ∧
    |Y2 - (a * (s1 * c2 + c1 * s2) + b * (c1 * c2 - s1 * s2))| ≤
        13 / 2 ^ 24 * (|a| + |b|) + 13 / 2 ^ 150 := by
  have prod : ∀ u v : ℚ, |v| ≤ 1 → |u * v| ≤ |u| := by
    intro u v hv
    rw [abs_mul]; exact mul_le_of_le_one_right (abs_nonneg u) hv
  have hx0 : |a * c1 - b * s1| ≤ |a| + |b| :=
    (abs_sub _ _).trans (add_le_add (prod a c1 hc1) (prod b s1 hs1))
  have hy0 : |a * s1 + b * c1| ≤ |a| + |b| :=
    (abs_add _ _).trans (add_le_add (prod a s1 hs1) (prod b c1 hc1))
  have hx1 : |x1| ≤ |x1 - (a * c1 - b * s1)| + |a * c1 - b * s1| := by
    have := abs_add (x1 - (a * c1 - b * s1)) (a * c1 - b * s1)
    rwa [sub_add_cancel] at this
  have hy1 : |y1| ≤ |y1 - (a * s1 + b * c1)| + |a * s1 + b * c1| := by
    have := abs_add (y1 - (a * s1 + b * c1)) (a * s1 + b * c1)
    rwa [sub_add_cancel] at this
  have ha0 := abs_nonneg a
  have hb0 := abs_nonneg b
  have px1 := prod (x1 - (a * c1 - b * s1)) c2 hc2
  have px2 := prod (x1 - (a * c1 - b * s1)) s2 hs2
  have py1 := prod (y1 - (a * s1 + b * c1)) c2 hc2
  have py2 := prod (y1 - (a * s1 + b * c1)) s2 hs2
  constructor
  · have e : X2 - (a * (c1 * c2 - s1 * s2) - b * (s1 * c2 + c1 * s2)) =
        (X2 - (x1 * c2 - y1 * s2)) + (x1 - (a * c1 - b * s1)) * c2
          + -((y1 - (a * s1 + b * c1)) * s2) := by ring
    rw [e]
    refine (abs_add_three _ _ _).trans ?_
    rw [abs_neg]
    norm_num at h1x h1y h2x h2y ⊢
    linarith
  · have e : Y2 - (a * (s1 * c2 + c1 * s2) + b * (c1 * c2 - s1 * s2)) =
        (Y2 - (x1 * s2 + y1 * c2)) + (x1 - (a * c1 - b * s1)) * s2
          + (y1 - (a * s1 + b * c1)) * c2 := by ring
    rw [e]
    refine (abs_add_three _ _ _).trans ?_
    norm_num at h1x h1y h2x h2y ⊢
    linarith

/-- Magnitude of a rotated element: inputs up to 2^88 give outputs up to 2^90. -/
theorem rotated_le (a b c s x : ℚ) (ha : |a| ≤ 2 ^ 88) (hb : |b| ≤ 2 ^ 88)
    (hc : |c| ≤ 1) (hs : |s| ≤ 1)
    (h : |x - (a * c + b * s)| ≤ 3 / 2 ^ 24 * (|a| + |b|) + 1 / 2 ^ 148) : |x| ≤ 2 ^ 90 := by
  have prod : ∀ u v : ℚ, |v| ≤ 1 → |u * v| ≤ |u| := by
    intro u v hv
    rw [abs_mul]; exact mul_le_of_le_one_right (abs_nonneg u) hv
  have h0 : |a * c + b * s| ≤ |a| + |b| :=
    (abs_add _ _).trans (add_le_add (prod a c hc) (prod b s hs))
  have h1 : |x| ≤ |x - (a * c + b * s)| + |a * c + b * s| := by
    have := abs_add (x - (a * c + b * s)) (a * c + b * s)
    rwa [sub_add_cancel] at this
  norm_num at ha hb h ⊢
  linarith

/-- Two rotations of one pair of finite floats, by angles with cos and sin c1,
s1 and then c2, s2: the results are finite and within rounding error of the
exact composed rotation. -/
theorem rotate_twice_err (xa xb c1 s1 c2 s2 : Fl)
    (hfa : xa.isFinite = true) (hfb : xb.isFinite = true)
    (ha : |xa.toRat| ≤ 2 ^ 88) (hb : |xb.toRat| ≤ 2 ^ 88)
    (hfc1 : c1.isFinite = true) (hfs1 : s1.isFinite = true)
    (hfc2 : c2.isFinite = true) (hfs2 : s2.isFinite = true)
    (hc1 : |c1.toRat| ≤ 1) (hs1 : |s1.toRat| ≤ 1) (hc2 : |c2.toRat| ≤ 1) (hs2 : |s2.toRat| ≤ 1) :
    (Fl.sub binary32
      (Fl.mul binary32 (Fl.sub binary32 (Fl.mul binary32 xa c1) (Fl.mul binary32 xb s1)) c2)
      (Fl.mul binary32 (Fl.add binary32 (Fl.mul binary32 xa s1) (Fl.mul binary32 xb c1)) s2)
      ).isFinite = true ∧
    (Fl.add binary32
      (Fl.mul binary32 (Fl.sub binary32 (Fl.mul binary32 xa c1) (Fl.mul binary32 xb s1)) s2)
      (Fl.mul binary32 (Fl.add binary32 (Fl.mul binary32 xa s1) (Fl.mul binary32 xb c1)) c2)
      ).isFinite = true ∧
    |(Fl.sub binary32
      (Fl.mul binary32 (Fl.sub binary32 (Fl.mul binary32 xa c1) (Fl.mul binary32 xb s1)) c2)
      (Fl.mul binary32 (Fl.add binary32 (Fl.mul binary32 xa s1) (Fl.mul binary32 xb c1)) s2)
      ).toRat -
      (xa.toRat * (c1.toRat * c2.toRat - s1.toRat * s2.toRat) -
        xb.toRat * (s1.toRat * c2.toRat + c1.toRat * s2.toRat))| ≤
      13 / 2 ^ 24 * (|xa.toRat| + |xb.toRat|) + 13 / 2 ^ 150 ∧
    |(Fl.add binary32
      (Fl.mul binary32 (Fl.sub binary32 (Fl.mul binary32 xa c1) (Fl.mul binary32 xb s1)) s2)
      (Fl.mul binary32 (Fl.add binary32 (Fl.mul binary32 xa s1) (Fl.mul binary32 xb c1)) c2)
      ).toRat -
      (xa.toRat * (s1.toRat * c2.toRat + c1.toRat * s2.toRat) +
        xb.toRat * (c1.toRat * c2.toRat - s1.toRat * s2.toRat))| ≤
      13 / 2 ^ 24 * (|xa.toRat| + |xb.toRat|) + 13 / 2 ^ 150 := by
  have le90 : ∀ v : ℚ, |v| ≤ 2 ^ 88 → |v| ≤ 2 ^ 90 := fun v hv =>
    hv.trans (by norm_num : (2 : ℚ) ^ 88 ≤ 2 ^ 90)
  obtain ⟨g1, g2, d1, d2⟩ :=
    rotate_pair_err xa xb c1 s1 hfa hfb hfc1 hfs1 (le90 _ ha) (le90 _ hb) hc1 hs1
  have m1 : |(Fl.sub binary32 (Fl.mul binary32 xa c1) (Fl.mul binary32 xb s1)).toRat| ≤ 2 ^ 90 := by
    have hb2 : |-xb.toRat| ≤ 2 ^ 88 := by rw [abs_neg]; exact hb
    refine rotated_le xa.toRat (-xb.toRat) c1.toRat s1.toRat _ ha hb2 hc1 hs1 ?_
    rw [abs_neg, neg_mul, ← sub_eq_add_neg]
    exact d1
  have m2 : |(Fl.add binary32 (Fl.mul binary32 xa s1) (Fl.mul binary32 xb c1)).toRat| ≤ 2 ^ 90 :=
    rotated_le xa.toRat xb.toRat s1.toRat c1.toRat _ ha hb hs1 hc1 d2
  obtain ⟨k1, k2, e1, e2⟩ := rotate_pair_err _ _ c2 s2 g1 g2 hfc2 hfs2 m1 m2 hc2 hs2
  obtain ⟨r1, r2⟩ := compose_err_core _ _ _ _ _ _ _ _ _ _ hc1 hs1 hc2 hs2 d1 d2 e1 e2
  exact ⟨k1, k2, r1, r2⟩

theorem rotate_twice_elem (P : Platform) (A B : List Fl) (t1 t2 : Fl)
    (h : A.length = B.length) :
    ∃ A' B' A'' B'', rotate_x P A B t1 = some A' ∧ rotate_y P A B t1 = some B' ∧
      rotate_x P A' B' t2 = some A'' ∧ rotate_y P A' B' t2 = some B'' ∧
      A''.length = A.length ∧ B''.length = B.length ∧
      ∀ (i : ℕ) (xa xb : Fl), A[i]? = some xa → B[i]? = some xb →
        A''[i]? = some (Fl.sub binary32
          (Fl.mul binary32 (Fl.sub binary32 (Fl.mul binary32 xa (P.cos t1))
            (Fl.mul binary32 xb (P.sin t1))) (P.cos t2))
          (Fl.mul binary32 (Fl.add binary32 (Fl.mul binary32 xa (P.sin t1))
            (Fl.mul binary32 xb (P.cos t1))) (P.sin t2))) ∧
        B''[i]? = some (Fl.add binary32
          (Fl.mul binary32 (Fl.sub binary32 (Fl.mul binary32 xa (P.cos t1))
            (Fl.mul binary32 xb (P.sin t1))) (P.sin t2))
          (Fl.mul binary32 (Fl.add binary32 (Fl.mul binary32 xa (P.sin t1))
            (Fl.mul binary32 xb (P.cos t1))) (P.cos t2))) := by
  have hl : (List.zipWith (fun a b => Fl.sub binary32 (Fl.mul binary32 a (P.cos t1))
        (Fl.mul binary32 b (P.sin t1))) A B).length =
      (List.zipWith (fun a b => Fl.add binary32 (Fl.mul binary32 a (P.sin t1))
        (Fl.mul binary32 b (P.cos t1))) A B).length := by simp
  refine ⟨_, _, _, _, rotate_x_eq P A B t1 h, rotate_y_eq P A B t1 h,
    rotate_x_eq P _ _ t2 hl, rotate_y_eq P _ _ t2 hl, ?_, ?_, ?_⟩
  · simp [h]
  · simp [h]
  · intro i xa xb hA hB
    simp [List.getElem?_zipWith, hA, hB]

/-! ## Round trip -/

/-- C12, refuted as stated: with cos and sin correctly rounded at 4 and -4
(cos even, sin odd), the pair (1, 3) rotated by 4 and then by -4 comes back as
(8388609/8388608, 3): the first element is one unit in the last place above 1. -/
theorem C12_round_trip_differs :
    tablePlatform.cos (Fl.neg (Fl.fin 4)) = tablePlatform.cos (Fl.fin 4) ∧
    tablePlatform.sin (Fl.neg (Fl.fin 4)) = Fl.neg (tablePlatform.sin (Fl.fin 4)) ∧
    rotate_x tablePlatform [Fl.fin 1] [Fl.fin 3] (Fl.fin 4) = some [Fl.fin (6781199 / 4194304)] ∧
    rotate_y tablePlatform [Fl.fin 1] [Fl.fin 3] (Fl.fin 4) = some [Fl.fin (-1424875 / 524288)] ∧
    rotate_x tablePlatform [Fl.fin (6781199 / 4194304)] [Fl.fin (-1424875 / 524288)]
      (Fl.neg (Fl.fin 4)) = some [Fl.fin (8388609 / 8388608)] ∧
    rotate_y tablePlatform [Fl.fin (6781199 / 4194304)] [Fl.fin (-1424875 / 524288)]
      (Fl.neg (Fl.fin 4)) = some [Fl.fin 3] ∧
    [Fl.fin (8388609 / 8388608)] ≠ [Fl.fin 1] := by
  decide!

/-- C12, amended: where cos(-theta) = cos(theta) and sin(-theta) = -sin(theta)
are finite floats c, s of magnitude at most 1, for equal-length sequences A, B
the rotation by theta followed by the rotation by -theta returns sequences of
the same lengths, and at every index holding finite floats a, b of magnitude at
most 2^88 the returned elements x, y are finite with
|x - a| <= |a| * |c^2 + s^2 - 1| + (|a| + |b|) / 2^20 + 1 / 2^146 and
|y - b| <= |b| * |c^2 + s^2 - 1| + (|a| + |b|) / 2^20 + 1 / 2^146. -/
theorem C12_round_trip_tolerance (P : Platform) (A B : List Fl) (theta : Fl)
    (h : A.length = B.length)
    (hce : P.cos (Fl.neg theta) = P.cos theta)
    (hse : P.sin (Fl.neg theta) = Fl.neg (P.sin theta))
    (hfc : (P.cos theta).isFinite = true) (hfs : (P.sin theta).isFinite = true)
    (hc : |(P.cos theta).toRat| ≤ 1) (hs : |(P.sin theta).toRat| ≤ 1) :
    ∃ A' B' A'' B'', rotate_x P A B theta = some A' ∧ rotate_y P A B theta = some B' ∧
      rotate_x P A' B' (Fl.neg theta) = some A'' ∧
      rotate_y P A' B' (Fl.neg theta) = some B'' ∧
      A''.length = A.length ∧ B''.length = B.length ∧
      ∀ (i : ℕ) (xa xb : Fl), A[i]? = some xa → B[i]? = some xb →
        xa.isFinite = true → xb.isFinite = true →
        |xa.toRat| ≤ 2 ^ 88 → |xb.toRat| ≤ 2 ^ 88 →
        ∃ x y, A''[i]? = some x ∧ B''[i]? = some y ∧
          x.isFinite = true ∧ y.isFinite = true ∧
          |x.toRat - xa.toRat| ≤
            |xa.toRat| * |(P.cos theta).toRat ^ 2 + (P.sin theta).toRat ^ 2 - 1| +
              (|xa.toRat| + |xb.toRat|) / 2 ^ 20 + 1 / 2 ^ 146 ∧
          |y.toRat - xb.toRat| ≤
            |xb.toRat| * |(P.cos theta).toRat ^ 2 + (P.sin theta).toRat ^ 2 - 1| +
              (|xa.toRat| + |xb.toRat|) / 2 ^ 20 + 1 / 2 ^ 146 := by
  obtain ⟨A', B', A'', B'', h1, h2, h3, h4, l1, l2, hel⟩ :=
    rotate_twice_elem P A B theta (Fl.neg theta) h
  refine ⟨A', B', A'', B'', h1, h2, h3, h4, l1, l2, ?_⟩
  intro i xa xb hA hB hfa hfb ha hb
  obtain ⟨eX, eY⟩ := hel i xa xb hA hB
  have hfs2 : (Fl.neg (P.sin theta)).isFinite = true := neg_isFinite _ hfs
  have hs2 : |(Fl.neg (P.sin theta)).toRat| ≤ 1 := by rw [toRat_neg, abs_neg]; exact hs
  obtain ⟨k1, k2, r1, r2⟩ := rotate_twice_err xa xb (P.cos theta) (P.sin theta) (P.cos theta)
    (Fl.neg (P.sin theta)) hfa hfb ha hb hfc hfs hfc hfs2 hc hs hc hs2
  rw [hce, hse] at eX eY
  refine ⟨_, _, eX, eY, k1, k2, ?_, ?_⟩
  · rw [toRat_neg] at r1
    generalize (Fl.sub binary32 (Fl.mul binary32 (Fl.sub binary32 (Fl.mul binary32 xa (P.cos theta))
      (Fl.mul binary32 xb (P.sin theta))) (P.cos theta))
      (Fl.mul binary32 (Fl.add binary32 (Fl.mul binary32 xa (P.sin theta))
      (Fl.mul binary32 xb (P.cos theta))) (Fl.neg (P.sin theta)))).toRat = X at r1 ⊢
    generalize (P.cos theta).toRat = c at r1 ⊢
    generalize (P.sin theta).toRat = s at r1 ⊢
    generalize xa.toRat = a at r1 ⊢
    generalize xb.toRat = b at r1 ⊢
    have e : X - a = (X - (a * (c * c - s * -s) - b * (s * c + c * -s))) +
        a * (c ^ 2 + s ^ 2 - 1) := by ring
    rw [e]
    refine (abs_add _ _).trans ?_
    rw [abs_mul]
    have ha0 := abs_nonneg a
    have hb0 := abs_nonneg b
    norm_num at r1 ⊢
    linarith
  · rw [toRat_neg] at r2
    generalize (Fl.add binary32 (Fl.mul binary32 (Fl.sub binary32 (Fl.mul binary32 xa (P.cos theta))
      (Fl.mul binary32 xb (P.sin theta))) (Fl.neg (P.sin theta)))
      (Fl.mul binary32 (Fl.add binary32 (Fl.mul binary32 xa (P.sin theta))
      (Fl.mul binary32 xb (P.cos theta))) (P.cos theta))).toRat = Y at r2 ⊢
    generalize (P.cos theta).toRat = c at r2 ⊢
    generalize (P.sin theta).toRat = s at r2 ⊢
    generalize xa.toRat = a at r2 ⊢
    generalize xb.toRat = b at r2 ⊢
    have e : Y - b = (Y - (a * (s * c + c * -s) + b * (c * c - s * -s))) +
        b * (c ^ 2 + s ^ 2 - 1) := by ring
    rw [e]
    refine (abs_add _ _).trans ?_
    rw [abs_mul]
    have ha0 := abs_nonneg a
    have hb0 := abs_nonneg b
    norm_num at r2 ⊢
    linarith

/-- Witness of C12: the pair (1, 3) rotated by 4 and back. -/
theorem C12_round_trip_tolerance_witness :
    ∃ A' B' A'' B'', rotate_x tablePlatform [Fl.fin 1] [Fl.fin 3] (Fl.fin 4) = some A' ∧
      rotate_y tablePlatform [Fl.fin 1] [Fl.fin 3] (Fl.fin 4) = some B' ∧
      rotate_x tablePlatform A' B' (Fl.neg (Fl.fin 4)) = some A'' ∧
      rotate_y tablePlatform A' B' (Fl.neg (Fl.fin 4)) = some B'' ∧
      A''.length = [Fl.fin 1].length ∧ B''.length = [Fl.fin 3].length ∧
      ∀ (i : ℕ) (xa xb : Fl), [Fl.fin 1][i]? = some xa → [Fl.fin 3][i]? = some xb →
        xa.isFinite = true → xb.isFinite = true →
        |xa.toRat| ≤ 2 ^ 88 → |xb.toRat| ≤ 2 ^ 88 →
        ∃ x y, A''[i]? = some x ∧ B''[i]? = some y ∧
          x.isFinite = true ∧ y.isFinite = true ∧
          |x.toRat - xa.toRat| ≤
            |xa.toRat| * |(tablePlatform.cos (Fl.fin 4)).toRat ^ 2 +
                (tablePlatform.sin (Fl.fin 4)).toRat ^ 2 - 1| +
              (|xa.toRat| + |xb.toRat|) / 2 ^ 20 + 1 / 2 ^ 146 ∧
          |y.toRat - xb.toRat| ≤
            |xb.toRat| * |(tablePlatform.cos (Fl.fin 4)).toRat ^ 2 +
                (tablePlatform.sin (Fl.fin 4)).toRat ^ 2 - 1| +
              (|xa.toRat| + |xb.toRat|) / 2 ^ 20 + 1 / 2 ^ 146 :=
  C12_round_trip_tolerance tablePlatform [Fl.fin 1] [Fl.fin 3] (Fl.fin 4) rfl
    (by decide!) (by decide!) rfl rfl (by decide!) (by decide!)

/-! ## Composition of rotations -/

/-- C19, refuted as stated: with cos and sin correctly rounded at 4 and 8, the
pair (1, 3) rotated by 4 and again by 4 has first element -816205/262144, while
one rotation by 4 + 4 = 8 gives -13059279/4194304. -/
theorem C19_compose_differs :
    Fl.add binary32 (Fl.fin 4) (Fl.fin 4) = Fl.fin 8 ∧
    rotate_x tablePlatform [Fl.fin 1] [Fl.fin 3] (Fl.fin 4) = some [Fl.fin (6781199 / 4194304)] ∧
    rotate_y tablePlatform [Fl.fin 1] [Fl.fin 3] (Fl.fin 4) = some [Fl.fin (-1424875 / 524288)] ∧
    rotate_x tablePlatform [Fl.fin (6781199 / 4194304)] [Fl.fin (-1424875 / 524288)] (Fl.fin 4)
      = some [Fl.fin (-816205 / 262144)] ∧
    rotate_y tablePlatform [Fl.fin (6781199 / 4194304)] [Fl.fin (-1424875 / 524288)] (Fl.fin 4)
      = some [Fl.fin (2318855 / 4194304)] ∧
    rotate_x tablePlatform [Fl.fin 1] [Fl.fin 3] (Fl.add binary32 (Fl.fin 4) (Fl.fin 4))
      = some [Fl.fin (-13059279 / 4194304)] ∧
    rotate_y tablePlatform [Fl.fin 1] [Fl.fin 3] (Fl.add binary32 (Fl.fin 4) (Fl.fin 4))
      = some [Fl.fin (2318855 / 4194304)] ∧
    [Fl.fin (-816205 / 262144)] ≠ [Fl.fin (-13059279 / 4194304)] := by
  decide!

/-- C19, amended: let t12 be the float sum of the angles t1 and t2, and let
the cos and sin of t1, t2 and t12 be finite floats c1, s1, c2, s2, c12, s12 of
magnitude at most 1. For equal-length sequences A, B all four rotations return
sequences, and at every index holding finite floats a, b of magnitude at most
2^88 the elements x2, y2 of the two-step rotation and x12, y12 of the one-step
rotation are finite with
|x2 - x12| <= |a| * |c12 - (c1 c2 - s1 s2)| + |b| * |s12 - (s1 c2 + c1 s2)|
  + (|a| + |b|) / 2^20 + 1 / 2^145 and
|y2 - y12| <= |a| * |s12 - (s1 c2 + c1 s2)| + |b| * |c12 - (c1 c2 - s1 s2)|
  + (|a| + |b|) / 2^20 + 1 / 2^145. -/
theorem C19_compose_tolerance (P : Platform) (A B : List Fl) (t1 t2 : Fl)
    (h : A.length = B.length)
    (hfc1 : (P.cos t1).isFinite = true) (hfs1 : (P.sin t1).isFinite = true)
    (hfc2 : (P.cos t2).isFinite = true) (hfs2 : (P.sin t2).isFinite = true)
    (hfc : (P.cos (Fl.add binary32 t1 t2)).isFinite = true)
    (hfs : (P.sin (Fl.add binary32 t1 t2)).isFinite = true)
    (hc1 : |(P.cos t1).toRat| ≤ 1) (hs1 : |(P.sin t1).toRat| ≤ 1)
    (hc2 : |(P.cos t2).toRat| ≤ 1) (hs2 : |(P.sin t2).toRat| ≤ 1)
    (hc : |(P.cos (Fl.add binary32 t1 t2)).toRat| ≤ 1)
    (hs : |(P.sin (Fl.add binary32 t1 t2)).toRat| ≤ 1) :
    ∃ A1 B1 A2 B2 A12 B12, rotate_x P A B t1 = some A1 ∧ rotate_y P A B t1 = some B1 ∧
      rotate_x P A1 B1 t2 = some A2 ∧ rotate_y P A1 B1 t2 = some B2 ∧
      rotate_x P A B (Fl.add binary32 t1 t2) = some A12 ∧
      rotate_y P A B (Fl.add binary32 t1 t2) = some B12 ∧
      A2.length = A12.length ∧ B2.length = B12.length ∧
      ∀ (i : ℕ) (xa xb : Fl), A[i]? = some xa → B[i]? = some xb →
        xa.isFinite = true → xb.isFinite = true →
        |xa.toRat| ≤ 2 ^ 88 → |xb.toRat| ≤ 2 ^ 88 →
        ∃ x2 y2 x12 y12, A2[i]? = some x2 ∧ B2[i]? = some y2 ∧
          A12[i]? = some x12 ∧ B12[i]? = some y12 ∧
          x2.isFinite = true ∧ y2.isFinite = true ∧
          x12.isFinite = true ∧ y12.isFinite = true ∧
          |x2.toRat - x12.toRat| ≤
            |xa.toRat| * |(P.cos (Fl.add binary32 t1 t2)).toRat -
                ((P.cos t1).toRat * (P.cos t2).toRat - (P.sin t1).toRat * (P.sin t2).toRat)| +
              |xb.toRat| * |(P.sin (Fl.add binary32 t1 t2)).toRat -
                ((P.sin t1).toRat * (P.cos t2).toRat + (P.cos t1).toRat * (P.sin t2).toRat)| +
              (|xa.toRat| + |xb.toRat|) / 2 ^ 20 + 1 / 2 ^ 145 ∧
          |y2.toRat - y12.toRat| ≤
            |xa.toRat| * |(P.sin (Fl.add binary32 t1 t2)).toRat -
                ((P.sin t1).toRat * (P.cos t2).toRat + (P.cos t1).toRat * (P.sin t2).toRat)| +
              |xb.toRat| * |(P.cos (Fl.add binary32 t1 t2)).toRat -
                ((P.cos t1).toRat * (P.cos t2).toRat - (P.sin t1).toRat * (P.sin t2).toRat)| +
              (|xa.toRat| + |xb.toRat|) / 2 ^ 20 + 1 / 2 ^ 145 := by
  obtain ⟨A1, B1, A2, B2, h1, h2, h3, h4, l1, l2, hel⟩ := rotate_twice_elem P A B t1 t2 h
  have h5 := rotate_x_eq P A B (Fl.add binary32 t1 t2) h
  have h6 := rotate_y_eq P A B (Fl.add binary32 t1 t2) h
  refine ⟨A1, B1, A2, B2, _, _, h1, h2, h3, h4, h5, h6, ?_, ?_, ?_⟩
  · simp [l1, h]
  · simp [l2, h]
  intro i xa xb hA hB hfa hfb ha hb
  obtain ⟨eX, eY⟩ := hel i xa xb hA hB
  obtain ⟨k1, k2, r1, r2⟩ := rotate_twice_err xa xb (P.cos t1) (P.sin t1) (P.cos t2)
    (P.sin t2) hfa hfb ha hb hfc1 hfs1 hfc2 hfs2 hc1 hs1 hc2 hs2
  obtain ⟨g1, g2, d1, d2⟩ := rotate_pair_err xa xb (P.cos (Fl.add binary32 t1 t2))
    (P.sin (Fl.add binary32 t1 t2)) hfa hfb hfc hfs
    (ha.trans (by norm_num : (2 : ℚ) ^ 88 ≤ 2 ^ 90))
    (hb.trans (by norm_num : (2 : ℚ) ^ 88 ≤ 2 ^ 90)) hc hs
  refine ⟨_, _, _, _, eX, eY, ?_, ?_, k1, k2, g1, g2, ?_, ?_⟩
  · simp [List.getElem?_zipWith, hA, hB]
  · simp [List.getElem?_zipWith, hA, hB]
  · generalize (Fl.sub binary32 (Fl.mul binary32 (Fl.sub binary32 (Fl.mul binary32 xa (P.cos t1))
      (Fl.mul binary32 xb (P.sin t1))) (P.cos t2))
      (Fl.mul binary32 (Fl.add binary32 (Fl.mul binary32 xa (P.sin t1))
      (Fl.mul binary32 xb (P.cos t1))) (P.sin t2))).toRat = X2 at r1 ⊢
    generalize (Fl.sub binary32 (Fl.mul binary32 xa (P.cos (Fl.add binary32 t1 t2)))
      (Fl.mul binary32 xb (P.sin (Fl.add binary32 t1 t2)))).toRat = X12 at d1 ⊢
    generalize (P.cos (Fl.add binary32 t1 t2)).toRat = c at d1 ⊢
    generalize (P.sin (Fl.add binary32 t1 t2)).toRat = s at d1 ⊢
    generalize (P.cos t1).toRat = c1 at r1 ⊢
    generalize (P.sin t1).toRat = s1 at r1 ⊢
    generalize (P.cos t2).toRat = c2 at r1 ⊢
    generalize (P.sin t2).toRat = s2 at r1 ⊢
    generalize xa.toRat = a at r1 d1 ⊢
    generalize xb.toRat = b at r1 d1 ⊢
    have e : X2 - X12 = (X2 - (a * (c1 * c2 - s1 * s2) - b * (s1 * c2 + c1 * s2))) +
        -(X12 - (a * c - b * s)) +
        (-(a * (c - (c1 * c2 - s1 * s2))) + b * (s - (s1 * c2 + c1 * s2))) := by ring
    rw [e]
    refine (abs_add_three _ _ _).trans ?_
    have t := abs_add (-(a * (c - (c1 * c2 - s1 * s2)))) (b * (s - (s1 * c2 + c1 * s2)))
    rw [abs_neg, abs_mul, abs_mul] at t
    rw [abs_neg]
    have ha0 := abs_nonneg a
    have hb0 := abs_nonneg b
    norm_num at r1 d1 ⊢
    linarith
  · generalize (Fl.add binary32 (Fl.mul binary32 (Fl.sub binary32 (Fl.mul binary32 xa (P.cos t1))
      (Fl.mul binary32 xb (P.sin t1))) (P.sin t2))
      (Fl.mul binary32 (Fl.add binary32 (Fl.mul binary32 xa (P.sin t1))
      (Fl.mul binary32 xb (P.cos t1))) (P.cos t2))).toRat = Y2 at r2 ⊢
    generalize (Fl.add binary32 (Fl.mul binary32 xa (P.sin (Fl.add binary32 t1 t2)))
      (Fl.mul binary32 xb (P.cos (Fl.add binary32 t1 t2)))).toRat = Y12 at d2 ⊢
    generalize (P.cos (Fl.add binary32 t1 t2)).toRat = c at d2 ⊢
    generalize (P.sin (Fl.add binary32 t1 t2)).toRat = s at d2 ⊢
    generalize (P.cos t1).toRat = c1 at r2 ⊢
    generalize (P.sin t1).toRat = s1 at r2 ⊢
    generalize (P.cos t2).toRat = c2 at r2 ⊢
    generalize (P.sin t2).toRat = s2 at r2 ⊢
    generalize xa.toRat = a at r2 d2 ⊢
    generalize xb.toRat = b at r2 d2 ⊢
    have e : Y2 - Y12 = (Y2 - (a * (s1 * c2 + c1 * s2) + b * (c1 * c2 - s1 * s2))) +
        -(Y12 - (a * s + b * c)) +
        (-(a * (s - (s1 * c2 + c1 * s2))) + -(b * (c - (c1 * c2 - s1 * s2)))) := by ring
    rw [e]
    refine (abs_add_three _ _ _).trans ?_
    have t := abs_add (-(a * (s - (s1 * c2 + c1 * s2)))) (-(b * (c - (c1 * c2 - s1 * s2))))
    rw [abs_neg, abs_neg, abs_mul, abs_mul] at t
    rw [abs_neg]
    have ha0 := abs_nonneg a
    have hb0 := abs_nonneg b
    norm_num at r2 d2 ⊢
    linarith

/-- Witness of C19: the pair (1, 3) rotated by 4 twice and by 8 once. -/
theorem C19_compose_tolerance_witness :
    ∃ A1 B1 A2 B2 A12 B12,
      rotate_x tablePlatform [Fl.fin 1] [Fl.fin 3] (Fl.fin 4) = some A1 ∧
      rotate_y tablePlatform [Fl.fin 1] [Fl.fin 3] (Fl.fin 4) = some B1 ∧
      rotate_x tablePlatform A1 B1 (Fl.fin 4) = some A2 ∧
      rotate_y tablePlatform A1 B1 (Fl.fin 4) = some B2 ∧
      rotate_x tablePlatform [Fl.fin 1] [Fl.fin 3] (Fl.add binary32 (Fl.fin 4) (Fl.fin 4))
        = some A12 ∧
      rotate_y tablePlatform [Fl.fin 1] [Fl.fin 3] (Fl.add binary32 (Fl.fin 4) (Fl.fin 4))
        = some B12 ∧
      A2.length = A12.length ∧ B2.length = B12.length ∧
      ∀ (i : ℕ) (xa xb : Fl), [Fl.fin 1][i]? = some xa → [Fl.fin 3][i]? = some xb →
        xa.isFinite = true → xb.isFinite = true →
        |xa.toRat| ≤ 2 ^ 88 → |xb.toRat| ≤ 2 ^ 88 →
        ∃ x2 y2 x12 y12, A2[i]? = some x2 ∧ B2[i]? = some y2 ∧
          A12[i]? = some x12 ∧ B12[i]? = some y12 ∧
          x2.isFinite = true ∧ y2.isFinite = true ∧
          x12.isFinite = true ∧ y12.isFinite = true ∧
          |x2.toRat - x12.toRat| ≤
            |xa.toRat| * |(tablePlatform.cos (Fl.add binary32 (Fl.fin 4) (Fl.fin 4))).toRat -
                ((tablePlatform.cos (Fl.fin 4)).toRat * (tablePlatform.cos (Fl.fin 4)).toRat -
                  (tablePlatform.sin (Fl.fin 4)).toRat * (tablePlatform.sin (Fl.fin 4)).toRat)| +
              |xb.toRat| * |(tablePlatform.sin (Fl.add binary32 (Fl.fin 4) (Fl.fin 4))).toRat -
                ((tablePlatform.sin (Fl.fin 4)).toRat * (tablePlatform.cos (Fl.fin 4)).toRat +
                  (tablePlatform.cos (Fl.fin 4)).toRat * (tablePlatform.sin (Fl.fin 4)).toRat)| +
              (|xa.toRat| + |xb.toRat|) / 2 ^ 20 + 1 / 2 ^ 145 ∧
          |y2.toRat - y12.toRat| ≤
            |xa.toRat| * |(tablePlatform.sin (Fl.add binary32 (Fl.fin 4) (Fl.fin 4))).toRat -
                ((tablePlatform.sin (Fl.fin 4)).toRat * (tablePlatform.cos (Fl.fin 4)).toRat +
                  (tablePlatform.cos (Fl.fin 4)).toRat * (tablePlatform.sin (Fl.fin 4)).toRat)| +
              |xb.toRat| * |(tablePlatform.cos (Fl.add binary32 (Fl.fin 4) (Fl.fin 4))).toRat -
                ((tablePlatform.cos (Fl.fin 4)).toRat * (tablePlatform.cos (Fl.fin 4)).toRat -
                  (tablePlatform.sin (Fl.fin 4)).toRat * (tablePlatform.sin (Fl.fin 4)).toRat)| +
              (|xa.toRat| + |xb.toRat|) / 2 ^ 20 + 1 / 2 ^ 145 :=
  C19_compose_tolerance tablePlatform [Fl.fin 1] [Fl.fin 3] (Fl.fin 4) (Fl.fin 4) rfl
    rfl rfl rfl rfl (by decide!) (by decide!)
    (by decide!) (by decide!) (by decide!) (by decide!) (by decide!) (by decide!)

/-! ## Opposite keys -/

theorem main_input_d (s : State) :
    main_input 'd' s = { s with camera_x := wrap32 (s.camera_x - 5) } := by
  simp [main_input]

theorem main_input_a (s : State) :
    main_input 'a' s = { s with camera_x := wrap32 (s.camera_x + 5) } := by
  simp [main_input]

theorem main_input_space (s : State) :
    main_input ' ' s = { s with camera_y := wrap32 (s.camera_y + 5) } := by
  simp [main_input]

theorem main_input_q (s : State) :
    main_input 'q' s = { s with camera_y := wrap32 (s.camera_y - 5) } := by
  simp [main_input]

theorem main_input_w (s : State) :
    main_input 'w' s = { s with camera_z := subAssign s.camera_z (lit64 (1 / 2)) } := by
  simp [main_input]

theorem main_input_j (s : State) :
    main_input 'j' s = { s with theta_x := subAssign s.theta_x (lit64 (1 / 10)) } := by
  simp [main_input]

theorem main_input_i (s : State) :
    main_input 'i' s = { s with theta_y := addAssign s.theta_y (lit64 (1 / 10)) } := by
  simp [main_input]

theorem main_input_k (s : State) :
    main_input 'k' s = { s with theta_y := subAssign s.theta_y (lit64 (1 / 10)) } := by
  simp [main_input]

/-- Five down and five up (or up and down) on an int return it, also across a
wrap. -/
theorem wrap32_cancel (n : ℤ) (h1 : -2 ^ 31 ≤ n) (h2 : n < 2 ^ 31) :
    wrap32 (wrap32 (n - 5) + 5) = n ∧ wrap32 (wrap32 (n + 5) - 5) = n := by
  unfold wrap32
  omega

/-- A double sum that is a multiple n/2 of one half with |n| at most 2^24 is
exact, and so is its conversion to float. -/
theorem assign_dyadic (x y : ℚ) (n : ℤ) (hxy : x + y = (n : ℚ) / 2) (hn : |n| ≤ 2 ^ 24) :
    Fl.cvt binary32 (Fl.add binary64 (Fl.fin x) (Fl.fin y)) = Fl.fin ((n : ℚ) / 2) := by
  by_cases h0 : x + y = 0
  · have hs : ((Fl.fin x).sign && (Fl.fin y).sign) = false := by
      by_cases hx : x < 0
      · have hy : ¬ y < 0 := by intro hy; linarith
        simp [Fl.sign, hy]
      · simp [Fl.sign, hx]
    have : Fl.add binary64 (Fl.fin x) (Fl.fin y) = Fl.fin 0 := by
      show (if x + y = 0 then Fl.zero ((Fl.fin x).sign && (Fl.fin y).sign)
        else Fl.round binary64 (x + y)) = Fl.fin 0
      rw [if_pos h0, hs]
      rfl
    rw [this, ← hxy, h0]
    simp [Fl.cvt]
  · have e : (n : ℚ) / 2 = (n : ℚ) * 2 ^ (-1 : ℤ) := by
      rw [zpow_neg_one, div_eq_mul_inv]
    have hn64 : |n| ≤ 2 ^ binary64.prec := hn.trans (by decide)
    have hn32 : |n| ≤ 2 ^ binary32.prec := hn
    have r64 : roundQ binary64 (x + y) = x + y := by
      rw [hxy, e]
      exact roundQ_representable binary64 (by decide) n (-1) (by decide) hn64
    have r32 : roundQ binary32 (x + y) = x + y := by
      rw [hxy, e]
      exact roundQ_representable binary32 (by decide) n (-1) (by decide) hn32
    have hb : |x + y| ≤ 2 ^ 24 := by
      rw [hxy, abs_div, abs_two]
      have : |(n : ℚ)| ≤ 2 ^ 24 := by exact_mod_cast hn
      linarith
    have lt64 : |roundQ binary64 (x + y)| < 2 ^ (binary64.emax + 1) :=
      roundQ64_lt _ (hb.trans (by norm_num))
    have lt32 : |roundQ binary32 (x + y)| < 2 ^ (binary32.emax + 1) :=
      roundQ32_lt _ (hb.trans (by norm_num))
    have a1 : Fl.add binary64 (Fl.fin x) (Fl.fin y) = Fl.fin (x + y) := by
      show (if x + y = 0 then Fl.zero ((Fl.fin x).sign && (Fl.fin y).sign)
        else Fl.round binary64 (x + y)) = Fl.fin (x + y)
      rw [if_neg h0, round_eq_fin binary64 _ lt64 (by rw [r64]; exact h0), r64]
    rw [a1]
    show (if x + y = 0 then Fl.fin 0 else Fl.round binary32 (x + y)) = Fl.fin ((n : ℚ) / 2)
    rw [if_neg h0, round_eq_fin binary32 _ lt32 (by rw [r32]; exact h0), r32, hxy]

/-- One compound assignment on a camera depth k/2. -/
theorem assign_half (k : ℤ) :
    (|k - 1| ≤ 2 ^ 24 →
      subAssign (Fl.fin ((k : ℚ) / 2)) (lit64 (1 / 2)) = Fl.fin (((k - 1 : ℤ) : ℚ) / 2)) ∧
    (|k + 1| ≤ 2 ^ 24 →
      addAssign (Fl.fin ((k : ℚ) / 2)) (lit64 (1 / 2)) = Fl.fin (((k + 1 : ℤ) : ℚ) / 2)) := by
  have hneg : Fl.neg (Fl.fin (1 / 2)) = Fl.fin (-(1 / 2)) := by
    simp [Fl.neg]
  constructor
  · intro h
    unfold subAssign Fl.sub
    rw [lit64_values.2, hneg]
    exact assign_dyadic _ _ (k - 1) (by push_cast; ring) h
  · intro h
    unfold addAssign
    rw [lit64_values.2]
    exact assign_dyadic _ _ (k + 1) (by push_cast; ring) h

/-- Error of a double sum converted to float. -/
theorem cvt_add_err (x y : Fl) (hx : x.isFinite = true) (hy : y.isFinite = true)
    (h : |x.toRat + y.toRat| ≤ 2 ^ 99) :
    (Fl.cvt binary32 (Fl.add binary64 x y)).isFinite = true ∧
    |(Fl.cvt binary32 (Fl.add binary64 x y)).toRat - (x.toRat + y.toRat)| ≤
      |x.toRat + y.toRat| * (1 / 2 ^ 24 + 1 / 2 ^ 52) + 1 / 2 ^ 149 := by
  obtain ⟨f1, e1⟩ := add_finite binary64 x y hx hy
    (roundQ64_lt _ (h.trans (by norm_num)))
  have d1 := roundQ_err64 (x.toRat + y.toRat)
  rw [← e1] at d1
  have m1 : |(Fl.add binary64 x y).toRat| ≤
      |(Fl.add binary64 x y).toRat - (x.toRat + y.toRat)| + |x.toRat + y.toRat| := by
    have := abs_add ((Fl.add binary64 x y).toRat - (x.toRat + y.toRat)) (x.toRat + y.toRat)
    rwa [sub_add_cancel] at this
  have m2 : |(Fl.add binary64 x y).toRat| ≤ 2 ^ 100 := by
    norm_num at d1 h ⊢
    linarith
  obtain ⟨f2, e2⟩ := cvt_finite binary32 _ f1 (roundQ32_lt _ m2)
  have d2 := roundQ_err32 (Fl.add binary64 x y).toRat
  rw [← e2] at d2
  refine ⟨f2, ?_⟩
  have tri := abs_sub_le (Fl.cvt binary32 (Fl.add binary64 x y)).toRat
    (Fl.add binary64 x y).toRat (x.toRat + y.toRat)
  have := abs_nonneg (x.toRat + y.toRat)
  norm_num at d1 d2 ⊢
  linarith

/-- Adding a small double constant to a float and then its negative: the float
comes back within a relative error of 2^-22 and an absolute error of 2^-27. -/
theorem two_step_err (t y1 y2 : Fl) (ht : t.isFinite = true) (h1 : y1.isFinite = true)
    (h2 : y2.isFinite = true) (hy : y2.toRat = -y1.toRat)
    (hT : |t.toRat| ≤ 2 ^ 90) (hC : |y1.toRat| ≤ 1 / 9) :
    (Fl.cvt binary32 (Fl.add binary64 (Fl.cvt binary32 (Fl.add binary64 t y1)) y2)).isFinite
      = true ∧
    |(Fl.cvt binary32 (Fl.add binary64 (Fl.cvt binary32 (Fl.add binary64 t y1)) y2)).toRat
      - t.toRat| ≤ |t.toRat| / 2 ^ 22 + 1 / 2 ^ 27 := by
  have s1 : |t.toRat + y1.toRat| ≤ |t.toRat| + |y1.toRat| := abs_add _ _
  obtain ⟨f1, e1⟩ := cvt_add_err t y1 ht h1 (by norm_num at hT hC ⊢; linarith)
  have m1 : |(Fl.cvt binary32 (Fl.add binary64 t y1)).toRat + y2.toRat| ≤
      |(Fl.cvt binary32 (Fl.add binary64 t y1)).toRat - (t.toRat + y1.toRat)| + |t.toRat| := by
    have e : (Fl.cvt binary32 (Fl.add binary64 t y1)).toRat + y2.toRat =
        ((Fl.cvt binary32 (Fl.add binary64 t y1)).toRat - (t.toRat + y1.toRat)) + t.toRat := by
      rw [hy]; ring
    rw [e]
    exact abs_add _ _
  obtain ⟨f2, e2⟩ := cvt_add_err _ y2 f1 h2 (by norm_num at hT hC e1 ⊢; linarith)
  refine ⟨f2, ?_⟩
  have tri : |(Fl.cvt binary32 (Fl.add binary64 (Fl.cvt binary32 (Fl.add binary64 t y1)) y2)).toRat
      - t.toRat| ≤
      |(Fl.cvt binary32 (Fl.add binary64 (Fl.cvt binary32 (Fl.add binary64 t y1)) y2)).toRat
        - ((Fl.cvt binary32 (Fl.add binary64 t y1)).toRat + y2.toRat)| +
      |(Fl.cvt binary32 (Fl.add binary64 t y1)).toRat - (t.toRat + y1.toRat)| := by
    have e : (Fl.cvt binary32 (Fl.add binary64 (Fl.cvt binary32 (Fl.add binary64 t y1)) y2)).toRat
        - t.toRat =
        ((Fl.cvt binary32 (Fl.add binary64 (Fl.cvt binary32 (Fl.add binary64 t y1)) y2)).toRat
          - ((Fl.cvt binary32 (Fl.add binary64 t y1)).toRat + y2.toRat)) +
        ((Fl.cvt binary32 (Fl.add binary64 t y1)).toRat - (t.toRat + y1.toRat)) := by
      rw [hy]; ring
    rw [e]
    exact abs_add _ _
  have := abs_nonneg t.toRat
  have := abs_nonneg y1.toRat
  norm_num at e1 e2 hC ⊢
  linarith

theorem lit64_tenth :
    (lit64 (1 / 10)).isFinite = true ∧ (Fl.neg (lit64 (1 / 10))).isFinite = true ∧
    |(lit64 (1 / 10)).toRat| ≤ 1 / 9 ∧ |(Fl.neg (lit64 (1 / 10))).toRat| ≤ 1 / 9 := by
  decide!

/-- C20, refuted as stated: from the initial state l then j leaves theta_x at
13421773/2^53 (about 1.49e-9), not at 0, and i then k does the same to theta_y;
from camera_z = 2^-30, w then s leaves camera_z at 0. -/
theorem C20_angle_keys_leave_residue :
    main_input 'j' (main_input 'l' State.initial) =
      { State.initial with theta_x := Fl.fin (13421773 / 9007199254740992) } ∧
    main_input 'k' (main_input 'i' State.initial) =
      { State.initial with theta_y := Fl.fin (13421773 / 9007199254740992) } ∧
    main_input 's' (main_input 'w' ⟨0, 0, Fl.fin (1 / 2 ^ 30), Fl.fin 0, Fl.fin 0⟩) =
      ⟨0, 0, Fl.fin 0, Fl.fin 0, Fl.fin 0⟩ ∧
    main_input 'j' (main_input 'l' State.initial) ≠ State.initial ∧
    main_input 'k' (main_input 'i' State.initial) ≠ State.initial := by
  decide!

/-- C20, amended: for every camera state with camera_x and camera_y in the int
range, d then a, a then d, space then q and q then space return exactly the
original state (int arithmetic modulo 2^32); w then s and s then w return it
exactly when camera_z is a multiple k/2 of one half with |k| < 2^24; l then j
and j then l change only theta_x, and i then k and k then i only theta_y, and
for a finite angle t of magnitude at most 2^90 the angle comes back finite and
within |t| / 2^22 + 2^-27 of t, not in general equal to it. -/
theorem C20_opposite_keys (s : State)
    (hx : -2 ^ 31 ≤ s.camera_x ∧ s.camera_x < 2 ^ 31)
    (hy : -2 ^ 31 ≤ s.camera_y ∧ s.camera_y < 2 ^ 31) :
    main_input 'a' (main_input 'd' s) = s ∧ main_input 'd' (main_input 'a' s) = s ∧
    main_input 'q' (main_input ' ' s) = s ∧ main_input ' ' (main_input 'q' s) = s ∧
    (∀ k : ℤ, |k| < 2 ^ 24 → s.camera_z = Fl.fin ((k : ℚ) / 2) →
      main_input 's' (main_input 'w' s) = s ∧ main_input 'w' (main_input 's' s) = s) ∧
    (s.theta_x.isFinite = true → |s.theta_x.toRat| ≤ 2 ^ 90 →
      ∃ t t', main_input 'j' (main_input 'l' s) = { s with theta_x := t } ∧
        main_input 'l' (main_input 'j' s) = { s with theta_x := t' } ∧
        t.isFinite = true ∧ t'.isFinite = true ∧
        |t.toRat - s.theta_x.toRat| ≤ |s.theta_x.toRat| / 2 ^ 22 + 1 / 2 ^ 27 ∧
        |t'.toRat - s.theta_x.toRat| ≤ |s.theta_x.toRat| / 2 ^ 22 + 1 / 2 ^ 27) ∧
    (s.theta_y.isFinite = true → |s.theta_y.toRat| ≤ 2 ^ 90 →
      ∃ t t', main_input 'k' (main_input 'i' s) = { s with theta_y := t } ∧
        main_input 'i' (main_input 'k' s) = { s with theta_y := t' } ∧
        t.isFinite = true ∧ t'.isFinite = true ∧
        |t.toRat - s.theta_y.toRat| ≤ |s.theta_y.toRat| / 2 ^ 22 + 1 / 2 ^ 27 ∧
        |t'.toRat - s.theta_y.toRat| ≤ |s.theta_y.toRat| / 2 ^ 22 + 1 / 2 ^ 27) := by
  obtain ⟨cx, cy, cz, tx, ty⟩ := s
  obtain ⟨f1, f2, c1, c2⟩ := lit64_tenth
  have hn : (Fl.neg (lit64 (1 / 10))).toRat = -(lit64 (1 / 10)).toRat := toRat_neg _
  have hn2 : (lit64 (1 / 10)).toRat = -(Fl.neg (lit64 (1 / 10))).toRat := by rw [hn, neg_neg]
  refine ⟨?_, ?_, ?_, ?_, ?_, ?_, ?_⟩
  · rw [main_input_d, main_input_a]
    simp [(wrap32_cancel cx hx.1 hx.2).1]
  · rw [main_input_a, main_input_d]
    simp [(wrap32_cancel cx hx.1 hx.2).2]
  · rw [main_input_space, main_input_q]
    simp [(wrap32_cancel cy hy.1 hy.2).2]
  · rw [main_input_q, main_input_space]
    simp [(wrap32_cancel cy hy.1 hy.2).1]
  · intro k hk hz
    simp only at hz
    subst hz
    have k1 : |k - 1| ≤ 2 ^ 24 := by rw [abs_le] at *; rw [abs_lt] at hk; omega
    have k2 : |k + 1| ≤ 2 ^ 24 := by rw [abs_le] at *; rw [abs_lt] at hk; omega
    have k0 : |k| ≤ 2 ^ 24 := hk.le
    have k3 : |k - 1 + 1| ≤ 2 ^ 24 := by rw [sub_add_cancel]; exact k0
    have k4 : |k + 1 - 1| ≤ 2 ^ 24 := by rw [add_sub_cancel_right]; exact k0
    constructor
    · rw [main_input_w, main_input_s]
      simp only [(assign_half k).1 k1, (assign_half (k - 1)).2 k3, sub_add_cancel]
    · rw [main_input_s, main_input_w]
      simp only [(assign_half k).2 k2, (assign_half (k + 1)).1 k4, add_sub_cancel_right]
  · intro hf hb
    obtain ⟨g1, d1⟩ := two_step_err tx _ _ hf f1 f2 hn hb c1
    obtain ⟨g2, d2⟩ := two_step_err tx _ _ hf f2 f1 hn2 hb c2
    exact ⟨_, _, by rw [main_input_l, main_input_j]; rfl,
      by rw [main_input_j, main_input_l]; rfl, g1, g2, d1, d2⟩
  · intro hf hb
    obtain ⟨g1, d1⟩ := two_step_err ty _ _ hf f1 f2 hn hb c1
    obtain ⟨g2, d2⟩ := two_step_err ty _ _ hf f2 f1 hn2 hb c2
    exact ⟨_, _, by rw [main_input_i, main_input_k]; rfl,
      by rw [main_input_k, main_input_i]; rfl, g1, g2, d1, d2⟩

/-- Witness of C20: the initial state. -/
theorem C20_opposite_keys_witness :
    main_input 'a' (main_input 'd' State.initial) = State.initial ∧
    main_input 'd' (main_input 'a' State.initial) = State.initial ∧
    main_input 'q' (main_input ' ' State.initial) = State.initial ∧
    main_input ' ' (main_input 'q' State.initial) = State.initial ∧
    (∀ k : ℤ, |k| < 2 ^ 24 → State.initial.camera_z = Fl.fin ((k : ℚ) / 2) →
      main_input 's' (main_input 'w' State.initial) = State.initial ∧
      main_input 'w' (main_input 's' State.initial) = State.initial) ∧
    (State.initial.theta_x.isFinite = true → |State.initial.theta_x.toRat| ≤ 2 ^ 90 →
      ∃ t t', main_input 'j' (main_input 'l' State.initial)
          = { State.initial with theta_x := t } ∧
        main_input 'l' (main_input 'j' State.initial) = { State.initial with theta_x := t' } ∧
        t.isFinite = true ∧ t'.isFinite = true ∧
        |t.toRat - State.initial.theta_x.toRat| ≤
          |State.initial.theta_x.toRat| / 2 ^ 22 + 1 / 2 ^ 27 ∧
        |t'.toRat - State.initial.theta_x.toRat| ≤
          |State.initial.theta_x.toRat| / 2 ^ 22 + 1 / 2 ^ 27) ∧
    (State.initial.theta_y.isFinite = true → |State.initial.theta_y.toRat| ≤ 2 ^ 90 →
      ∃ t t', main_input 'k' (main_input 'i' State.initial)
          = { State.initial with theta_y := t } ∧
        main_input 'i' (main_input 'k' State.initial) = { State.initial with theta_y := t' } ∧
        t.isFinite = true ∧ t'.isFinite = true ∧
        |t.toRat - State.initial.theta_y.toRat| ≤
          |State.initial.theta_y.toRat| / 2 ^ 22 + 1 / 2 ^ 27 ∧
        |t'.toRat - State.initial.theta_y.toRat| ≤
          |State.initial.theta_y.toRat| / 2 ^ 22 + 1 / 2 ^ 27) :=
  C20_opposite_keys State.initial (by decide) (by decide)

end Terminator
